import Mathlib

/-!
# Ricochet-robots board and search (board.h, board.cpp, command.h, main.cpp)

Shallow embedding of the sliding-robot board and of the recursive path search.

Conventions of the embedding
* C++ `int` is `Int`; vector indices and the `unsigned` loop counters are `Nat`.
  Signed overflow is undefined in C++ and is not modelled. Where the source compares or
  assigns between `int` and `unsigned int`, or adds on `unsigned int` (the reachability
  map), the conversion is written out modulo `2^32`.
* A failed `assert`, an out-of-range vector access and `exit` are the value `none`.
* A `double` wall coordinate `x` is carried as the integer `2 * x`
  (so `i - 0.5` is `2 * i - 1` and `i + 0.5` is `2 * i + 1`); `floor x` is then `(2 * x) / 2`.
* A mutating member function returns the new board next to its result.
-/

namespace Robochet

/-- The class `Position` of board.h: a row and a column, both `int`. -/
structure Position where
  row : Int
  col : Int
deriving DecidableEq

/-- The struct `command` of command.h. The two-argument constructor leaves `robonum`
without a value, which is `none` here. -/
structure command where
  robot : Char
  dir : Nat
  robonum : Option Nat
deriving DecidableEq

/-- The constructor `command()`: `robot = 0`, `dir = 4`, `robonum` not set. -/
def command.default : command := ⟨Char.ofNat 0, 4, none⟩

/-- The blank that marks an empty cell of the occupancy grid. -/
def blank : Char := Char.ofNat 32

/-- The representation of `class Board` (board.h, private members). -/
structure Board where
  rows : Int
  cols : Int
  board : List (List Char)
  vertical_walls : List (List Bool)
  horizontal_walls : List (List Bool)
  robots : List Char
  robot_positions : List Position
  goal : Position
  goal_robot : Int
deriving DecidableEq

namespace Board

/-- The constructor `Board::Board(r, c)`. A negative dimension makes the vector
constructors fail. The member `goal_robot` is not written by the constructor; its
indeterminate value is the argument `g`. -/
def construct (r c : Int) (g : Int) : Option Board :=
  if 0 ≤ r ∧ 0 ≤ c then
    some
      ⟨r, c,
        List.replicate r.toNat (List.replicate c.toNat blank),
        List.replicate r.toNat (((List.replicate (c.toNat + 1) false).set 0 true).set c.toNat true),
        ((List.replicate (r.toNat + 1) (List.replicate c.toNat false)).set 0
            (List.replicate c.toNat true)).set r.toNat (List.replicate c.toNat true),
        [], [], ⟨-1, -1⟩, g⟩
  else none

/-- Member `Board::getRows()`. -/
def getRows (b : Board) : Int := b.rows

/-- Member `Board::getCols()`. -/
def getCols (b : Board) : Int := b.cols

/-- Reads `grid[i][j]`. -/
def at2 {α : Type} (grid : List (List α)) (i j : Nat) : Option α :=
  match grid[i]? with
  | some l => l[j]?
  | none => none

/-- Writes `grid[i][j] = a`. -/
def set2 {α : Type} (grid : List (List α)) (i j : Nat) (a : α) : Option (List (List α)) :=
  match grid[i]? with
  | some l => if j < l.length then some (grid.set i (l.set j a)) else none
  | none => none

/-- Member `Board::getHorizontalWall(r, c)`, with `r2 = 2 * r`. -/
def getHorizontalWall (b : Board) (r2 : Int) (c : Int) : Option Bool :=
  if r2 % 2 = 1 ∧ 1 ≤ r2 ∧ r2 ≤ 2 * b.rows + 1 ∧ 1 ≤ c ∧ c ≤ b.cols then
    at2 b.horizontal_walls (r2 / 2).toNat (c - 1).toNat
  else none

/-- Member `Board::getVerticalWall(r, c)`, with `c2 = 2 * c`. -/
def getVerticalWall (b : Board) (r : Int) (c2 : Int) : Option Bool :=
  if c2 % 2 = 1 ∧ 1 ≤ r ∧ r ≤ b.rows ∧ 1 ≤ c2 ∧ c2 ≤ 2 * b.cols + 1 then
    at2 b.vertical_walls (r - 1).toNat (c2 / 2).toNat
  else none

/-- Member `Board::addHorizontalWall(r, c)`, with `r2 = 2 * r`. -/
def addHorizontalWall (b : Board) (r2 : Int) (c : Int) : Option Board :=
  if r2 % 2 = 1 ∧ 0 ≤ r2 ∧ r2 ≤ 2 * b.rows ∧ 1 ≤ c ∧ c ≤ b.cols then
    match at2 b.horizontal_walls (r2 / 2).toNat (c - 1).toNat with
    | some false =>
      match set2 b.horizontal_walls (r2 / 2).toNat (c - 1).toNat true with
      | some g => some { b with horizontal_walls := g }
      | none => none
    | _ => none
  else none

/-- Member `Board::addVerticalWall(r, c)`, with `c2 = 2 * c`. -/
def addVerticalWall (b : Board) (r : Int) (c2 : Int) : Option Board :=
  if c2 % 2 = 1 ∧ 1 ≤ r ∧ r ≤ b.rows ∧ 0 ≤ c2 ∧ c2 ≤ 2 * b.cols then
    match at2 b.vertical_walls (r - 1).toNat (c2 / 2).toNat with
    | some false =>
      match set2 b.vertical_walls (r - 1).toNat (c2 / 2).toNat true with
      | some g => some { b with vertical_walls := g }
      | none => none
    | _ => none
  else none

/-- Member `Board::getspot(p)`. -/
def getspot (b : Board) (p : Position) : Option Char :=
  if 1 ≤ p.row ∧ p.row ≤ b.rows ∧ 1 ≤ p.col ∧ p.col ≤ b.cols then
    at2 b.board (p.row - 1).toNat (p.col - 1).toNat
  else none

/-- Member `Board::setspot(p, a)`. -/
def setspot (b : Board) (p : Position) (a : Char) : Option Board :=
  if 1 ≤ p.row ∧ p.row ≤ b.rows ∧ 1 ≤ p.col ∧ p.col ≤ b.cols then
    match set2 b.board (p.row - 1).toNat (p.col - 1).toNat a with
    | some g => some { b with board := g }
    | none => none
  else none

/-- Member `Board::numRobots()`. -/
def numRobots (b : Board) : Nat := b.robots.length

/-- Member `Board::getRobot(i)`. -/
def getRobot (b : Board) (i : Nat) : Option Char := b.robots[i]?

/-- Member `Board::getRobotPosition(i)`. -/
def getRobotPosition (b : Board) (i : Nat) : Option Position := b.robot_positions[i]?

/-- Member `Board::getGoal()`. -/
def getGoal (b : Board) : Position := b.goal

/-- Member `Board::getGoalRobot()`. -/
def getGoalRobot (b : Board) : Int := b.goal_robot

/-- Member `Board::whichRobot(a)`: the first index holding the name `a`; `exit` when there is none. -/
def whichRobot (b : Board) (a : Char) : Option Nat :=
  if b.robots.indexOf a < b.robots.length then some (b.robots.indexOf a) else none

/-- Member `Board::placeRobot(p, a)`. -/
def placeRobot (b : Board) (p : Position) (a : Char) : Option Board :=
  if 1 ≤ p.row ∧ p.row ≤ b.rows ∧ 1 ≤ p.col ∧ p.col ≤ b.cols then
    match b.getspot p with
    | some s =>
      if s = blank ∧ p ≠ b.goal ∧ 'A' ≤ a ∧ a ≤ 'Z' ∧ a ∉ b.robots then
        setspot
          { b with robots := b.robots ++ [a], robot_positions := b.robot_positions ++ [p] } p a
      else none
    | none => none
  else none

/-- Member `Board::setGoal(gr, p)`. -/
def setGoal (b : Board) (gr : String) (p : Position) : Option Board :=
  if 1 ≤ p.row ∧ p.row ≤ b.rows ∧ 1 ≤ p.col ∧ p.col ≤ b.cols ∧
      (∀ i, i < b.robots.length → b.getRobotPosition i ≠ none ∧ b.getRobotPosition i ≠ some p) then
    if gr = "any" then some { b with goal := p, goal_robot := -1 }
    else
      match gr.data with
      | [a] =>
        match b.whichRobot a with
        | some k => some { b with goal := p, goal_robot := (k : Int) }
        | none => none
      | _ => none
  else none

/-- Member `Board::isPositionFilledByRobot(c)`. -/
def isPositionFilledByRobot (b : Board) (c : Position) : Bool :=
  b.robot_positions.any (fun p => decide (p = c))

/-- The test `c.row > 1 && !getHorizontalWall(c.row - .5, c.col)
&& !isPositionFilledByRobot(Position(c.row - 1, c.col))`. The operands of `&&` are
evaluated left to right and only as far as needed. -/
def clearNorth (b : Board) (c : Position) : Option Bool :=
  if c.row > 1 then
    match b.getHorizontalWall (2 * c.row - 1) c.col with
    | some w => some (!w && !b.isPositionFilledByRobot ⟨c.row - 1, c.col⟩)
    | none => none
  else some false

/-- The test `c.row < getRows() && !getHorizontalWall(c.row + .5, c.col)
&& !isPositionFilledByRobot(Position(c.row + 1, c.col))`. -/
def clearSouth (b : Board) (c : Position) : Option Bool :=
  if c.row < b.getRows then
    match b.getHorizontalWall (2 * c.row + 1) c.col with
    | some w => some (!w && !b.isPositionFilledByRobot ⟨c.row + 1, c.col⟩)
    | none => none
  else some false

/-- The test `c.col < getCols() && !getVerticalWall(c.row, c.col + .5)
&& !isPositionFilledByRobot(Position(c.row, c.col + 1))`. -/
def clearEast (b : Board) (c : Position) : Option Bool :=
  if c.col < b.getCols then
    match b.getVerticalWall c.row (2 * c.col + 1) with
    | some w => some (!w && !b.isPositionFilledByRobot ⟨c.row, c.col + 1⟩)
    | none => none
  else some false

/-- The test `c.col > 1 && !getVerticalWall(c.row, c.col - .5)
&& !isPositionFilledByRobot(Position(c.row, c.col - 1))`. -/
def clearWest (b : Board) (c : Position) : Option Bool :=
  if c.col > 1 then
    match b.getVerticalWall c.row (2 * c.col - 1) with
    | some w => some (!w && !b.isPositionFilledByRobot ⟨c.row, c.col - 1⟩)
    | none => none
  else some false

/-- Member `Board::canMoveRobot(i, direction)`: case 0 tests the row above, case 1 the row
below, case 2 the column to the right, case 3 the column to the left. -/
def canMoveRobot (b : Board) (i : Nat) (direction : Nat) : Option Bool :=
  match b.getRobotPosition i with
  | none => none
  | some c =>
    match direction with
    | 0 => b.clearNorth c
    | 1 => b.clearSouth c
    | 2 => b.clearEast c
    | 3 => b.clearWest c
    | _ => some false

end Board

/-- The loop `for (int i = start; 0 < i; i--) if (stop i) { ...; break; }`, run from
`start = n`: the value of `i` at the `break`, or `none` inside when the loop ends
without one. -/
def scanDown (stop : Int → Option Bool) : Nat → Option (Option Int)
  | 0 => some none
  | n + 1 =>
    match stop ((n : Int) + 1) with
    | none => none
    | some true => some (some ((n : Int) + 1))
    | some false => scanDown stop n

/-- The loop `for (int i = start; i <= hi; i++) if (stop i) { ...; break; }` with
`left` iterations still to go (`left = hi - i + 1`): the value of `i` at the `break`,
or `none` inside when the loop ends without one. -/
def scanUp (stop : Int → Option Bool) : Nat → Int → Option (Option Int)
  | 0, _ => some none
  | left + 1, i =>
    match stop i with
    | none => none
    | some true => some (some i)
    | some false => scanUp stop left (i + 1)

namespace Board

/-- The three statements run at a `break` of `moveRobot`: `setspot(robot_positions[d], ' ')`,
the assignment to one coordinate of `robot_positions[d]` (giving `p`), and
`setspot(robot_positions[d], robots[d])`. -/
def relocate (b : Board) (d : Nat) (p : Position) : Option Board :=
  match b.robot_positions[d]? with
  | none => none
  | some old =>
    match b.setspot old blank with
    | none => none
    | some b1 =>
      match b1.robots[d]? with
      | none => none
      | some a => setspot { b1 with robot_positions := b1.robot_positions.set d p } p a

/-- Result of a `case` of `moveRobot` whose first-step test passed: relocate at the
`break`, leave the board alone when the loop ended without one; `moved` stays `true`. -/
def finish (b : Board) (d : Nat) (place : Int → Position) :
    Option (Option Int) → Option (Bool × Board)
  | none => none
  | some none => some (true, b)
  | some (some i) =>
    match b.relocate d (place i) with
    | some b1 => some (true, b1)
    | none => none

/-- The `break` test of the north loop:
`getHorizontalWall(i - 0.5, c.col) || isPositionFilledByRobot(Position(i - 1, c.col)) || i == 1`. -/
def stopNorth (b : Board) (c : Position) (i : Int) : Option Bool :=
  match b.getHorizontalWall (2 * i - 1) c.col with
  | some w => some (w || b.isPositionFilledByRobot ⟨i - 1, c.col⟩ || decide (i = 1))
  | none => none

/-- The `break` test of the east loop:
`getVerticalWall(c.row, i + 0.5) || isPositionFilledByRobot(Position(c.row, i + 1)) || i == getCols()`. -/
def stopEast (b : Board) (c : Position) (i : Int) : Option Bool :=
  match b.getVerticalWall c.row (2 * i + 1) with
  | some w => some (w || b.isPositionFilledByRobot ⟨c.row, i + 1⟩ || decide (i = b.getCols))
  | none => none

/-- The `break` test of the south loop:
`getHorizontalWall(i + 0.5, c.col) || isPositionFilledByRobot(Position(i + 1, c.col)) || i == getRows()`. -/
def stopSouth (b : Board) (c : Position) (i : Int) : Option Bool :=
  match b.getHorizontalWall (2 * i + 1) c.col with
  | some w => some (w || b.isPositionFilledByRobot ⟨i + 1, c.col⟩ || decide (i = b.getRows))
  | none => none

/-- The `break` test of the west loop:
`getVerticalWall(c.row, i - 0.5) || isPositionFilledByRobot(Position(c.row, i - 1)) || i == 1`. -/
def stopWest (b : Board) (c : Position) (i : Int) : Option Bool :=
  match b.getVerticalWall c.row (2 * i - 1) with
  | some w => some (w || b.isPositionFilledByRobot ⟨c.row, i - 1⟩ || decide (i = 1))
  | none => none

/-- Member `Board::moveRobot(int d, unsigned short dir)`: 0 north, 1 east, 2 south, 3 west;
any other `dir` falls through the `switch` and `moved` is still `true`. -/
def moveRobot (b : Board) (d : Nat) (dir : Nat) : Option (Bool × Board) :=
  match b.getRobotPosition d with
  | none => none
  | some c =>
    match dir with
    | 0 =>
      match b.clearNorth c with
      | none => none
      | some true =>
        finish b d (fun i => ⟨i, c.col⟩) (scanDown (b.stopNorth c) c.row.toNat)
      | some false => some (false, b)
    | 1 =>
      match b.clearEast c with
      | none => none
      | some true =>
        finish b d (fun i => ⟨c.row, i⟩)
          (scanUp (b.stopEast c) (b.getCols - c.col + 1).toNat c.col)
      | some false => some (false, b)
    | 2 =>
      match b.clearSouth c with
      | none => none
      | some true =>
        finish b d (fun i => ⟨i, c.col⟩)
          (scanUp (b.stopSouth c) (b.getRows - c.row + 1).toNat c.row)
      | some false => some (false, b)
    | 3 =>
      match b.clearWest c with
      | none => none
      | some true =>
        finish b d (fun i => ⟨c.row, i⟩) (scanDown (b.stopWest c) c.col.toNat)
      | some false => some (false, b)
    | _ => some (true, b)

/-- Member `Board::executeCommand(y)`: `moveRobot(whichRobot(y.robot), y.dir)`, result dropped. -/
def executeCommand (b : Board) (y : command) : Option Board :=
  match b.whichRobot y.robot with
  | none => none
  | some k =>
    match b.moveRobot k y.dir with
    | none => none
    | some (_, b1) => some b1

/-- Member `Board::executeCommandToNewBoard(c)`: the same move made on a copy, which is returned. -/
def executeCommandToNewBoard (b : Board) (c : command) : Option Board :=
  match b.whichRobot c.robot with
  | none => none
  | some k =>
    match b.moveRobot k c.dir with
    | none => none
    | some (_, f) => some f

end Board

/-- A `for` loop over `xs` whose body may `return true` from the enclosing function:
the body is run on each element in turn with the current content of `path`; the first
`true` ends the loop, and `false` with the final `path` is the result when there is none. -/
def firstSuccess {α : Type} (body : α → List command → Option (Bool × List command)) :
    List α → List command → Option (Bool × List command)
  | [], path => some (false, path)
  | x :: xs, path =>
    match body x path with
    | none => none
    | some (true, path1) => some (true, path1)
    | some (false, path1) => firstSuccess body xs path1

/-- The loop `for (i = 0; i < c.numRobots(); i++) if (c.getRobotPosition(i) == c.getGoal())
return true;` of `findPath`, over the indices still to visit. -/
def anyRobotOnGoal (c : Board) : List Nat → Option Bool
  | [] => some false
  | i :: rest =>
    match c.getRobotPosition i with
    | none => none
    | some p => if p = c.getGoal then some true else anyRobotOnGoal c rest

/-- The goal test that opens `findPath`: any robot on the goal when `getGoalRobot()` is
`-1`, robot `getGoalRobot()` on the goal otherwise. -/
def goalReached (c : Board) : Option Bool :=
  if c.getGoalRobot = -1 then anyRobotOnGoal c (List.range c.numRobots)
  else if c.getGoalRobot < 0 then none
  else
    match c.getRobotPosition c.getGoalRobot.toNat with
    | none => none
    | some p => some (decide (p = c.getGoal))

/-- The body run for robot `i` and direction `d` inside `findPath`, with `recurse`
standing for the recursive call `findPath(temp, path, depth - 1, ...)`. The index `i` is
stored in the `unsigned short` member `robonum`, hence modulo `65536`. -/
def tryMove (recurse : Board → List command → command → Option (Bool × List command))
    (c : Board) (last : command) (i d : Nat) (path : List command) :
    Option (Bool × List command) :=
  if last.dir ≠ d ∨ last.robonum ≠ some i then
    match c.moveRobot i d with
    | none => none
    | some (false, _) => some (false, path)
    | some (true, temp) =>
      match temp.getRobot i with
      | none => none
      | some a =>
        match recurse temp path ⟨a, d, some (i % 65536)⟩ with
        | none => none
        | some (false, path1) => some (false, path1)
        | some (true, path1) =>
          match c.getRobot i with
          | none => none
          | some a0 => some (true, path1 ++ [⟨a0, d, none⟩])
  else some (false, path)

/-- Function `findPath` of main.cpp once `depth` is known not to be the sentinel `-1`; `n` is
`depth` when `depth >= 0` and `0` when `depth < -1` (no expansion in either case of
`depth <= 0`). The result is the returned flag with the content of `path` afterwards. -/
def findPathFrom : Nat → Board → List command → command → Option (Bool × List command)
  | 0, c, path, _ =>
    match goalReached c with
    | none => none
    | some true => some (true, path)
    | some false => some (false, path)
  | m + 1, c, path, last =>
    match goalReached c with
    | none => none
    | some true => some (true, path)
    | some false =>
      firstSuccess
        (fun i p => firstSuccess (fun d q => tryMove (findPathFrom m) c last i d q) [0, 1, 2, 3] p)
        (List.range c.numRobots) path

/-- Function `findPath(c, path, depth, last)` of main.cpp: `depth == -1` stands for
`c.getCols() * c.getRows()`. -/
def findPath (c : Board) (path : List command) (depth : Int) (last : command) :
    Option (Bool × List command) :=
  findPathFrom (if depth = -1 then c.getCols * c.getRows else depth).toNat c path last

/-- The loop `for (mx = max_moves - 2; d.empty() && mx <= max_moves; mx++)
findPath(board, d, mx);` of `main`, with the number of iterations still allowed; the
result is the value of `mx` after the loop with the content of `d`. -/
def searchLoop (board : Board) (max_moves : Int) :
    Nat → Int → List command → Option (Int × List command)
  | 0, mx, d => some (mx, d)
  | left + 1, mx, d =>
    if d = [] ∧ mx ≤ max_moves then
      match findPath board d mx command.default with
      | none => none
      | some (_, d1) => searchLoop board max_moves left (mx + 1) d1
    else some (mx, d)

/-- The search driver of `main`: `mx` runs from `max_moves - 2`, so three iterations at most. -/
def searchDriver (board : Board) (max_moves : Int) : Option (Int × List command) :=
  searchLoop board max_moves 3 (max_moves - 2) []

/-- The replay loop of `main`: `board.executeCommand(d[i])` for `i` from `d.size() - 1`
down to `0`, given the commands already in that order. -/
def replay (board : Board) : List command → Option Board
  | [] => some board
  | y :: rest =>
    match board.executeCommand y with
    | none => none
    | some b1 => replay b1 rest

/-- How a call of `BuildPlausibleCommand` ends: it returns a command or it throws. -/
inductive Outcome where
  | returned (c : command)
  | thrown
deriving DecidableEq

/-- The first loop of `BuildPlausibleCommand`: the first index at which the positions of
`a` and `b` differ, and the initial `0` of `single_difference` when there is none. -/
def firstDifference (a b : Board) : List Nat → Option Nat
  | [] => some 0
  | i :: rest =>
    match a.robot_positions[i]?, b.robot_positions[i]? with
    | some x, some y => if x ≠ y then some i else firstDifference a b rest
    | _, _ => none

/-- The loop over the four directions of `BuildPlausibleCommand`, carrying `command` and
`temp`: each round sets `temp = a`, moves robot `sd` in it, and on a match with the
position in `b` fills the command in and leaves the loop. -/
def directionLoop (a b : Board) (sd : Nat) : List Nat → command → Board → Option (command × Board)
  | [], cmd, temp => some (cmd, temp)
  | i :: rest, cmd, _ =>
    match a.moveRobot sd i with
    | none => none
    | some (_, temp) =>
      match temp.robot_positions[sd]?, b.robot_positions[sd]? with
      | some x, some y =>
        if x = y then
          match a.robots[sd]? with
          | some name => some (⟨name, i, cmd.robonum⟩, temp)
          | none => none
        else directionLoop a b sd rest cmd temp
      | _, _ => none

/-- The last loop of `BuildPlausibleCommand`: `true` when some index has
`temp.robot_positions[i] == b.robot_positions[i]`, which is where the function throws. -/
def somePositionEqual (temp b : Board) : List Nat → Option Bool
  | [] => some false
  | i :: rest =>
    match temp.robot_positions[i]?, b.robot_positions[i]? with
    | some x, some y => if x = y then some true else somePositionEqual temp b rest
    | _, _ => none

/-- Function `BuildPlausibleCommand(a, b)` of board.cpp. -/
def BuildPlausibleCommand (a b : Board) : Option Outcome :=
  let search : Option (command × Board) :=
    if a.robot_positions.length = b.robot_positions.length then
      match firstDifference a b (List.range a.robot_positions.length) with
      | none => none
      | some sd => directionLoop a b sd [0, 1, 2, 3] command.default a
    else some (command.default, a)
  match search with
  | none => none
  | some (cmd, temp) =>
    match somePositionEqual temp b (List.range a.robot_positions.length) with
    | none => none
    | some true => some Outcome.thrown
    | some false => some (Outcome.returned cmd)

/-! ## Reference notions taken from the specification -/

/-- The cell `k` single steps away from `p` in direction `d`
(0 north, 1 east, 2 south, 3 west). -/
def Position.shift (p : Position) (d : Nat) (k : Int) : Position :=
  match d with
  | 0 => ⟨p.row - k, p.col⟩
  | 1 => ⟨p.row, p.col + k⟩
  | 2 => ⟨p.row + k, p.col⟩
  | _ => ⟨p.row, p.col - k⟩

/-- The neighbour of `p` in direction `d`. -/
def Position.step (p : Position) (d : Nat) : Position := p.shift d 1

/-- The cell `p` lies inside the grid `[1, rows] x [1, cols]`. -/
def InGrid (b : Board) (p : Position) : Prop :=
  1 ≤ p.row ∧ p.row ≤ b.rows ∧ 1 ≤ p.col ∧ p.col ≤ b.cols

instance (b : Board) (p : Position) : Decidable (InGrid b p) :=
  inferInstanceAs (Decidable (1 ≤ p.row ∧ p.row ≤ b.rows ∧ 1 ≤ p.col ∧ p.col ≤ b.cols))

/-- The wall on side `d` of the cell `p`, read from the stored grids as the data model
describes them: `horizontal_walls[i][c - 1]` lies between rows `i` and `i + 1` of column
`c`, `vertical_walls[r - 1][j]` between columns `j` and `j + 1` of row `r`. A missing
entry counts as a wall. -/
def wallOnSide (b : Board) (p : Position) (d : Nat) : Bool :=
  match d with
  | 0 => (Board.at2 b.horizontal_walls (p.row - 1).toNat (p.col - 1).toNat).getD true
  | 1 => (Board.at2 b.vertical_walls (p.row - 1).toNat p.col.toNat).getD true
  | 2 => (Board.at2 b.horizontal_walls p.row.toNat (p.col - 1).toNat).getD true
  | _ => (Board.at2 b.vertical_walls (p.row - 1).toNat (p.col - 1).toNat).getD true

/-- Some robot other than robot `i` stands on the cell `q`. -/
def otherRobotAt (b : Board) (i : Nat) (q : Position) : Prop :=
  ∃ k, k ≠ i ∧ b.robot_positions[k]? = some q

/-- Robot `i`, standing on `p`, cannot take a single step in direction `d`: the step
would cross a wall (the border included) or enter a cell held by another robot. -/
def stepBlocked (b : Board) (i : Nat) (p : Position) (d : Nat) : Prop :=
  wallOnSide b p d = true ∨ otherRobotAt b i (p.step d)

/-- Well-formed board: dimensions of the three grids, border walls present, one position
per robot, robots on pairwise distinct cells inside the grid. -/
structure WellFormed (b : Board) : Prop where
  rows_nonneg : 0 ≤ b.rows
  cols_nonneg : 0 ≤ b.cols
  board_length : b.board.length = b.rows.toNat
  board_width : ∀ l ∈ b.board, l.length = b.cols.toNat
  vertical_length : b.vertical_walls.length = b.rows.toNat
  vertical_width : ∀ l ∈ b.vertical_walls, l.length = b.cols.toNat + 1
  horizontal_length : b.horizontal_walls.length = b.rows.toNat + 1
  horizontal_width : ∀ l ∈ b.horizontal_walls, l.length = b.cols.toNat
  border_west : ∀ r, r < b.rows.toNat → Board.at2 b.vertical_walls r 0 = some true
  border_east : ∀ r, r < b.rows.toNat → Board.at2 b.vertical_walls r b.cols.toNat = some true
  border_north : ∀ c, c < b.cols.toNat → Board.at2 b.horizontal_walls 0 c = some true
  border_south : ∀ c, c < b.cols.toNat →
    Board.at2 b.horizontal_walls b.rows.toNat c = some true
  robots_length : b.robots.length = b.robot_positions.length
  robots_inside : ∀ p ∈ b.robot_positions, InGrid b p
  robots_distinct : b.robot_positions.Nodup

/-- What a slide of robot `i` from `p` in direction `d` must produce: after `k` single
steps, none of them blocked, the robot rests on a cell inside the grid where the next
step is blocked; the flag tells whether `k` is positive; nothing but the occupancy grid
`g` and the position of robot `i` differs from `b`. -/
def SlideResult (b : Board) (i d : Nat) (p : Position) (r : Option (Bool × Board)) : Prop :=
  ∃ (k : Nat) (g : List (List Char)),
    r = some (decide (0 < k),
      if k = 0 then b
      else { b with board := g, robot_positions := b.robot_positions.set i (p.shift d k) }) ∧
    g.length = b.rows.toNat ∧ (∀ l ∈ g, l.length = b.cols.toNat) ∧
    InGrid b (p.shift d k) ∧
    (∀ j : Nat, j < k → ¬ stepBlocked b i (p.shift d j) d) ∧
    stepBlocked b i (p.shift d k) d

instance (b : Board) (i : Nat) (q : Position) : Decidable (otherRobotAt b i q) :=
  decidable_of_iff
    (∃ k, k < b.robot_positions.length ∧ (k ≠ i ∧ b.robot_positions[k]? = some q))
    ⟨fun ⟨k, _, h⟩ => ⟨k, h⟩, fun ⟨k, h1, h2⟩ =>
      ⟨k, (List.getElem?_eq_some.1 h2).1, h1, h2⟩⟩

instance (b : Board) (i : Nat) (p : Position) (d : Nat) : Decidable (stepBlocked b i p d) :=
  inferInstanceAs (Decidable (wallOnSide b p d = true ∨ otherRobotAt b i (p.step d)))

/-- The reference slide: take one step while the next step is not blocked (at most
`fuel` steps). -/
def slideRef (b : Board) (i d : Nat) : Nat → Position → Position
  | 0, p => p
  | fuel + 1, p => if stepBlocked b i p d then p else slideRef b i d fuel (p.step d)

/-- The board `main` loads from a puzzle file with the given dimensions, robots (in file
order) and goal line: `Board(rows, cols)`, one `placeRobot` per robot, then `setGoal`. -/
def loadBoard (rows cols : Int) (robots : List (Char × Position)) (goalRobot : String)
    (goal : Position) : Option Board :=
  match Board.construct rows cols 0 with
  | none => none
  | some b0 =>
    match robots.foldlM (fun b x => Board.placeRobot b x.2 x.1) b0 with
    | none => none
    | some b1 => b1.setGoal goalRobot goal

/-- A board without cells, the fallback of the sample boards below. -/
def noBoard : Board := ⟨0, 0, [], [], [[]], [], [], ⟨-1, -1⟩, -1⟩

/-- Sample: 5 x 5, no interior wall, robot `A` at (1,1), goal `any` at (5,5). -/
def sampleOne : Board := (loadBoard 5 5 [('A', ⟨1, 1⟩)] "any" ⟨5, 5⟩).getD noBoard

/-- Sample: 5 x 5, no interior wall, robots `A` at (1,1) and `B` at (1,3), goal for `A`
at (1,5). -/
def sampleTwo : Board :=
  (loadBoard 5 5 [('A', ⟨1, 1⟩), ('B', ⟨1, 3⟩)] "A" ⟨1, 5⟩).getD noBoard

/-- Sample: 5 x 5, no interior wall, robot `A` at (5,1), goal `any` at (1,5). -/
def sampleCorner : Board := (loadBoard 5 5 [('A', ⟨5, 1⟩)] "any" ⟨1, 5⟩).getD noBoard

/-- Sample: 2 x 2, no interior wall, robot `A` at (1,1), goal `any` at (2,1). -/
def sampleSmall : Board := (loadBoard 2 2 [('A', ⟨1, 1⟩)] "any" ⟨2, 1⟩).getD noBoard

/-- A board as `main` loads it, ready for the search: well-formed, robot names pairwise
distinct uppercase letters (the assertions of `placeRobot`), and the goal robot either
`-1` or the index of a robot (`setGoal`). -/
structure Playable (c : Board) : Prop where
  wellFormed : WellFormed c
  names_distinct : c.robots.Nodup
  names_upper : ∀ a ∈ c.robots, 'A' ≤ a ∧ a ≤ 'Z'
  goal_set : c.goal_robot = -1 ∨ (0 ≤ c.goal_robot ∧ c.goal_robot < c.numRobots)

/-- Some sequence of at most `n` commands, applied to `c` with `executeCommand`, reaches
a board that passes the goal test. -/
def SolvableWithin (c : Board) (n : Nat) : Prop :=
  ∃ cmds : List command, cmds.length ≤ n ∧
    ∃ b1, replay c cmds = some b1 ∧ goalReached b1 = some true

/-- The move that the test `last.dir != d || last.robonum != i` skips is one that
`moveRobot` rejects. -/
def PruneSafe (c : Board) (last : command) : Prop :=
  ∀ i d, i < c.numRobots → d < 4 → last.dir = d → last.robonum = some i →
    c.moveRobot i d = some (false, c)

/-- Sample: 5 x 5, no interior wall, robot `A` at (3,3), goal `any` at (5,5). -/
def sampleCentre : Board := (loadBoard 5 5 [('A', ⟨3, 3⟩)] "any" ⟨5, 5⟩).getD noBoard

/-- The cell in row `r + 1` and column `c + 1` of the occupancy grid agrees with the
robots: it holds the letter of robot `k` when robot `k` stands on it, and a blank when
no robot does. -/
def CellOK (b : Board) (r c : Nat) : Prop :=
  (∀ k, k < b.robot_positions.length →
    b.robot_positions[k]? = some ⟨(r : Int) + 1, (c : Int) + 1⟩ →
    Board.at2 b.board r c = b.robots[k]?) ∧
  ((∀ k, k < b.robot_positions.length →
    b.robot_positions[k]? ≠ some ⟨(r : Int) + 1, (c : Int) + 1⟩) →
    Board.at2 b.board r c = some blank)

instance (b : Board) (r c : Nat) : Decidable (CellOK b r c) :=
  inferInstanceAs (Decidable (
    (∀ k, k < b.robot_positions.length →
      b.robot_positions[k]? = some ⟨(r : Int) + 1, (c : Int) + 1⟩ →
      Board.at2 b.board r c = b.robots[k]?) ∧
    ((∀ k, k < b.robot_positions.length →
      b.robot_positions[k]? ≠ some ⟨(r : Int) + 1, (c : Int) + 1⟩) →
      Board.at2 b.board r c = some blank)))

/-- The occupancy grid holds the letter of robot `k` exactly at the position of robot
`k` and a blank everywhere else. -/
def OccupancyOK (b : Board) : Prop :=
  ∀ r, r < b.rows.toNat → ∀ c, c < b.cols.toNat → CellOK b r c

instance (b : Board) : Decidable (OccupancyOK b) :=
  inferInstanceAs (Decidable (∀ r, r < b.rows.toNat → ∀ c, c < b.cols.toNat → CellOK b r c))

/-- A board as the loader of `main` can build it: `Board(rows, cols)` followed by
successful calls of `addHorizontalWall`, `addVerticalWall`, `placeRobot` and `setGoal`
in any order. -/
inductive Loaded : Board → Prop where
  | fresh (r c g : Int) (b : Board) : Board.construct r c g = some b → Loaded b
  | horizontalWall (b b1 : Board) (r2 c : Int) :
      Loaded b → b.addHorizontalWall r2 c = some b1 → Loaded b1
  | verticalWall (b b1 : Board) (r c2 : Int) :
      Loaded b → b.addVerticalWall r c2 = some b1 → Loaded b1
  | robot (b b1 : Board) (p : Position) (a : Char) :
      Loaded b → b.placeRobot p a = some b1 → Loaded b1
  | goal (b b1 : Board) (gr : String) (p : Position) :
      Loaded b → b.setGoal gr p = some b1 → Loaded b1

/-- A board in play: a loaded board after any number of further successful wall
additions and calls of `moveRobot`. -/
inductive InPlay : Board → Prop where
  | loaded (b : Board) : Loaded b → InPlay b
  | horizontalWall (b b1 : Board) (r2 c : Int) :
      InPlay b → b.addHorizontalWall r2 c = some b1 → InPlay b1
  | verticalWall (b b1 : Board) (r c2 : Int) :
      InPlay b → b.addVerticalWall r c2 = some b1 → InPlay b1
  | move (b b1 : Board) (i d : Nat) (m : Bool) :
      InPlay b → b.moveRobot i d = some (m, b1) → InPlay b1

/-- The wall part of well-formedness: dimensions not negative, the two wall grids of
the right size, the four border lines walled. -/
structure WallsOK (b : Board) : Prop where
  rows_nonneg : 0 ≤ b.rows
  cols_nonneg : 0 ≤ b.cols
  vertical_length : b.vertical_walls.length = b.rows.toNat
  vertical_width : ∀ l ∈ b.vertical_walls, l.length = b.cols.toNat + 1
  horizontal_length : b.horizontal_walls.length = b.rows.toNat + 1
  horizontal_width : ∀ l ∈ b.horizontal_walls, l.length = b.cols.toNat
  border_west : ∀ r, r < b.rows.toNat → Board.at2 b.vertical_walls r 0 = some true
  border_east : ∀ r, r < b.rows.toNat → Board.at2 b.vertical_walls r b.cols.toNat = some true
  border_north : ∀ c, c < b.cols.toNat → Board.at2 b.horizontal_walls 0 c = some true
  border_south : ∀ c, c < b.cols.toNat →
    Board.at2 b.horizontal_walls b.rows.toNat c = some true

/-- What loading establishes: a well-formed board whose occupancy grid agrees with the
robots and whose robot names are pairwise distinct uppercase letters. -/
structure LoadedOK (b : Board) : Prop where
  wellFormed : WellFormed b
  occupancy : OccupancyOK b
  names_distinct : b.robots.Nodup
  names_upper : ∀ a ∈ b.robots, 'A' ≤ a ∧ a ≤ 'Z'

/-- Sample: the board `sampleSmall` with a vertical wall at (1, 1.5) and a horizontal
wall at (1.5, 1) added, which shut robot `A` in on its cell (1,1). -/
def sampleBoxed : Board :=
  ((sampleSmall.addVerticalWall 1 3).bind (fun b => b.addHorizontalWall 3 1)).getD noBoard

/-! ## The reachability map of main.cpp -/

/-- The value of `std::numeric_limits<int>::max()` for a 32-bit `int`. -/
def intMax : Int := 2147483647

/-- Conversion of an `unsigned int` to `int` (the assignment `h[..][..] = curdepth`). -/
def asInt (n : Nat) : Int := if n < 2147483648 then (n : Int) else (n : Int) - 4294967296

/-- The block run when `curdepth == 0`: `h` becomes a grid of `getRows()` rows of
`getCols()` entries, all `INT_MAX`. -/
def freshGrid (f : Board) : Option (List (List Int)) :=
  if 0 ≤ f.getRows ∧ 0 ≤ f.getCols then
    some (List.replicate f.getRows.toNat (List.replicate f.getCols.toNat intMax))
  else none

/-- The recording step `if (h[curbot.row - 1][curbot.col - 1] > curdepth)
h[curbot.row - 1][curbot.col - 1] = curdepth;`. The comparison is between an `int` and
an `unsigned int`, so the entry is taken modulo `2^32` (`-1` counts as `4294967295`). -/
def record (h : List (List Int)) (curbot : Position) (curdepth : Nat) :
    Option (List (List Int)) :=
  if 1 ≤ curbot.row ∧ 1 ≤ curbot.col then
    match Board.at2 h (curbot.row - 1).toNat (curbot.col - 1).toNat with
    | none => none
    | some x =>
      if (curdepth : Int) < x % 4294967296 then
        Board.set2 h (curbot.row - 1).toNat (curbot.col - 1).toNat (asInt curdepth)
      else some h
  else none

/-- The `else` branch of `getAccessibility`: every entry equal to `INT_MAX` becomes `-1`. -/
def sweep (h : List (List Int)) : List (List Int) :=
  h.map (fun l => l.map (fun x => if x = intMax then -1 else x))

/-- A `for` loop over `xs` whose body updates the state `s` and may fail. -/
def forEach {α σ : Type} (body : α → σ → Option σ) : List α → σ → Option σ
  | [], s => some s
  | x :: xs, s =>
    match body x s with
    | none => none
    | some s1 => forEach body xs s1

/-- The body of the two nested loops of `getAccessibility` for robot `g` and direction
`c`, with `recurse` standing for the recursive call on the moved copy. -/
def visit (recurse : Board → List (List Int) → Option (List (List Int))) (f : Board)
    (curdepth : Nat) (g c : Nat) (h : List (List Int)) : Option (List (List Int)) :=
  match f.getRobotPosition g with
  | none => none
  | some curbot =>
    match record h curbot curdepth with
    | none => none
    | some h1 =>
      match f.moveRobot g c with
      | none => none
      | some (true, temp) => recurse temp h1
      | some (false, _) => some h1

/-- One activation of `getAccessibility(f, h, maxdepth, curdepth)`, with `recurse`
standing for the recursive call `getAccessibility(temp, h, maxdepth, curdepth + 1)`;
`curdepth + 1` is computed on `unsigned int`, modulo `2^32`. -/
def exploreBody (maxdepth : Nat)
    (recurse : Board → List (List Int) → Nat → Option (List (List Int)))
    (f : Board) (h : List (List Int)) (curdepth : Nat) : Option (List (List Int)) :=
  match (if curdepth = 0 then freshGrid f else some h) with
  | none => none
  | some h0 =>
    if curdepth ≤ maxdepth then
      forEach
        (fun g h1 =>
          forEach
            (fun c h2 =>
              visit (fun temp h3 => recurse temp h3 ((curdepth + 1) % 4294967296)) f curdepth
                g c h2)
            [0, 1, 2, 3] h1)
        (List.range f.numRobots) h0
    else some (sweep h0)

/-- The recursion of `getAccessibility`, nested at most `levels` deep below this
activation; a call beyond that has no result here. -/
def explore (maxdepth : Nat) : Nat → Board → List (List Int) → Nat → Option (List (List Int))
  | 0 => exploreBody maxdepth (fun _ _ _ => none)
  | levels + 1 => exploreBody maxdepth (explore maxdepth levels)

/-- Function `getAccessibility(f, h, maxdepth, curdepth)` of main.cpp, giving the content
of `h` afterwards. The depth grows by one per level up to `maxdepth + 1`, where the
activation only sweeps, so `maxdepth + 1 - curdepth` nested levels cover the whole
recursion when `maxdepth + 1` does not wrap around; for `maxdepth = 4294967295` the test
`curdepth <= maxdepth` never fails and no result is modelled once a robot can move. -/
def getAccessibility (f : Board) (h : List (List Int)) (maxdepth curdepth : Nat) :
    Option (List (List Int)) :=
  explore maxdepth (maxdepth + 1 - curdepth) f h curdepth

/-- Function `printAccessibility(y)` of main.cpp: an entry `>= 0` is printed as a
number (`some`), any other entry as a dot (`none`). -/
def printAccessibility (y : List (List Int)) : List (List (Option Int)) :=
  y.map (fun l => l.map (fun x => if 0 ≤ x then some x else none))

/-- The board `b` is reached from `f` by exactly `k` moves each of which changed the
board (`moveRobot` with a direction `0..3` returned `true`). -/
inductive ReachIn : Board → Nat → Board → Prop where
  | here (f : Board) : ReachIn f 0 f
  | step (f temp b : Board) (g c k : Nat) :
      c < 4 → f.moveRobot g c = some (true, temp) → ReachIn temp k b → ReachIn f (k + 1) b

/-- Some robot occupies `cell` after some sequence of exactly `k` board-changing moves
from `f`. -/
def OccupiedAfter (f : Board) (k : Nat) (cell : Position) : Prop :=
  ∃ b g, ReachIn f k b ∧ g < b.numRobots ∧ b.getRobotPosition g = some cell

/-- An entry of the reachability map allowed for the cell in row `r + 1`, column `c + 1`:
`-1`, `INT_MAX`, or a depth `m <= maxdepth` at which some robot occupies the cell after
exactly `m` board-changing moves from `f0`. -/
def EntryOK (f0 : Board) (maxdepth : Nat) (r c : Nat) (x : Int) : Prop :=
  x = -1 ∨ x = intMax ∨
    ∃ m : Nat, x = (m : Int) ∧ m ≤ maxdepth ∧ OccupiedAfter f0 m ⟨(r : Int) + 1, (c : Int) + 1⟩

/-- Every entry of the map is allowed. -/
def GridOK (f0 : Board) (maxdepth : Nat) (h : List (List Int)) : Prop :=
  ∀ r c x, Board.at2 h r c = some x → EntryOK f0 maxdepth r c x

/-- The map has `R` rows of `C` entries. -/
def GridSize (R C : Nat) (h : List (List Int)) : Prop :=
  h.length = R ∧ ∀ l ∈ h, l.length = C

/-- The entry in row `r`, column `c` of the map (counted from 0) is a depth of at most `n`. -/
def AtMost (h : List (List Int)) (r c n : Nat) : Prop :=
  ∃ m : Nat, m ≤ n ∧ Board.at2 h r c = some (m : Int)

/-- No entry of `h` that is a depth below `INT_MAX` is lost or raised in `h1`. -/
def Mono (h h1 : List (List Int)) : Prop :=
  ∀ r c n, n < 2147483647 → AtMost h r c n → AtMost h1 r c n

/-- The map `h` knows every cell that some robot occupies after `k` board-changing
moves from `f`, `curdepth + k <= maxdepth`, with a depth of at most `curdepth + k`. -/
def Complete (maxdepth : Nat) (f : Board) (curdepth : Nat) (h : List (List Int)) : Prop :=
  ∀ cell k, OccupiedAfter f k cell → curdepth + k ≤ maxdepth →
    AtMost h (cell.row - 1).toNat (cell.col - 1).toNat (curdepth + k)

/-- The body of `findPath` for robot `i` and direction `d` with the test
`last.dir != d || last.robonum != i` removed: the variant the pruning is compared with.
Everything else is the body of `tryMove`. -/
def tryMoveUnpruned (recurse : Board → List command → command → Option (Bool × List command))
    (c : Board) (i d : Nat) (path : List command) : Option (Bool × List command) :=
  match c.moveRobot i d with
  | none => none
  | some (false, _) => some (false, path)
  | some (true, temp) =>
    match temp.getRobot i with
    | none => none
    | some a =>
      match recurse temp path ⟨a, d, some (i % 65536)⟩ with
      | none => none
      | some (false, path1) => some (false, path1)
      | some (true, path1) =>
        match c.getRobot i with
        | none => none
        | some a0 => some (true, path1 ++ [⟨a0, d, none⟩])

/-- The variant of `findPathFrom` that tries every robot and direction, the one just
moved included: `findPath` with the test on `last` removed. -/
def findPathFromUnpruned : Nat → Board → List command → command → Option (Bool × List command)
  | 0, c, path, _ =>
    match goalReached c with
    | none => none
    | some true => some (true, path)
    | some false => some (false, path)
  | m + 1, c, path, _ =>
    match goalReached c with
    | none => none
    | some true => some (true, path)
    | some false =>
      firstSuccess
        (fun i p =>
          firstSuccess (fun d q => tryMoveUnpruned (findPathFromUnpruned m) c i d q) [0, 1, 2, 3] p)
        (List.range c.numRobots) path

/-- The variant of `findPath` with the test on `last` removed, with the same treatment
of the sentinel `depth == -1`. -/
def findPathUnpruned (c : Board) (path : List command) (depth : Int) (last : command) :
    Option (Bool × List command) :=
  findPathFromUnpruned (if depth = -1 then c.getCols * c.getRows else depth).toNat c path last

/-- No entry of the map holds the filler `INT_MAX`. -/
def NoFiller (h : List (List Int)) : Prop :=
  ∀ r c x, Board.at2 h r c = some x → x ≠ intMax

/-- Some robot of `f` can move in some direction: some call `moveRobot(g, c)` with a
direction `0..3` returns `true`. -/
def Mobile (f : Board) : Prop :=
  ∃ g c temp, c < 4 ∧ f.moveRobot g c = some (true, temp)

/-- The move `a` comes before the move `b` in the order of the two loops of `findPath`:
robot index first, direction code second. A move is a pair (robot index, direction). -/
def moveBefore (a b : Nat × Nat) : Prop :=
  a.1 < b.1 ∨ (a.1 = b.1 ∧ a.2 < b.2)

/-- Lexicographic order on sequences of moves: `s` is a prefix of `t`, or at the first
place where they differ the move of `s` comes before the move of `t`. -/
inductive LexLe : List (Nat × Nat) → List (Nat × Nat) → Prop where
  | nil (t : List (Nat × Nat)) : LexLe [] t
  | before (a b : Nat × Nat) (s t : List (Nat × Nat)) : moveBefore a b → LexLe (a :: s) (b :: t)
  | next (a : Nat × Nat) (s t : List (Nat × Nat)) : LexLe s t → LexLe (a :: s) (a :: t)

/-- A candidate of the search from `c`: a sequence of moves with directions `0..3`, each
of which changes the board, that ends on a board passing the goal test while no board
before the end passes it. -/
inductive GoalRun : Board → List (Nat × Nat) → Prop where
  | done (c : Board) : goalReached c = some true → GoalRun c []
  | move (c temp : Board) (i d : Nat) (rest : List (Nat × Nat)) :
      goalReached c = some false → d < 4 → c.moveRobot i d = some (true, temp) →
      GoalRun temp rest → GoalRun c ((i, d) :: rest)

/-- The moves of a path of `findPath` read from the start to the finish: the path is
stored last move first, and a command names its robot, whose index `whichRobot` gives. -/
def movesOf (c : Board) (path : List command) : List (Nat × Nat) :=
  path.reverse.filterMap (fun y => (c.whichRobot y.robot).map (fun k => (k, y.dir)))

/-- An entry of the reachability map allowed for the cell in row `r + 1`, column `c + 1`
when the depth bound may exceed `INT_MAX`: `-1`, `INT_MAX`, or the `int` stored for a
depth `m <= maxdepth` at which some robot occupies the cell after exactly `m`
board-changing moves from `f0`. -/
def EntryWrapped (f0 : Board) (maxdepth : Nat) (r c : Nat) (x : Int) : Prop :=
  x = -1 ∨ x = intMax ∨
    ∃ m : Nat, x = asInt m ∧ m ≤ maxdepth ∧ OccupiedAfter f0 m ⟨(r : Int) + 1, (c : Int) + 1⟩

/-- Every entry of the map is `-1`, `INT_MAX` or a stored depth. -/
def GridWrapped (f0 : Board) (maxdepth : Nat) (h : List (List Int)) : Prop :=
  ∀ r c x, Board.at2 h r c = some x → EntryWrapped f0 maxdepth r c x

/-- Every entry of the map is `-1` or a stored depth: what a sweep leaves. -/
def GridSwept (f0 : Board) (maxdepth : Nat) (h : List (List Int)) : Prop :=
  ∀ r c x, Board.at2 h r c = some x →
    x = -1 ∨
      ∃ m : Nat, x = asInt m ∧ m ≤ maxdepth ∧ OccupiedAfter f0 m ⟨(r : Int) + 1, (c : Int) + 1⟩

/-- The entry in row `r`, column `c` of the map (counted from 0) is the `int` stored for
the depth `maxdepth`. -/
def HoldsLast (maxdepth : Nat) (h : List (List Int)) (r c : Nat) : Prop :=
  Board.at2 h r c = some (asInt maxdepth)

/-- A staircase board of `n` rows and `n + 1` columns with the single robot `A` at
(1,1). Every wall is present except between consecutive cells of the path (1,1), (1,2),
(2,2), (2,3), (3,3), ..., which turns at every cell, so that each move takes the robot
exactly one cell along the path, forward or back. -/
def staircase (n : Nat) : Board :=
  { rows := n
    cols := n + 1
    board := (List.range n).map (fun r =>
      (List.range (n + 1)).map (fun c => if r = 0 ∧ c = 0 then 'A' else blank))
    vertical_walls := (List.range n).map (fun r =>
      (List.range (n + 2)).map (fun c => decide (c ≠ r + 1)))
    horizontal_walls := (List.range (n + 1)).map (fun i =>
      (List.range (n + 1)).map (fun c => decide (c ≠ i ∨ i = 0 ∨ i = n)))
    robots := ['A']
    robot_positions := [⟨1, 1⟩]
    goal := ⟨n, n + 1⟩
    goal_robot := -1 }

/-- The cell number `j` of the path of the staircase, counted from 0. -/
def stairCell (j : Nat) : Position := ⟨(j / 2 : Nat) + 1, ((j + 1) / 2 : Nat) + 1⟩

/-- The side `d` of the cell number `j` of the path of `staircase n` has no wall. -/
def stairOpen (n j d : Nat) : Bool :=
  match d with
  | 0 => decide (j % 2 = 0 ∧ 2 ≤ j)
  | 1 => decide (j % 2 = 0)
  | 2 => decide (j % 2 = 1 ∧ j + 2 < 2 * n)
  | _ => decide (j % 2 = 1)

/-- The number of the path cell next to cell `j` on side `d`, when that side is open. -/
def stairNext (j d : Nat) : Nat := if d = 1 ∨ d = 2 then j + 1 else j - 1

/-- The board `b` is the staircase with its robot on the cell number `j` of the path. -/
def OnStair (n j : Nat) (b : Board) : Prop :=
  j < 2 * n ∧ WellFormed b ∧ b.rows = n ∧ b.cols = n + 1 ∧
    b.vertical_walls = (staircase n).vertical_walls ∧
    b.horizontal_walls = (staircase n).horizontal_walls ∧
    b.robots = ['A'] ∧ b.robot_positions = [stairCell j]

/-! ## Grid access -/

theorem at2_of_lengths {α : Type} (g : List (List α)) (n m i j : Nat)
    (hl : g.length = n) (hw : ∀ l ∈ g, l.length = m) (hi : i < n) (hj : j < m) :
    ∃ a, Board.at2 g i j = some a := by
  subst hl
  have hmem : g[i] ∈ g := List.getElem_mem hi
  have hlen : j < g[i].length := by rw [hw _ hmem]; exact hj
  refine ⟨g[i][j], ?_⟩
  simp [Board.at2, List.getElem?_eq_getElem hi, List.getElem?_eq_getElem hlen]

theorem set2_of_lengths {α : Type} (g : List (List α)) (n m i j : Nat) (a : α)
    (hl : g.length = n) (hw : ∀ l ∈ g, l.length = m) (hi : i < n) (hj : j < m) :
    ∃ g1, Board.set2 g i j a = some g1 ∧ g1.length = n ∧ ∀ l ∈ g1, l.length = m := by
  subst hl
  have hmem : g[i] ∈ g := List.getElem_mem hi
  have hlen : j < g[i].length := by rw [hw _ hmem]; exact hj
  refine ⟨g.set i (g[i].set j a), ?_, by simp, ?_⟩
  · simp [Board.set2, List.getElem?_eq_getElem hi, hlen]
  · intro l hl
    rcases List.mem_or_eq_of_mem_set hl with h | h
    · exact hw l h
    · rw [h, List.length_set]; exact hw _ hmem

/-! ## Wall queries on a well-formed board -/

theorem getHorizontalWall_north (b : Board) (hb : WellFormed b) (p : Position)
    (hp : InGrid b p) : b.getHorizontalWall (2 * p.row - 1) p.col = some (wallOnSide b p 0) := by
  obtain ⟨h1, h2, h3, h4⟩ := hp
  have hidx : (2 * p.row - 1) / 2 = p.row - 1 := by omega
  obtain ⟨a, ha⟩ := at2_of_lengths b.horizontal_walls _ _ (p.row - 1).toNat (p.col - 1).toNat
    hb.horizontal_length hb.horizontal_width (by omega) (by omega)
  have hc : (2 * p.row - 1) % 2 = 1 ∧ 1 ≤ 2 * p.row - 1 ∧ 2 * p.row - 1 ≤ 2 * b.rows + 1 ∧
      1 ≤ p.col ∧ p.col ≤ b.cols := by omega
  simp only [Board.getHorizontalWall, wallOnSide, if_pos hc, hidx, ha, Option.getD_some]

theorem getHorizontalWall_south (b : Board) (hb : WellFormed b) (p : Position)
    (hp : InGrid b p) : b.getHorizontalWall (2 * p.row + 1) p.col = some (wallOnSide b p 2) := by
  obtain ⟨h1, h2, h3, h4⟩ := hp
  have hidx : (2 * p.row + 1) / 2 = p.row := by omega
  obtain ⟨a, ha⟩ := at2_of_lengths b.horizontal_walls _ _ p.row.toNat (p.col - 1).toNat
    hb.horizontal_length hb.horizontal_width (by omega) (by omega)
  have hc : (2 * p.row + 1) % 2 = 1 ∧ 1 ≤ 2 * p.row + 1 ∧ 2 * p.row + 1 ≤ 2 * b.rows + 1 ∧
      1 ≤ p.col ∧ p.col ≤ b.cols := by omega
  simp only [Board.getHorizontalWall, wallOnSide, if_pos hc, hidx, ha, Option.getD_some]

theorem getVerticalWall_east (b : Board) (hb : WellFormed b) (p : Position)
    (hp : InGrid b p) : b.getVerticalWall p.row (2 * p.col + 1) = some (wallOnSide b p 1) := by
  obtain ⟨h1, h2, h3, h4⟩ := hp
  have hidx : (2 * p.col + 1) / 2 = p.col := by omega
  obtain ⟨a, ha⟩ := at2_of_lengths b.vertical_walls _ _ (p.row - 1).toNat p.col.toNat
    hb.vertical_length hb.vertical_width (by omega) (by omega)
  have hc : (2 * p.col + 1) % 2 = 1 ∧ 1 ≤ p.row ∧ p.row ≤ b.rows ∧ 1 ≤ 2 * p.col + 1 ∧
      2 * p.col + 1 ≤ 2 * b.cols + 1 := by omega
  simp only [Board.getVerticalWall, wallOnSide, if_pos hc, hidx, ha, Option.getD_some]

theorem getVerticalWall_west (b : Board) (hb : WellFormed b) (p : Position)
    (hp : InGrid b p) : b.getVerticalWall p.row (2 * p.col - 1) = some (wallOnSide b p 3) := by
  obtain ⟨h1, h2, h3, h4⟩ := hp
  have hidx : (2 * p.col - 1) / 2 = p.col - 1 := by omega
  obtain ⟨a, ha⟩ := at2_of_lengths b.vertical_walls _ _ (p.row - 1).toNat (p.col - 1).toNat
    hb.vertical_length hb.vertical_width (by omega) (by omega)
  have hc : (2 * p.col - 1) % 2 = 1 ∧ 1 ≤ p.row ∧ p.row ≤ b.rows ∧ 1 ≤ 2 * p.col - 1 ∧
      2 * p.col - 1 ≤ 2 * b.cols + 1 := by omega
  simp only [Board.getVerticalWall, wallOnSide, if_pos hc, hidx, ha, Option.getD_some]

theorem wall_at_border (b : Board) (hb : WellFormed b) (p : Position) (hp : InGrid b p) :
    (p.row = 1 → wallOnSide b p 0 = true) ∧ (p.col = b.cols → wallOnSide b p 1 = true) ∧
    (p.row = b.rows → wallOnSide b p 2 = true) ∧ (p.col = 1 → wallOnSide b p 3 = true) := by
  obtain ⟨h1, h2, h3, h4⟩ := hp
  refine ⟨fun h => ?_, fun h => ?_, fun h => ?_, fun h => ?_⟩
  · have e : (p.row - 1).toNat = 0 := by omega
    have := hb.border_north (p.col - 1).toNat (by omega)
    simp only [wallOnSide, e, this, Option.getD_some]
  · have := hb.border_east (p.row - 1).toNat (by omega)
    simp only [wallOnSide, h, this, Option.getD_some]
  · have := hb.border_south (p.col - 1).toNat (by omega)
    simp only [wallOnSide, h, this, Option.getD_some]
  · have e : (p.col - 1).toNat = 0 := by omega
    have := hb.border_west (p.row - 1).toNat (by omega)
    simp only [wallOnSide, e, this, Option.getD_some]

/-! ## Occupancy -/

theorem filled_iff (b : Board) (q : Position) :
    b.isPositionFilledByRobot q = true ↔ ∃ k : Nat, b.robot_positions[k]? = some q := by
  simp only [Board.isPositionFilledByRobot, List.any_eq_true, decide_eq_true_eq]
  constructor
  · rintro ⟨x, hx, rfl⟩
    exact List.mem_iff_getElem?.1 hx
  · rintro ⟨k, hk⟩
    exact ⟨q, List.mem_iff_getElem?.2 ⟨k, hk⟩, rfl⟩

theorem filled_iff_other (b : Board) (i : Nat) (p q : Position)
    (hp : b.robot_positions[i]? = some p) (hne : q ≠ p) :
    b.isPositionFilledByRobot q = true ↔ otherRobotAt b i q := by
  rw [filled_iff]
  constructor
  · rintro ⟨k, hk⟩
    refine ⟨k, ?_, hk⟩
    rintro rfl
    rw [hp] at hk
    exact hne (Option.some.inj hk).symm
  · rintro ⟨k, _, hk⟩
    exact ⟨k, hk⟩

theorem position_inside (b : Board) (hb : WellFormed b) (i : Nat) (p : Position)
    (hp : b.robot_positions[i]? = some p) : InGrid b p :=
  hb.robots_inside p (List.mem_iff_getElem?.2 ⟨i, hp⟩)

theorem index_lt_of_position (b : Board) (i : Nat) (p : Position)
    (hp : b.robot_positions[i]? = some p) : i < b.robot_positions.length := by
  by_contra h
  rw [List.getElem?_eq_none (by omega)] at hp
  exact Option.noConfusion hp

/-! ## The two scanning loops -/

theorem scanDown_spec (stop : Int → Option Bool) :
    ∀ n : Nat, 1 ≤ n → (∀ j : Int, 1 ≤ j → j ≤ n → ∃ s, stop j = some s) →
      stop 1 = some true →
      ∃ m : Int, 1 ≤ m ∧ m ≤ n ∧ scanDown stop n = some (some m) ∧ stop m = some true ∧
        ∀ j : Int, m < j → j ≤ n → stop j = some false := by
  intro n
  induction n with
  | zero => intro h; omega
  | succ n ih =>
    intro _ htot hone
    obtain ⟨s, hs⟩ := htot ((n : Int) + 1) (by omega) (by push_cast; omega)
    cases s with
    | true =>
      refine ⟨(n : Int) + 1, by omega, by push_cast; omega, ?_, hs, ?_⟩
      · simp only [scanDown, hs]
      · intro j h1 h2
        push_cast at h2
        omega
    | false =>
      have hn : 1 ≤ n := by
        rcases Nat.eq_zero_or_pos n with h0 | h0
        · subst h0
          simp only [Nat.cast_zero, zero_add] at hs
          rw [hone] at hs
          cases hs
        · exact h0
      obtain ⟨m, hm1, hm2, hscan, hstop, hrest⟩ :=
        ih hn (fun j h1 h2 => htot j h1 (by push_cast; omega)) hone
      refine ⟨m, hm1, by push_cast; omega, ?_, hstop, ?_⟩
      · simp only [scanDown, hs, hscan]
      · intro j h1 h2
        push_cast at h2
        rcases eq_or_lt_of_le h2 with h3 | h3
        · rw [h3]; exact hs
        · exact hrest j h1 (by omega)

theorem scanUp_spec (stop : Int → Option Bool) (hi : Int) :
    ∀ (left : Nat) (i : Int), i ≤ hi → left = (hi - i + 1).toNat →
      (∀ j : Int, i ≤ j → j ≤ hi → ∃ s, stop j = some s) → stop hi = some true →
      ∃ m : Int, i ≤ m ∧ m ≤ hi ∧ scanUp stop left i = some (some m) ∧ stop m = some true ∧
        ∀ j : Int, i ≤ j → j < m → stop j = some false := by
  intro left
  induction left with
  | zero => intro i h1 h2; omega
  | succ left ih =>
    intro i hle hleft htot hlast
    obtain ⟨s, hs⟩ := htot i (le_refl i) hle
    cases s with
    | true =>
      refine ⟨i, le_refl i, hle, ?_, hs, ?_⟩
      · simp only [scanUp, hs]
      · intro j h1 h2
        omega
    | false =>
      have hlt : i < hi := by
        rcases eq_or_lt_of_le hle with h0 | h0
        · subst h0
          rw [hlast] at hs
          cases hs
        · exact h0
      obtain ⟨m, hm1, hm2, hscan, hstop, hrest⟩ :=
        ih (i + 1) (by omega) (by omega) (fun j h1 h2 => htot j (by omega) h2) hlast
      refine ⟨m, by omega, hm2, ?_, hstop, ?_⟩
      · simp only [scanUp, hs, hscan]
      · intro j h1 h2
        rcases eq_or_lt_of_le h1 with h3 | h3
        · rw [← h3]; exact hs
        · exact hrest j (by omega) h2

/-! ## Relocation of a robot -/

theorem relocate_ok (b : Board) (hb : WellFormed b) (i : Nat) (p q : Position)
    (hp : b.robot_positions[i]? = some p) (hq : InGrid b q) :
    ∃ g, b.relocate i q =
        some { b with board := g, robot_positions := b.robot_positions.set i q } ∧
      g.length = b.rows.toNat ∧ ∀ l ∈ g, l.length = b.cols.toNat := by
  have hpin := position_inside b hb i p hp
  have hi := index_lt_of_position b i p hp
  obtain ⟨p1, p2, p3, p4⟩ := hpin
  obtain ⟨q1, q2, q3, q4⟩ := hq
  obtain ⟨g1, hg1, hl1, hw1⟩ := set2_of_lengths b.board _ _ (p.row - 1).toNat (p.col - 1).toNat
    blank hb.board_length hb.board_width (by omega) (by omega)
  have hir : i < b.robots.length := by rw [hb.robots_length]; exact hi
  obtain ⟨g, hg, hl, hw⟩ := set2_of_lengths g1 _ _ (q.row - 1).toNat (q.col - 1).toNat
    b.robots[i] hl1 hw1 (by omega) (by omega)
  refine ⟨g, ?_, hl, hw⟩
  have hr : b.robots[i]? = some b.robots[i] := List.getElem?_eq_getElem hir
  have hcp : 1 ≤ p.row ∧ p.row ≤ b.rows ∧ 1 ≤ p.col ∧ p.col ≤ b.cols := ⟨p1, p2, p3, p4⟩
  have hcq : 1 ≤ q.row ∧ q.row ≤ b.rows ∧ 1 ≤ q.col ∧ q.col ≤ b.cols := ⟨q1, q2, q3, q4⟩
  simp only [Board.relocate, hp, Board.setspot, if_pos hcp, hg1, hr, if_pos hcq, hg]

/-! ## The first-step tests and the `break` tests -/

theorem blocked_iff (b : Board) (i : Nat) (p c : Position) (d : Nat) (w : Bool)
    (hp : b.robot_positions[i]? = some p) (hw : wallOnSide b c d = w) (hne : c.step d ≠ p)
    (e : Bool) (he : e = true → w = true) :
    (w || b.isPositionFilledByRobot (c.step d) || e) = true ↔ stepBlocked b i c d := by
  unfold stepBlocked
  rw [hw, ← filled_iff_other b i p _ hp hne]
  cases w <;> cases e <;> simp at he ⊢

theorem clear_iff (b : Board) (i : Nat) (p : Position) (d : Nat) (w : Bool)
    (hp : b.robot_positions[i]? = some p) (hw : wallOnSide b p d = w) (hne : p.step d ≠ p) :
    (!w && !b.isPositionFilledByRobot (p.step d)) = true ↔ ¬ stepBlocked b i p d := by
  rw [← blocked_iff b i p p d w hp hw hne false (by simp)]
  cases w <;> cases b.isPositionFilledByRobot (p.step d) <;> simp

theorem step_ne (p : Position) (d : Nat) : p.step d ≠ p := by
  intro h
  have h1 := congrArg Position.row h
  have h2 := congrArg Position.col h
  unfold Position.step Position.shift at h1 h2
  split at h1 <;> simp at h1 h2

theorem clearNorth_spec (b : Board) (hb : WellFormed b) (i : Nat) (p : Position)
    (hp : b.robot_positions[i]? = some p) :
    ∃ s, b.clearNorth p = some s ∧ (s = true ↔ ¬ stepBlocked b i p 0) := by
  have hin := position_inside b hb i p hp
  unfold Board.clearNorth
  by_cases h : p.row > 1
  · rw [if_pos h, getHorizontalWall_north b hb p hin]
    exact ⟨_, rfl, clear_iff b i p 0 _ hp rfl (step_ne p 0)⟩
  · rw [if_neg h]
    refine ⟨false, rfl, ?_⟩
    have hw := (wall_at_border b hb p hin).1 (by have := hin.1; omega)
    simp [stepBlocked, hw]

theorem stopNorth_spec (b : Board) (hb : WellFormed b) (i : Nat) (p : Position)
    (hp : b.robot_positions[i]? = some p) (j : Int) (h1 : 1 ≤ j) (h2 : j ≤ p.row) :
    ∃ s, b.stopNorth p j = some s ∧ (s = true ↔ stepBlocked b i ⟨j, p.col⟩ 0) := by
  obtain ⟨p1, p2, p3, p4⟩ := position_inside b hb i p hp
  have hin : InGrid b ⟨j, p.col⟩ := ⟨h1, by show j ≤ b.rows; omega, p3, p4⟩
  have hw := getHorizontalWall_north b hb ⟨j, p.col⟩ hin
  simp only at hw
  unfold Board.stopNorth
  rw [hw]
  refine ⟨_, rfl, blocked_iff b i p ⟨j, p.col⟩ 0 _ hp rfl ?_ (decide (j = 1)) ?_⟩
  · intro h
    have := congrArg Position.row h
    simp [Position.step, Position.shift] at this
    omega
  · intro h
    exact (wall_at_border b hb ⟨j, p.col⟩ hin).1 (by simpa using h)

theorem slide_north (b : Board) (hb : WellFormed b) (i : Nat) (p : Position)
    (hp : b.robot_positions[i]? = some p) : SlideResult b i 0 p (b.moveRobot i 0) := by
  have hin := position_inside b hb i p hp
  obtain ⟨p1, p2, p3, p4⟩ := hin
  obtain ⟨s, hs, hsb⟩ := clearNorth_spec b hb i p hp
  cases s with
  | false =>
    refine ⟨0, b.board, ?_, hb.board_length, hb.board_width, ?_, ?_, ?_⟩
    · simp [Board.moveRobot, Board.getRobotPosition, hp, hs]
    · simpa [Position.shift] using (⟨p1, p2, p3, p4⟩ : InGrid b p)
    · intro j hj; omega
    · have : stepBlocked b i p 0 := by
        by_contra hc
        exact Bool.false_ne_true (hsb.2 hc)
      simpa [Position.shift] using this
  | true =>
    have hfree : ¬ stepBlocked b i p 0 := hsb.1 rfl
    have hrow : 1 < p.row := by
      by_contra hc
      apply hfree
      left
      exact (wall_at_border b hb p ⟨p1, p2, p3, p4⟩).1 (by omega)
    obtain ⟨m, hm1, hm2, hscan, hstop, hrest⟩ := scanDown_spec (b.stopNorth p) p.row.toNat
      (by omega) (fun j h1 h2 => by
        obtain ⟨s, hs, _⟩ := stopNorth_spec b hb i p hp j h1 (by omega)
        exact ⟨s, hs⟩)
      (by
        obtain ⟨s, hs, hsb⟩ := stopNorth_spec b hb i p hp 1 (le_refl 1) (by omega)
        rw [hs]
        have : wallOnSide b ⟨1, p.col⟩ 0 = true :=
          (wall_at_border b hb ⟨1, p.col⟩ ⟨le_refl 1, by show (1 : Int) ≤ b.rows; omega, p3, p4⟩).1 rfl
        rw [hsb.2 (Or.inl this)])
    have hblk : ∀ j : Int, 1 ≤ j → j ≤ p.row →
        (b.stopNorth p j = some true ↔ stepBlocked b i ⟨j, p.col⟩ 0) := by
      intro j h1 h2
      obtain ⟨s, hs, hsb⟩ := stopNorth_spec b hb i p hp j h1 h2
      rw [hs]
      simpa using hsb
    have hmlt : m < p.row := by
      rcases eq_or_lt_of_le (show m ≤ p.row by omega) with h | h
      · exfalso
        apply hfree
        have := (hblk m hm1 (by omega)).1 hstop
        rw [h] at this
        exact this
      · exact h
    have hmin : InGrid b ⟨m, p.col⟩ := ⟨hm1, by show m ≤ b.rows; omega, p3, p4⟩
    obtain ⟨g, hg, hl, hw⟩ := relocate_ok b hb i p ⟨m, p.col⟩ hp hmin
    have hk : p.shift 0 ((p.row - m).toNat : Nat) = ⟨m, p.col⟩ := by
      simp only [Position.shift, Position.mk.injEq, and_true]
      omega
    refine ⟨(p.row - m).toNat, g, ?_, hl, hw, ?_, ?_, ?_⟩
    · have hne : (p.row - m).toNat ≠ 0 := by omega
      have hpos : 0 < (p.row - m).toNat := by omega
      simp only [Board.moveRobot, Board.getRobotPosition, hp, hs, hscan, Board.finish, hg,
        if_neg hne, hk, hpos, decide_True]
    · rw [hk]; exact hmin
    · intro j hj
      have hlt : m < p.row - j := by omega
      have := hrest (p.row - j) hlt (by omega)
      intro hc
      have h2 := (hblk (p.row - j) (by omega) (by omega)).2
        (by simpa [Position.shift] using hc)
      rw [this] at h2
      cases h2
    · rw [hk]
      exact (hblk m hm1 (by omega)).1 hstop

theorem clearEast_spec (b : Board) (hb : WellFormed b) (i : Nat) (p : Position)
    (hp : b.robot_positions[i]? = some p) :
    ∃ s, b.clearEast p = some s ∧ (s = true ↔ ¬ stepBlocked b i p 1) := by
  have hin := position_inside b hb i p hp
  unfold Board.clearEast Board.getCols
  by_cases h : p.col < b.cols
  · rw [if_pos h, getVerticalWall_east b hb p hin]
    exact ⟨_, rfl, clear_iff b i p 1 _ hp rfl (step_ne p 1)⟩
  · rw [if_neg h]
    refine ⟨false, rfl, ?_⟩
    have hw := (wall_at_border b hb p hin).2.1 (by have := hin.2.2.2; omega)
    simp [stepBlocked, hw]

theorem stopEast_spec (b : Board) (hb : WellFormed b) (i : Nat) (p : Position)
    (hp : b.robot_positions[i]? = some p) (j : Int) (h1 : p.col ≤ j) (h2 : j ≤ b.cols) :
    ∃ s, b.stopEast p j = some s ∧ (s = true ↔ stepBlocked b i ⟨p.row, j⟩ 1) := by
  obtain ⟨p1, p2, p3, p4⟩ := position_inside b hb i p hp
  have hin : InGrid b ⟨p.row, j⟩ := ⟨p1, p2, by show 1 ≤ j; omega, h2⟩
  have hw := getVerticalWall_east b hb ⟨p.row, j⟩ hin
  simp only at hw
  unfold Board.stopEast Board.getCols
  rw [hw]
  refine ⟨_, rfl, blocked_iff b i p ⟨p.row, j⟩ 1 _ hp rfl ?_ (decide (j = b.cols)) ?_⟩
  · intro h
    have := congrArg Position.col h
    simp [Position.step, Position.shift] at this
    omega
  · intro h
    exact (wall_at_border b hb ⟨p.row, j⟩ hin).2.1 (by simpa using h)

theorem slide_east (b : Board) (hb : WellFormed b) (i : Nat) (p : Position)
    (hp : b.robot_positions[i]? = some p) : SlideResult b i 1 p (b.moveRobot i 1) := by
  have hin := position_inside b hb i p hp
  obtain ⟨p1, p2, p3, p4⟩ := hin
  obtain ⟨s, hs, hsb⟩ := clearEast_spec b hb i p hp
  cases s with
  | false =>
    refine ⟨0, b.board, ?_, hb.board_length, hb.board_width, ?_, ?_, ?_⟩
    · simp [Board.moveRobot, Board.getRobotPosition, hp, hs]
    · simpa [Position.shift] using (⟨p1, p2, p3, p4⟩ : InGrid b p)
    · intro j hj; omega
    · have : stepBlocked b i p 1 := by
        by_contra hc
        exact Bool.false_ne_true (hsb.2 hc)
      simpa [Position.shift] using this
  | true =>
    have hfree : ¬ stepBlocked b i p 1 := hsb.1 rfl
    obtain ⟨m, hm1, hm2, hscan, hstop, hrest⟩ := scanUp_spec (b.stopEast p) b.cols
      (b.cols - p.col + 1).toNat p.col p4 rfl
      (fun j h1 h2 => by
        obtain ⟨s, hs, _⟩ := stopEast_spec b hb i p hp j h1 h2
        exact ⟨s, hs⟩)
      (by
        obtain ⟨s, hs, hsb⟩ := stopEast_spec b hb i p hp b.cols p4 (le_refl _)
        rw [hs]
        have : wallOnSide b ⟨p.row, b.cols⟩ 1 = true :=
          (wall_at_border b hb ⟨p.row, b.cols⟩
            ⟨p1, p2, by show 1 ≤ b.cols; omega, le_refl _⟩).2.1 rfl
        rw [hsb.2 (Or.inl this)])
    have hblk : ∀ j : Int, p.col ≤ j → j ≤ b.cols →
        (b.stopEast p j = some true ↔ stepBlocked b i ⟨p.row, j⟩ 1) := by
      intro j h1 h2
      obtain ⟨s, hs, hsb⟩ := stopEast_spec b hb i p hp j h1 h2
      rw [hs]
      simpa using hsb
    have hmlt : p.col < m := by
      rcases eq_or_lt_of_le hm1 with h | h
      · exfalso
        apply hfree
        have := (hblk m hm1 hm2).1 hstop
        rw [← h] at this
        exact this
      · exact h
    have hmin : InGrid b ⟨p.row, m⟩ := ⟨p1, p2, by show 1 ≤ m; omega, hm2⟩
    obtain ⟨g, hg, hl, hw⟩ := relocate_ok b hb i p ⟨p.row, m⟩ hp hmin
    have hk : p.shift 1 ((m - p.col).toNat : Nat) = ⟨p.row, m⟩ := by
      simp only [Position.shift, Position.mk.injEq, true_and]
      omega
    refine ⟨(m - p.col).toNat, g, ?_, hl, hw, ?_, ?_, ?_⟩
    · have hne : (m - p.col).toNat ≠ 0 := by omega
      have hpos : 0 < (m - p.col).toNat := by omega
      simp only [Board.moveRobot, Board.getRobotPosition, hp, hs, Board.getCols, hscan,
        Board.finish, hg, if_neg hne, hk, hpos, decide_True]
    · rw [hk]; exact hmin
    · intro j hj
      have := hrest (p.col + j) (by omega) (by omega)
      intro hc
      have h2 := (hblk (p.col + j) (by omega) (by omega)).2
        (by simpa [Position.shift] using hc)
      rw [this] at h2
      cases h2
    · rw [hk]
      exact (hblk m hm1 hm2).1 hstop

theorem clearSouth_spec (b : Board) (hb : WellFormed b) (i : Nat) (p : Position)
    (hp : b.robot_positions[i]? = some p) :
    ∃ s, b.clearSouth p = some s ∧ (s = true ↔ ¬ stepBlocked b i p 2) := by
  have hin := position_inside b hb i p hp
  unfold Board.clearSouth Board.getRows
  by_cases h : p.row < b.rows
  · rw [if_pos h, getHorizontalWall_south b hb p hin]
    exact ⟨_, rfl, clear_iff b i p 2 _ hp rfl (step_ne p 2)⟩
  · rw [if_neg h]
    refine ⟨false, rfl, ?_⟩
    have hw := (wall_at_border b hb p hin).2.2.1 (by have := hin.2.1; omega)
    simp [stepBlocked, hw]

theorem stopSouth_spec (b : Board) (hb : WellFormed b) (i : Nat) (p : Position)
    (hp : b.robot_positions[i]? = some p) (j : Int) (h1 : p.row ≤ j) (h2 : j ≤ b.rows) :
    ∃ s, b.stopSouth p j = some s ∧ (s = true ↔ stepBlocked b i ⟨j, p.col⟩ 2) := by
  obtain ⟨p1, p2, p3, p4⟩ := position_inside b hb i p hp
  have hin : InGrid b ⟨j, p.col⟩ := ⟨by show 1 ≤ j; omega, h2, p3, p4⟩
  have hw := getHorizontalWall_south b hb ⟨j, p.col⟩ hin
  simp only at hw
  unfold Board.stopSouth Board.getRows
  rw [hw]
  refine ⟨_, rfl, blocked_iff b i p ⟨j, p.col⟩ 2 _ hp rfl ?_ (decide (j = b.rows)) ?_⟩
  · intro h
    have := congrArg Position.row h
    simp [Position.step, Position.shift] at this
    omega
  · intro h
    exact (wall_at_border b hb ⟨j, p.col⟩ hin).2.2.1 (by simpa using h)

theorem slide_south (b : Board) (hb : WellFormed b) (i : Nat) (p : Position)
    (hp : b.robot_positions[i]? = some p) : SlideResult b i 2 p (b.moveRobot i 2) := by
  have hin := position_inside b hb i p hp
  obtain ⟨p1, p2, p3, p4⟩ := hin
  obtain ⟨s, hs, hsb⟩ := clearSouth_spec b hb i p hp
  cases s with
  | false =>
    refine ⟨0, b.board, ?_, hb.board_length, hb.board_width, ?_, ?_, ?_⟩
    · simp [Board.moveRobot, Board.getRobotPosition, hp, hs]
    · simpa [Position.shift] using (⟨p1, p2, p3, p4⟩ : InGrid b p)
    · intro j hj; omega
    · have : stepBlocked b i p 2 := by
        by_contra hc
        exact Bool.false_ne_true (hsb.2 hc)
      simpa [Position.shift] using this
  | true =>
    have hfree : ¬ stepBlocked b i p 2 := hsb.1 rfl
    obtain ⟨m, hm1, hm2, hscan, hstop, hrest⟩ := scanUp_spec (b.stopSouth p) b.rows
      (b.rows - p.row + 1).toNat p.row p2 rfl
      (fun j h1 h2 => by
        obtain ⟨s, hs, _⟩ := stopSouth_spec b hb i p hp j h1 h2
        exact ⟨s, hs⟩)
      (by
        obtain ⟨s, hs, hsb⟩ := stopSouth_spec b hb i p hp b.rows p2 (le_refl _)
        rw [hs]
        have : wallOnSide b ⟨b.rows, p.col⟩ 2 = true :=
          (wall_at_border b hb ⟨b.rows, p.col⟩
            ⟨by show 1 ≤ b.rows; omega, le_refl _, p3, p4⟩).2.2.1 rfl
        rw [hsb.2 (Or.inl this)])
    have hblk : ∀ j : Int, p.row ≤ j → j ≤ b.rows →
        (b.stopSouth p j = some true ↔ stepBlocked b i ⟨j, p.col⟩ 2) := by
      intro j h1 h2
      obtain ⟨s, hs, hsb⟩ := stopSouth_spec b hb i p hp j h1 h2
      rw [hs]
      simpa using hsb
    have hmlt : p.row < m := by
      rcases eq_or_lt_of_le hm1 with h | h
      · exfalso
        apply hfree
        have := (hblk m hm1 hm2).1 hstop
        rw [← h] at this
        exact this
      · exact h
    have hmin : InGrid b ⟨m, p.col⟩ := ⟨by show 1 ≤ m; omega, hm2, p3, p4⟩
    obtain ⟨g, hg, hl, hw⟩ := relocate_ok b hb i p ⟨m, p.col⟩ hp hmin
    have hk : p.shift 2 ((m - p.row).toNat : Nat) = ⟨m, p.col⟩ := by
      simp only [Position.shift, Position.mk.injEq, and_true]
      omega
    refine ⟨(m - p.row).toNat, g, ?_, hl, hw, ?_, ?_, ?_⟩
    · have hne : (m - p.row).toNat ≠ 0 := by omega
      have hpos : 0 < (m - p.row).toNat := by omega
      simp only [Board.moveRobot, Board.getRobotPosition, hp, hs, Board.getRows, hscan,
        Board.finish, hg, if_neg hne, hk, hpos, decide_True]
    · rw [hk]; exact hmin
    · intro j hj
      have := hrest (p.row + j) (by omega) (by omega)
      intro hc
      have h2 := (hblk (p.row + j) (by omega) (by omega)).2
        (by simpa [Position.shift] using hc)
      rw [this] at h2
      cases h2
    · rw [hk]
      exact (hblk m hm1 hm2).1 hstop

theorem clearWest_spec (b : Board) (hb : WellFormed b) (i : Nat) (p : Position)
    (hp : b.robot_positions[i]? = some p) :
    ∃ s, b.clearWest p = some s ∧ (s = true ↔ ¬ stepBlocked b i p 3) := by
  have hin := position_inside b hb i p hp
  unfold Board.clearWest
  by_cases h : p.col > 1
  · rw [if_pos h, getVerticalWall_west b hb p hin]
    exact ⟨_, rfl, clear_iff b i p 3 _ hp rfl (step_ne p 3)⟩
  · rw [if_neg h]
    refine ⟨false, rfl, ?_⟩
    have hw := (wall_at_border b hb p hin).2.2.2 (by have := hin.2.2.1; omega)
    simp [stepBlocked, hw]

theorem stopWest_spec (b : Board) (hb : WellFormed b) (i : Nat) (p : Position)
    (hp : b.robot_positions[i]? = some p) (j : Int) (h1 : 1 ≤ j) (h2 : j ≤ p.col) :
    ∃ s, b.stopWest p j = some s ∧ (s = true ↔ stepBlocked b i ⟨p.row, j⟩ 3) := by
  obtain ⟨p1, p2, p3, p4⟩ := position_inside b hb i p hp
  have hin : InGrid b ⟨p.row, j⟩ := ⟨p1, p2, h1, by show j ≤ b.cols; omega⟩
  have hw := getVerticalWall_west b hb ⟨p.row, j⟩ hin
  simp only at hw
  unfold Board.stopWest
  rw [hw]
  refine ⟨_, rfl, blocked_iff b i p ⟨p.row, j⟩ 3 _ hp rfl ?_ (decide (j = 1)) ?_⟩
  · intro h
    have := congrArg Position.col h
    simp [Position.step, Position.shift] at this
    omega
  · intro h
    exact (wall_at_border b hb ⟨p.row, j⟩ hin).2.2.2 (by simpa using h)

theorem slide_west (b : Board) (hb : WellFormed b) (i : Nat) (p : Position)
    (hp : b.robot_positions[i]? = some p) : SlideResult b i 3 p (b.moveRobot i 3) := by
  have hin := position_inside b hb i p hp
  obtain ⟨p1, p2, p3, p4⟩ := hin
  obtain ⟨s, hs, hsb⟩ := clearWest_spec b hb i p hp
  cases s with
  | false =>
    refine ⟨0, b.board, ?_, hb.board_length, hb.board_width, ?_, ?_, ?_⟩
    · simp [Board.moveRobot, Board.getRobotPosition, hp, hs]
    · simpa [Position.shift] using (⟨p1, p2, p3, p4⟩ : InGrid b p)
    · intro j hj; omega
    · have : stepBlocked b i p 3 := by
        by_contra hc
        exact Bool.false_ne_true (hsb.2 hc)
      simpa [Position.shift] using this
  | true =>
    have hfree : ¬ stepBlocked b i p 3 := hsb.1 rfl
    have hcol : 1 < p.col := by
      by_contra hc
      apply hfree
      left
      exact (wall_at_border b hb p ⟨p1, p2, p3, p4⟩).2.2.2 (by omega)
    obtain ⟨m, hm1, hm2, hscan, hstop, hrest⟩ := scanDown_spec (b.stopWest p) p.col.toNat
      (by omega) (fun j h1 h2 => by
        obtain ⟨s, hs, _⟩ := stopWest_spec b hb i p hp j h1 (by omega)
        exact ⟨s, hs⟩)
      (by
        obtain ⟨s, hs, hsb⟩ := stopWest_spec b hb i p hp 1 (le_refl 1) (by omega)
        rw [hs]
        have : wallOnSide b ⟨p.row, 1⟩ 3 = true :=
          (wall_at_border b hb ⟨p.row, 1⟩
            ⟨p1, p2, le_refl 1, by show (1 : Int) ≤ b.cols; omega⟩).2.2.2 rfl
        rw [hsb.2 (Or.inl this)])
    have hblk : ∀ j : Int, 1 ≤ j → j ≤ p.col →
        (b.stopWest p j = some true ↔ stepBlocked b i ⟨p.row, j⟩ 3) := by
      intro j h1 h2
      obtain ⟨s, hs, hsb⟩ := stopWest_spec b hb i p hp j h1 h2
      rw [hs]
      simpa using hsb
    have hmlt : m < p.col := by
      rcases eq_or_lt_of_le (show m ≤ p.col by omega) with h | h
      · exfalso
        apply hfree
        have := (hblk m hm1 (by omega)).1 hstop
        rw [h] at this
        exact this
      · exact h
    have hmin : InGrid b ⟨p.row, m⟩ := ⟨p1, p2, hm1, by show m ≤ b.cols; omega⟩
    obtain ⟨g, hg, hl, hw⟩ := relocate_ok b hb i p ⟨p.row, m⟩ hp hmin
    have hk : p.shift 3 ((p.col - m).toNat : Nat) = ⟨p.row, m⟩ := by
      simp only [Position.shift, Position.mk.injEq, true_and]
      omega
    refine ⟨(p.col - m).toNat, g, ?_, hl, hw, ?_, ?_, ?_⟩
    · have hne : (p.col - m).toNat ≠ 0 := by omega
      have hpos : 0 < (p.col - m).toNat := by omega
      simp only [Board.moveRobot, Board.getRobotPosition, hp, hs, hscan, Board.finish, hg,
        if_neg hne, hk, hpos, decide_True]
    · rw [hk]; exact hmin
    · intro j hj
      have hlt : m < p.col - j := by omega
      have := hrest (p.col - j) hlt (by omega)
      intro hc
      have h2 := (hblk (p.col - j) (by omega) (by omega)).2
        (by simpa [Position.shift] using hc)
      rw [this] at h2
      cases h2
    · rw [hk]
      exact (hblk m hm1 (by omega)).1 hstop

/-- On a well-formed board every move in a direction `0..3` of an existing robot is a
slide in the sense of `SlideResult`. -/
theorem moveRobot_slide (b : Board) (hb : WellFormed b) (i d : Nat) (p : Position)
    (hp : b.robot_positions[i]? = some p) (hd : d < 4) :
    SlideResult b i d p (b.moveRobot i d) := by
  have h : d = 0 ∨ d = 1 ∨ d = 2 ∨ d = 3 := by omega
  rcases h with rfl | rfl | rfl | rfl
  · exact slide_north b hb i p hp
  · exact slide_east b hb i p hp
  · exact slide_south b hb i p hp
  · exact slide_west b hb i p hp

/-! ## Consequences of a slide -/

theorem shift_zero (p : Position) (d : Nat) : p.shift d (0 : Nat) = p := by
  unfold Position.shift
  split <;> simp

theorem shift_step (p : Position) (d : Nat) (j : Nat) :
    (p.step d).shift d (j : Nat) = p.shift d ((j + 1 : Nat)) := by
  unfold Position.step Position.shift
  split <;> simp <;> omega

theorem step_shift (p : Position) (d : Nat) (j : Nat) :
    (p.shift d (j : Nat)).step d = p.shift d ((j + 1 : Nat)) := by
  unfold Position.step Position.shift
  split <;> simp <;> omega

theorem shift_ne (p : Position) (d : Nat) (k : Nat) (hk : k ≠ 0) : p.shift d (k : Nat) ≠ p := by
  intro h
  have h1 := congrArg Position.row h
  have h2 := congrArg Position.col h
  unfold Position.shift at h1 h2
  split at h1 <;> simp at h1 h2 <;> omega

theorem shift_bound (b : Board) (p : Position) (d : Nat) (k : Nat) (hp : InGrid b p)
    (hq : InGrid b (p.shift d (k : Nat))) : k ≤ (b.rows + b.cols).toNat := by
  obtain ⟨p1, p2, p3, p4⟩ := hp
  obtain ⟨q1, q2, q3, q4⟩ := hq
  unfold Position.shift at q1 q2 q3 q4
  split at q1 <;> simp at q1 q2 q3 q4 <;> omega

theorem slideRef_eq (b : Board) (i d : Nat) :
    ∀ (k fuel : Nat) (p : Position), (∀ j : Nat, j < k → ¬ stepBlocked b i (p.shift d j) d) →
      stepBlocked b i (p.shift d k) d → k ≤ fuel → slideRef b i d fuel p = p.shift d k := by
  intro k
  induction k with
  | zero =>
    intro fuel p _ hblk _
    rw [shift_zero] at hblk ⊢
    cases fuel with
    | zero => rfl
    | succ f => simp only [slideRef, if_pos hblk]
  | succ k ih =>
    intro fuel p hfree hblk hle
    cases fuel with
    | zero => omega
    | succ f =>
      have h0 : ¬ stepBlocked b i p d := by
        have := hfree 0 (by omega)
        rwa [shift_zero] at this
      simp only [slideRef, if_neg h0]
      rw [ih f (p.step d) ?_ ?_ (by omega), shift_step]
      · intro j hj
        rw [shift_step]
        exact hfree (j + 1) (by omega)
      · rw [shift_step]
        exact hblk

theorem nodup_set (l : List Position) (i : Nat) (q : Position) (hl : l.Nodup)
    (hq : ∀ k : Nat, k ≠ i → l[k]? ≠ some q) : (l.set i q).Nodup := by
  rw [List.nodup_iff_getElem?_ne_getElem?] at hl ⊢
  intro x y hxy hy
  rw [List.length_set] at hy
  rw [List.getElem?_set, List.getElem?_set]
  by_cases hx : i = x
  · subst hx
    rw [if_pos rfl, if_pos (by omega), if_neg (by omega)]
    exact fun h => hq y (by omega) h.symm
  · rw [if_neg hx]
    by_cases hy2 : i = y
    · subst hy2
      rw [if_pos rfl, if_pos hy]
      exact hq x (by omega)
    · rw [if_neg hy2]
      exact hl x y hxy hy

theorem stepBlocked_congr (b b1 : Board) (i : Nat) (c : Position) (d : Nat)
    (hv : b1.vertical_walls = b.vertical_walls) (hh : b1.horizontal_walls = b.horizontal_walls)
    (hr : ∀ k : Nat, k ≠ i → b1.robot_positions[k]? = b.robot_positions[k]?) :
    stepBlocked b1 i c d ↔ stepBlocked b i c d := by
  have hw : wallOnSide b1 c d = wallOnSide b c d := by
    unfold wallOnSide
    rw [hv, hh]
  unfold stepBlocked otherRobotAt
  rw [hw]
  constructor
  · rintro (h | ⟨k, hk, h⟩)
    · exact Or.inl h
    · exact Or.inr ⟨k, hk, by rw [← hr k hk]; exact h⟩
  · rintro (h | ⟨k, hk, h⟩)
    · exact Or.inl h
    · exact Or.inr ⟨k, hk, by rw [hr k hk]; exact h⟩

/-- Well-formedness survives the relocation of robot `i` to a free cell of the grid. -/
theorem wellFormed_set (b : Board) (hb : WellFormed b) (i : Nat) (q : Position)
    (g : List (List Char)) (hl : g.length = b.rows.toNat) (hw : ∀ l ∈ g, l.length = b.cols.toNat)
    (hq : InGrid b q) (hfree : ¬ otherRobotAt b i q) :
    WellFormed { b with board := g, robot_positions := b.robot_positions.set i q } where
  rows_nonneg := hb.rows_nonneg
  cols_nonneg := hb.cols_nonneg
  board_length := hl
  board_width := hw
  vertical_length := hb.vertical_length
  vertical_width := hb.vertical_width
  horizontal_length := hb.horizontal_length
  horizontal_width := hb.horizontal_width
  border_west := hb.border_west
  border_east := hb.border_east
  border_north := hb.border_north
  border_south := hb.border_south
  robots_length := by simp [hb.robots_length]
  robots_inside := by
    intro x hx
    rcases List.mem_or_eq_of_mem_set hx with h | h
    · exact hb.robots_inside x h
    · rw [h]; exact hq
  robots_distinct :=
    nodup_set _ i q hb.robots_distinct (fun k hk h => hfree ⟨k, hk, h⟩)

theorem set_same (l : List Position) (i : Nat) (p : Position) (h : l[i]? = some p) :
    l.set i p = l := by
  apply List.ext_getElem?
  intro j
  rw [List.getElem?_set]
  by_cases hij : i = j
  · subst hij
    rw [if_pos rfl, if_pos (List.getElem?_eq_some.1 h).1, h]
  · rw [if_neg hij]

/-- The facts about one move that the rest of the development uses. -/
theorem moveRobot_facts (b : Board) (hb : WellFormed b) (i d : Nat) (p : Position)
    (hp : b.robot_positions[i]? = some p) (hd : d < 4) :
    ∃ (k : Nat) (b1 : Board), b.moveRobot i d = some (decide (0 < k), b1) ∧
      (k = 0 → b1 = b) ∧ WellFormed b1 ∧
      b1.rows = b.rows ∧ b1.cols = b.cols ∧ b1.vertical_walls = b.vertical_walls ∧
      b1.horizontal_walls = b.horizontal_walls ∧ b1.robots = b.robots ∧ b1.goal = b.goal ∧
      b1.goal_robot = b.goal_robot ∧
      b1.robot_positions = b.robot_positions.set i (p.shift d k) ∧
      (∀ j : Nat, j < k → ¬ stepBlocked b i (p.shift d j) d) ∧
      stepBlocked b i (p.shift d k) d := by
  obtain ⟨k, g, hres, hl, hw, hin, hfree, hblk⟩ := moveRobot_slide b hb i d p hp hd
  by_cases hk : k = 0
  · subst hk
    refine ⟨0, b, ?_, fun _ => rfl, hb, rfl, rfl, rfl, rfl, rfl, rfl, rfl, ?_, hfree, hblk⟩
    · simpa using hres
    · rw [shift_zero]
      exact (set_same _ i p hp).symm
  · refine ⟨k, { b with board := g, robot_positions := b.robot_positions.set i (p.shift d k) },
      ?_, fun h => absurd h hk, ?_, rfl, rfl, rfl, rfl, rfl, rfl, rfl, rfl,
      hfree, hblk⟩
    · rw [hres, if_neg hk]
    · refine wellFormed_set b hb i _ g hl hw hin ?_
      obtain ⟨k0, rfl⟩ : ∃ k0, k = k0 + 1 := ⟨k - 1, by omega⟩
      have := hfree k0 (by omega)
      intro ho
      apply this
      right
      rw [step_shift]
      exact ho

theorem position_of_index (b : Board) (hb : WellFormed b) (i : Nat) (hi : i < b.numRobots) :
    ∃ p, b.robot_positions[i]? = some p := by
  have : i < b.robot_positions.length := by
    rw [← hb.robots_length]; exact hi
  exact ⟨b.robot_positions[i], List.getElem?_eq_getElem this⟩

/-- A robot that has just slid in direction `d` cannot move in direction `d`. -/
theorem moveRobot_again (b : Board) (hb : WellFormed b) (i d : Nat) (hd : d < 4)
    (b1 : Board) (h : b.moveRobot i d = some (true, b1)) :
    WellFormed b1 ∧ ∃ q, b1.robot_positions[i]? = some q ∧ stepBlocked b1 i q d ∧
      b1.moveRobot i d = some (false, b1) := by
  have hp : ∃ p, b.robot_positions[i]? = some p := by
    cases hq : b.robot_positions[i]? with
    | none => simp [Board.moveRobot, Board.getRobotPosition, hq] at h
    | some p => exact ⟨p, rfl⟩
  obtain ⟨p, hp⟩ := hp
  obtain ⟨k, b2, hres, _, hwf, _, _, hv, hh, _, _, _, hpos, _, hblk⟩ :=
    moveRobot_facts b hb i d p hp hd
  rw [hres] at h
  obtain ⟨_, rfl⟩ := Prod.mk.inj (Option.some.inj h)
  have hi := index_lt_of_position b i p hp
  have hq : b2.robot_positions[i]? = some (p.shift d k) := by
    rw [hpos, List.getElem?_set_self hi]
  have hothers : ∀ j : Nat, j ≠ i → b2.robot_positions[j]? = b.robot_positions[j]? := by
    intro j hj
    rw [hpos, List.getElem?_set_ne (Ne.symm hj)]
  have hblk2 : stepBlocked b2 i (p.shift d k) d :=
    (stepBlocked_congr b b2 i _ d hv hh hothers).2 hblk
  refine ⟨hwf, _, hq, hblk2, ?_⟩
  obtain ⟨k2, b3, hres2, hsame, _, _, _, _, _, _, _, _, _, hfree2, _⟩ :=
    moveRobot_facts b2 hwf i d _ hq hd
  have hk2 : k2 = 0 := by
    by_contra hne
    have := hfree2 0 (by omega)
    rw [shift_zero] at this
    exact this hblk2
  subst hk2
  rw [hres2, hsame rfl]
  rfl

theorem sampleOne_wellFormed : WellFormed sampleOne := by
  constructor <;> decide

theorem sampleTwo_wellFormed : WellFormed sampleTwo := by
  constructor <;> decide

theorem sampleCorner_wellFormed : WellFormed sampleCorner := by
  constructor <;> decide

theorem sampleSmall_wellFormed : WellFormed sampleSmall := by
  constructor <;> decide

/-! ## What a move never touches (no assumption on the board) -/

theorem setspot_eq (b : Board) (p : Position) (a : Char) (b1 : Board)
    (h : b.setspot p a = some b1) : ∃ g, b1 = { b with board := g } := by
  unfold Board.setspot at h
  split at h
  · split at h
    · exact ⟨_, (Option.some.inj h).symm⟩
    · cases h
  · cases h

theorem relocate_eq (b : Board) (d : Nat) (p : Position) (b1 : Board)
    (h : b.relocate d p = some b1) :
    ∃ g, b1 = { b with board := g, robot_positions := b.robot_positions.set d p } := by
  unfold Board.relocate at h
  split at h
  · cases h
  · split at h
    · cases h
    · rename_i b2 hb2
      obtain ⟨g2, rfl⟩ := setspot_eq _ _ _ _ hb2
      split at h
      · cases h
      · obtain ⟨g, hg⟩ := setspot_eq _ _ _ _ h
        exact ⟨g, hg⟩

theorem finish_eq (b : Board) (d : Nat) (place : Int → Position) (x : Option (Option Int))
    (r : Bool) (b1 : Board) (h : Board.finish b d place x = some (r, b1)) :
    b1 = b ∨ ∃ g q, b1 = { b with board := g, robot_positions := b.robot_positions.set d q } := by
  unfold Board.finish at h
  split at h
  · cases h
  · left
    exact (Prod.mk.inj (Option.some.inj h)).2.symm
  · split at h
    · rename_i b2 hb2
      obtain ⟨g, hg⟩ := relocate_eq _ _ _ _ hb2
      right
      have h2 := (Prod.mk.inj (Option.some.inj h)).2
      exact ⟨g, _, h2 ▸ hg⟩
    · cases h

theorem moveRobot_eq (b : Board) (i d : Nat) (r : Bool) (b1 : Board)
    (h : b.moveRobot i d = some (r, b1)) :
    b1 = b ∨ ∃ g q, b1 = { b with board := g, robot_positions := b.robot_positions.set i q } := by
  unfold Board.moveRobot at h
  split at h
  · cases h
  · split at h
    all_goals first
      | (left; exact (Prod.mk.inj (Option.some.inj h)).2.symm)
      | (split at h
         · cases h
         · exact finish_eq _ _ _ _ _ _ h
         · left; exact (Prod.mk.inj (Option.some.inj h)).2.symm)

theorem moveRobot_frame (b : Board) (i d : Nat) (r : Bool) (b1 : Board)
    (h : b.moveRobot i d = some (r, b1)) :
    b1.rows = b.rows ∧ b1.cols = b.cols ∧ b1.vertical_walls = b.vertical_walls ∧
      b1.horizontal_walls = b.horizontal_walls ∧ b1.robots = b.robots ∧ b1.goal = b.goal ∧
      b1.goal_robot = b.goal_robot := by
  rcases moveRobot_eq b i d r b1 h with rfl | ⟨g, q, rfl⟩
  · exact ⟨rfl, rfl, rfl, rfl, rfl, rfl, rfl⟩
  · exact ⟨rfl, rfl, rfl, rfl, rfl, rfl, rfl⟩

theorem moveRobot_no_direction (b : Board) (i d : Nat) (hd : 4 ≤ d) (r : Bool) (b1 : Board)
    (h : b.moveRobot i d = some (r, b1)) : r = true ∧ b1 = b := by
  obtain ⟨e, rfl⟩ : ∃ e, d = e + 4 := ⟨d - 4, by omega⟩
  unfold Board.moveRobot at h
  split at h
  · cases h
  · simp only at h
    obtain ⟨h1, h2⟩ := Prod.mk.inj (Option.some.inj h)
    exact ⟨h1.symm, h2.symm⟩

theorem whichRobot_getRobot (b : Board) (hn : b.robots.Nodup) (i : Nat) (a : Char)
    (h : b.getRobot i = some a) : b.whichRobot a = some i := by
  unfold Board.getRobot at h
  obtain ⟨hi, rfl⟩ := List.getElem?_eq_some.1 h
  have : b.robots.indexOf b.robots[i] = i := List.indexOf_getElem hn i hi
  unfold Board.whichRobot
  rw [this, if_pos hi]

theorem whichRobot_lt (b : Board) (a : Char) (k : Nat) (h : b.whichRobot a = some k) :
    k < b.numRobots := by
  unfold Board.whichRobot at h
  split at h
  · rw [← Option.some.inj h]; assumption
  · cases h

/-! ## The search: shape of the result -/

theorem firstSuccess_elim {α : Type} (body : α → List command → Option (Bool × List command))
    (xs : List α) (hfalse : ∀ x ∈ xs, ∀ p p1, body x p = some (false, p1) → p1 = p) :
    ∀ path r path1, firstSuccess body xs path = some (r, path1) →
      (r = false → path1 = path) ∧
      (r = true → ∃ x ∈ xs, body x path = some (true, path1)) := by
  induction xs with
  | nil =>
    intro path r path1 h
    simp only [firstSuccess] at h
    obtain ⟨rfl, rfl⟩ := Prod.mk.inj (Option.some.inj h)
    exact ⟨fun _ => rfl, fun h => Bool.noConfusion h⟩
  | cons x xs ih =>
    intro path r path1 h
    unfold firstSuccess at h
    split at h
    · cases h
    · rename_i p1 hb
      obtain ⟨rfl, rfl⟩ := Prod.mk.inj (Option.some.inj h)
      exact ⟨fun h => Bool.noConfusion h, fun _ => ⟨x, List.mem_cons_self _ _, hb⟩⟩
    · rename_i p1 hb
      have hp : p1 = path := hfalse x (List.mem_cons_self _ _) _ _ hb
      subst hp
      obtain ⟨h1, h2⟩ := ih (fun y hy => hfalse y (List.mem_cons_of_mem _ hy)) _ _ _ h
      exact ⟨h1, fun hr => by
        obtain ⟨y, hy, hby⟩ := h2 hr
        exact ⟨y, List.mem_cons_of_mem _ hy, hby⟩⟩

theorem tryMove_elim (recurse : Board → List command → command → Option (Bool × List command))
    (hrec : ∀ t p l p1, recurse t p l = some (false, p1) → p1 = p)
    (c : Board) (last : command) (i d : Nat) (path : List command) (r : Bool)
    (path1 : List command) (h : tryMove recurse c last i d path = some (r, path1)) :
    (r = false → path1 = path) ∧
    (r = true → ∃ temp a a0 p1, c.moveRobot i d = some (true, temp) ∧
      temp.getRobot i = some a ∧
      recurse temp path ⟨a, d, some (i % 65536)⟩ = some (true, p1) ∧
      c.getRobot i = some a0 ∧ path1 = p1 ++ [⟨a0, d, none⟩]) := by
  unfold tryMove at h
  split at h
  · split at h
    · cases h
    · obtain ⟨rfl, rfl⟩ := Prod.mk.inj (Option.some.inj h)
      exact ⟨fun _ => rfl, fun h => Bool.noConfusion h⟩
    · rename_i temp hm
      split at h
      · cases h
      · rename_i a ha
        split at h
        · cases h
        · rename_i p1 hr
          obtain ⟨rfl, rfl⟩ := Prod.mk.inj (Option.some.inj h)
          exact ⟨fun _ => hrec _ _ _ _ hr, fun h => Bool.noConfusion h⟩
        · rename_i p1 hr
          split at h
          · cases h
          · rename_i a0 ha0
            obtain ⟨rfl, rfl⟩ := Prod.mk.inj (Option.some.inj h)
            exact ⟨fun h => Bool.noConfusion h, fun _ => ⟨temp, a, a0, p1, hm, ha, hr, ha0, rfl⟩⟩
  · obtain ⟨rfl, rfl⟩ := Prod.mk.inj (Option.some.inj h)
    exact ⟨fun _ => rfl, fun h => Bool.noConfusion h⟩

theorem findPathFrom_zero (c : Board) (path : List command) (last : command) :
    findPathFrom 0 c path last =
      match goalReached c with
      | none => none
      | some true => some (true, path)
      | some false => some (false, path) := by
  rfl

theorem findPathFrom_succ (m : Nat) (c : Board) (path : List command) (last : command) :
    findPathFrom (m + 1) c path last =
      match goalReached c with
      | none => none
      | some true => some (true, path)
      | some false =>
        firstSuccess
          (fun i p => firstSuccess (fun d q => tryMove (findPathFrom m) c last i d q) [0, 1, 2, 3] p)
          (List.range c.numRobots) path := by
  rfl

theorem replay_nil (c : Board) : replay c [] = some c := rfl

theorem replay_cons (c c1 : Board) (y : command) (rest : List command)
    (h : c.executeCommand y = some c1) : replay c (y :: rest) = replay c1 rest := by
  simp only [replay, h]

/-- Shape of every result of the search: on `false` the path is untouched; on `true`
the commands of a solution of length at most `n` were appended, last move first, and
replaying them from the end reaches a board that passes the goal test. -/
theorem findPathFrom_result :
    ∀ (n : Nat) (c : Board) (path : List command) (last : command) (r : Bool)
      (path1 : List command), findPathFrom n c path last = some (r, path1) →
      (r = false → path1 = path) ∧
      (r = true → ∃ cmds, path1 = path ++ cmds ∧ cmds.length ≤ n ∧
        (c.robots.Nodup →
          ∃ b1, replay c cmds.reverse = some b1 ∧ goalReached b1 = some true)) := by
  intro n
  induction n with
  | zero =>
    intro c path last r path1 h
    rw [findPathFrom_zero] at h
    split at h
    · cases h
    · rename_i hg
      obtain ⟨rfl, rfl⟩ := Prod.mk.inj (Option.some.inj h)
      exact ⟨fun h => Bool.noConfusion h, fun _ => ⟨[], by simp, by simp, fun _ => ⟨c, rfl, hg⟩⟩⟩
    · obtain ⟨rfl, rfl⟩ := Prod.mk.inj (Option.some.inj h)
      exact ⟨fun _ => rfl, fun h => Bool.noConfusion h⟩
  | succ m ih =>
    intro c path last r path1 h
    rw [findPathFrom_succ] at h
    split at h
    · cases h
    · rename_i hg
      obtain ⟨rfl, rfl⟩ := Prod.mk.inj (Option.some.inj h)
      exact ⟨fun h => Bool.noConfusion h, fun _ => ⟨[], by simp, by simp, fun _ => ⟨c, rfl, hg⟩⟩⟩
    · have hrec : ∀ t p l p1, findPathFrom m t p l = some (false, p1) → p1 = p :=
        fun t p l p1 hr => (ih t p l false p1 hr).1 rfl
      have hinner : ∀ i, ∀ d ∈ [0, 1, 2, 3], ∀ p p1,
          tryMove (findPathFrom m) c last i d p = some (false, p1) → p1 = p :=
        fun i d _ p p1 ht => (tryMove_elim _ hrec c last i d p false p1 ht).1 rfl
      have houter : ∀ i ∈ List.range c.numRobots, ∀ p p1,
          firstSuccess (fun d q => tryMove (findPathFrom m) c last i d q) [0, 1, 2, 3] p =
            some (false, p1) → p1 = p :=
        fun i _ p p1 hf => (firstSuccess_elim _ _ (hinner i) p false p1 hf).1 rfl
      obtain ⟨h1, h2⟩ := firstSuccess_elim _ _ houter path r path1 h
      refine ⟨h1, fun hr => ?_⟩
      obtain ⟨i, _, hi⟩ := h2 hr
      obtain ⟨d, _, hd⟩ := (firstSuccess_elim _ _ (hinner i) path true path1 hi).2 rfl
      obtain ⟨temp, a, a0, p1, hm, _, hfp, ha0, rfl⟩ :=
        (tryMove_elim _ hrec c last i d path true path1 hd).2 rfl
      obtain ⟨cmds, rfl, hlen, hreplay⟩ := (ih temp path _ true p1 hfp).2 rfl
      refine ⟨cmds ++ [⟨a0, d, none⟩], by simp, by simp; omega, fun hn => ?_⟩
      have hrob : temp.robots = c.robots := (moveRobot_frame c i d true temp hm).2.2.2.2.1
      obtain ⟨b1, hb1, hgoal⟩ := hreplay (by rw [hrob]; exact hn)
      refine ⟨b1, ?_, hgoal⟩
      have hexec : c.executeCommand ⟨a0, d, none⟩ = some temp := by
        simp only [Board.executeCommand, whichRobot_getRobot c hn i a0 ha0, hm]
      rw [List.reverse_append, List.reverse_singleton, List.singleton_append,
        replay_cons c temp _ _ hexec]
      exact hb1

/-! ## The search: it always answers on a playable board, and finds what exists -/

theorem firstSuccess_total {α : Type} (body : α → List command → Option (Bool × List command))
    (xs : List α) (htot : ∀ x ∈ xs, ∀ p, ∃ r p1, body x p = some (r, p1)) :
    ∀ path, ∃ r p1, firstSuccess body xs path = some (r, p1) := by
  induction xs with
  | nil => intro path; exact ⟨false, path, rfl⟩
  | cons x xs ih =>
    intro path
    obtain ⟨r, p1, hb⟩ := htot x (List.mem_cons_self _ _) path
    cases r with
    | true => exact ⟨true, p1, by simp only [firstSuccess, hb]⟩
    | false =>
      obtain ⟨r2, p2, h2⟩ := ih (fun y hy => htot y (List.mem_cons_of_mem _ hy)) p1
      exact ⟨r2, p2, by simp only [firstSuccess, hb, h2]⟩

theorem firstSuccess_complete {α : Type}
    (body : α → List command → Option (Bool × List command)) (xs : List α)
    (htot : ∀ x ∈ xs, ∀ p, ∃ r p1, body x p = some (r, p1))
    (hgood : ∃ x ∈ xs, ∀ p, ∃ p1, body x p = some (true, p1)) :
    ∀ path, ∃ p1, firstSuccess body xs path = some (true, p1) := by
  induction xs with
  | nil =>
    obtain ⟨x, hx, _⟩ := hgood
    cases hx
  | cons x xs ih =>
    intro path
    obtain ⟨r, p1, hb⟩ := htot x (List.mem_cons_self _ _) path
    cases r with
    | true => exact ⟨p1, by simp only [firstSuccess, hb]⟩
    | false =>
      have hgood2 : ∃ y ∈ xs, ∀ p, ∃ p1, body y p = some (true, p1) := by
        obtain ⟨y, hy, hyp⟩ := hgood
        rcases List.mem_cons.1 hy with rfl | hy2
        · obtain ⟨p2, h2⟩ := hyp path
          rw [hb] at h2
          cases h2
        · exact ⟨y, hy2, hyp⟩
      obtain ⟨p2, h2⟩ := ih (fun y hy => htot y (List.mem_cons_of_mem _ hy)) hgood2 p1
      exact ⟨p2, by simp only [firstSuccess, hb, h2]⟩

theorem anyRobotOnGoal_total (c : Board) (is : List Nat)
    (h : ∀ i ∈ is, i < c.robot_positions.length) : ∃ g, anyRobotOnGoal c is = some g := by
  induction is with
  | nil => exact ⟨false, rfl⟩
  | cons i rest ih =>
    have hi := h i (List.mem_cons_self _ _)
    obtain ⟨g, hg⟩ := ih (fun j hj => h j (List.mem_cons_of_mem _ hj))
    unfold anyRobotOnGoal Board.getRobotPosition
    rw [List.getElem?_eq_getElem hi]
    simp only
    split
    · exact ⟨true, rfl⟩
    · exact ⟨g, hg⟩

theorem goalReached_total (c : Board) (hc : Playable c) : ∃ g, goalReached c = some g := by
  unfold goalReached Board.getGoalRobot
  rcases hc.goal_set with h | ⟨h1, h2⟩
  · rw [if_pos h]
    apply anyRobotOnGoal_total
    intro i hi
    rw [← hc.wellFormed.robots_length]
    exact List.mem_range.1 hi
  · rw [if_neg (by omega), if_neg (by omega)]
    have hlt : c.goal_robot.toNat < c.robot_positions.length := by
      rw [← hc.wellFormed.robots_length]
      unfold Board.numRobots at h2
      omega
    unfold Board.getRobotPosition
    rw [List.getElem?_eq_getElem hlt]
    exact ⟨_, rfl⟩

theorem playable_move (c : Board) (hc : Playable c) (i d : Nat) (hi : i < c.numRobots)
    (hd : d < 4) :
    ∃ r temp, c.moveRobot i d = some (r, temp) ∧ Playable temp ∧
      temp.numRobots = c.numRobots ∧ temp.robots = c.robots := by
  obtain ⟨p, hp⟩ := position_of_index c hc.wellFormed i hi
  obtain ⟨k, b1, hres, _, hwf, _, _, _, _, hrob, _, hgr, _⟩ :=
    moveRobot_facts c hc.wellFormed i d p hp hd
  refine ⟨_, b1, hres, ⟨hwf, ?_, ?_, ?_⟩, ?_, hrob⟩
  · rw [hrob]; exact hc.names_distinct
  · rw [hrob]; exact hc.names_upper
  · unfold Board.numRobots
    rw [hgr, hrob]
    exact hc.goal_set
  · unfold Board.numRobots
    rw [hrob]

theorem getRobot_of_lt (c : Board) (i : Nat) (hi : i < c.numRobots) :
    ∃ a, c.getRobot i = some a :=
  ⟨c.robots[i], List.getElem?_eq_getElem hi⟩

theorem tryMove_total (recurse : Board → List command → command → Option (Bool × List command))
    (hrec : ∀ t p l, Playable t → ∃ r p1, recurse t p l = some (r, p1))
    (c : Board) (hc : Playable c) (last : command) (i d : Nat) (hi : i < c.numRobots)
    (hd : d < 4) (path : List command) :
    ∃ r p1, tryMove recurse c last i d path = some (r, p1) := by
  unfold tryMove
  split
  · obtain ⟨r, temp, hm, hpt, hnum, _⟩ := playable_move c hc i d hi hd
    rw [hm]
    cases r with
    | false => exact ⟨_, _, rfl⟩
    | true =>
      obtain ⟨a, ha⟩ := getRobot_of_lt temp i (by rw [hnum]; exact hi)
      obtain ⟨a0, ha0⟩ := getRobot_of_lt c i hi
      obtain ⟨r2, p2, h2⟩ := hrec temp path ⟨a, d, some (i % 65536)⟩ hpt
      simp only [ha, h2, ha0]
      cases r2 with
      | false => exact ⟨_, _, rfl⟩
      | true => exact ⟨_, _, rfl⟩
  · exact ⟨_, _, rfl⟩

theorem findPathFrom_total :
    ∀ (n : Nat) (c : Board) (path : List command) (last : command), Playable c →
      ∃ r p1, findPathFrom n c path last = some (r, p1) := by
  intro n
  induction n with
  | zero =>
    intro c path last hc
    obtain ⟨g, hg⟩ := goalReached_total c hc
    rw [findPathFrom_zero, hg]
    cases g with
    | false => exact ⟨_, _, rfl⟩
    | true => exact ⟨_, _, rfl⟩
  | succ m ih =>
    intro c path last hc
    obtain ⟨g, hg⟩ := goalReached_total c hc
    rw [findPathFrom_succ, hg]
    cases g with
    | true => exact ⟨_, _, rfl⟩
    | false =>
      apply firstSuccess_total
      intro i hi p
      apply firstSuccess_total
      intro d hd q
      exact tryMove_total _ (fun t p l ht => ih t p l ht) c hc last i d (List.mem_range.1 hi)
        (by simp at hd; omega) q

theorem upper_count (l : List Char) (hn : l.Nodup) (hu : ∀ a ∈ l, 'A' ≤ a ∧ a ≤ 'Z') :
    l.length ≤ 26 := by
  have hsub : l ⊆ (List.range' 65 26).map Char.ofNat := by
    intro a ha
    obtain ⟨h1, h2⟩ := hu a ha
    rw [List.mem_map]
    refine ⟨a.toNat, ?_, Char.ofNat_toNat a⟩
    rw [List.mem_range']
    have e1 : (65 : Nat) ≤ a.toNat := h1
    have e2 : a.toNat ≤ 90 := h2
    exact ⟨a.toNat - 65, by omega, by omega⟩
  have := (List.subperm_of_subset hn hsub).length_le
  simpa using this

theorem replay_cons_inv (c b1 : Board) (y : command) (rest : List command)
    (h : replay c (y :: rest) = some b1) :
    ∃ k r c1, c.whichRobot y.robot = some k ∧ c.moveRobot k y.dir = some (r, c1) ∧
      replay c1 rest = some b1 := by
  unfold replay Board.executeCommand at h
  cases hw : c.whichRobot y.robot with
  | none => simp [hw] at h
  | some k =>
    cases hm : c.moveRobot k y.dir with
    | none => simp [hw, hm] at h
    | some x =>
      obtain ⟨r, c1⟩ := x
      simp only [hw, hm] at h
      exact ⟨k, r, c1, rfl, hm, h⟩

/-- A solvable board that does not pass the goal test has a first move that changes
it and leaves a board solvable with one command less. -/
theorem solvable_step (c : Board) (hc : Playable c) (hg : goalReached c = some false)
    (n : Nat) (hs : SolvableWithin c n) :
    ∃ m i d temp, n = m + 1 ∧ i < c.numRobots ∧ d < 4 ∧
      c.moveRobot i d = some (true, temp) ∧ SolvableWithin temp m := by
  obtain ⟨cmds, hlen, b1, hrep, hgoal⟩ := hs
  induction cmds with
  | nil =>
    rw [replay_nil] at hrep
    rw [← Option.some.inj hrep, hg] at hgoal
    cases hgoal
  | cons y rest ih =>
    obtain ⟨k, r, c1, hw, hm, hrest⟩ := replay_cons_inv c b1 y rest hrep
    have hk := whichRobot_lt c _ k hw
    have hlen2 : rest.length + 1 ≤ n := by simpa using hlen
    by_cases hd : y.dir < 4
    · obtain ⟨p, hp⟩ := position_of_index c hc.wellFormed k hk
      obtain ⟨kk, b2, hres, hsame, _⟩ := moveRobot_facts c hc.wellFormed k y.dir p hp hd
      rw [hres] at hm
      obtain ⟨hr, hb⟩ := Prod.mk.inj (Option.some.inj hm)
      by_cases hz : kk = 0
      · have : c1 = c := by rw [← hb]; exact hsame hz
        rw [this] at hrest
        exact ih (by omega) hrest
      · obtain ⟨m, rfl⟩ : ∃ m, n = m + 1 := ⟨n - 1, by omega⟩
        refine ⟨m, k, y.dir, c1, rfl, hk, hd, ?_, rest, by omega, b1, hrest, hgoal⟩
        rw [hres, hb]
        have : decide (0 < kk) = true := by simp; omega
        rw [this]
    · obtain ⟨_, hb⟩ := moveRobot_no_direction c k y.dir (by omega) r c1 hm
      rw [hb] at hrest
      exact ih (by omega) hrest

/-- Completeness of the bounded search on playable boards. -/
theorem findPathFrom_complete :
    ∀ (n : Nat) (c : Board) (path : List command) (last : command), Playable c →
      PruneSafe c last → SolvableWithin c n →
      ∃ p1, findPathFrom n c path last = some (true, p1) := by
  intro n
  induction n with
  | zero =>
    intro c path last hc _ hs
    obtain ⟨g, hg⟩ := goalReached_total c hc
    cases g with
    | true => exact ⟨path, by rw [findPathFrom_zero, hg]⟩
    | false =>
      obtain ⟨m, _, _, _, h, _⟩ := solvable_step c hc hg 0 hs
      omega
  | succ m ih =>
    intro c path last hc hprune hs
    obtain ⟨g, hg⟩ := goalReached_total c hc
    cases g with
    | true => exact ⟨path, by rw [findPathFrom_succ, hg]⟩
    | false =>
      obtain ⟨m2, i, d, temp, hm2, hi, hd, hmove, hsolv⟩ := solvable_step c hc hg (m + 1) hs
      obtain rfl : m2 = m := by omega
      rw [findPathFrom_succ, hg]
      have hinner_tot : ∀ j ∈ List.range c.numRobots, ∀ e ∈ [0, 1, 2, 3], ∀ q,
          ∃ r p1, tryMove (findPathFrom m2) c last j e q = some (r, p1) :=
        fun j hj e he q =>
          tryMove_total _ (fun t p l ht => findPathFrom_total m2 t p l ht) c hc last j e
            (List.mem_range.1 hj) (by simp at he; omega) q
      apply firstSuccess_complete
      · intro j hj p
        exact firstSuccess_total _ _ (hinner_tot j hj) p
      · refine ⟨i, List.mem_range.2 hi, fun p => ?_⟩
        apply firstSuccess_complete _ _ (hinner_tot i (List.mem_range.2 hi))
        refine ⟨d, by simp; omega, fun q => ?_⟩
        obtain ⟨r, temp2, hmove2, hplay, hnum, _⟩ := playable_move c hc i d hi hd
        rw [hmove] at hmove2
        obtain ⟨_, rfl⟩ := Prod.mk.inj (Option.some.inj hmove2)
        obtain ⟨a, ha⟩ := getRobot_of_lt temp i (by rw [hnum]; exact hi)
        obtain ⟨a0, ha0⟩ := getRobot_of_lt c i hi
        have hnot : last.dir ≠ d ∨ last.robonum ≠ some i := by
          by_contra hcon
          have h1 : last.dir = d := by
            by_contra h; exact hcon (Or.inl h)
          have h2 : last.robonum = some i := by
            by_contra h; exact hcon (Or.inr h)
          have := hprune i d hi hd h1 h2
          rw [hmove] at this
          cases this
        have hsafe : PruneSafe temp ⟨a, d, some (i % 65536)⟩ := by
          intro j e hj _ hdir hrob
          have hcount := upper_count c.robots hc.names_distinct hc.names_upper
          have hi26 : i < 26 := lt_of_lt_of_le hi hcount
          have hje : j = i := by
            have := Option.some.inj hrob
            omega
          subst hje
          have hde : e = d := hdir.symm
          subst hde
          exact (moveRobot_again c hc.wellFormed j e hd temp hmove).2.choose_spec.2.2
        obtain ⟨p1, hp1⟩ := ih temp q ⟨a, d, some (i % 65536)⟩ hplay hsafe hsolv
        refine ⟨p1 ++ [⟨a0, d, none⟩], ?_⟩
        unfold tryMove
        rw [if_pos hnot]
        simp only [hmove, ha, hp1, ha0]

theorem pruneSafe_default (c : Board) : PruneSafe c command.default := by
  intro i d _ hd hdir _
  have : command.default.dir = 4 := rfl
  omega

theorem sampleSmall_playable : Playable sampleSmall :=
  ⟨sampleSmall_wellFormed, by decide, by decide, by decide⟩

theorem sampleOne_playable : Playable sampleOne :=
  ⟨sampleOne_wellFormed, by decide, by decide, by decide⟩

/-- The recursive call `findPath(temp, path, depth - 1, ...)`, made only when
`depth > 0`, never meets the sentinel: it is `findPathFrom` one level down. -/
theorem findPath_recursive_call (depth : Int) (hd : 0 < depth) (m : Nat)
    (hm : depth.toNat = m + 1) (t : Board) (p : List command) (l : command) :
    findPath t p (depth - 1) l = findPathFrom m t p l := by
  unfold findPath
  rw [if_neg (by omega)]
  congr 1
  omega

/-- The function `findPath` satisfies the recursive equation of the source: normalise
the sentinel, test the goal, and when `depth > 0` run the two nested loops whose body
calls `findPath` itself with `depth - 1`. -/
theorem findPath_unfold (c : Board) (path : List command) (depth : Int) (last : command) :
    findPath c path depth last =
      match goalReached c with
      | none => none
      | some true => some (true, path)
      | some false =>
        if 0 < (if depth = -1 then c.getCols * c.getRows else depth) then
          firstSuccess
            (fun i p =>
              firstSuccess
                (fun d q =>
                  tryMove
                    (fun t p1 l =>
                      findPath t p1 ((if depth = -1 then c.getCols * c.getRows else depth) - 1) l)
                    c last i d q)
                [0, 1, 2, 3] p)
            (List.range c.numRobots) path
        else some (false, path) := by
  generalize hD : (if depth = -1 then c.getCols * c.getRows else depth) = D
  have hfp : findPath c path depth last = findPathFrom D.toNat c path last := by
    unfold findPath
    rw [hD]
  rw [hfp]
  by_cases hpos : 0 < D
  · obtain ⟨m, hm⟩ : ∃ m, D.toNat = m + 1 := ⟨D.toNat - 1, by omega⟩
    have hrec : (fun t p1 l => findPath t p1 (D - 1) l) = findPathFrom m := by
      funext t p1 l
      exact findPath_recursive_call D hpos m hm t p1 l
    rw [hm, findPathFrom_succ, if_pos hpos, hrec]
  · have hz : D.toNat = 0 := by omega
    rw [hz, findPathFrom_zero, if_neg hpos]

/-! ## The occupancy grid across a move -/

theorem at2_set2 {α : Type} (g g1 : List (List α)) (i j : Nat) (a : α)
    (h : Board.set2 g i j a = some g1) (i1 j1 : Nat) :
    Board.at2 g1 i1 j1 = if i1 = i ∧ j1 = j then some a else Board.at2 g i1 j1 := by
  unfold Board.set2 at h
  cases hl : g[i]? with
  | none => simp [hl] at h
  | some l =>
    simp only [hl] at h
    split at h
    · rename_i hj
      have hg := Option.some.inj h
      subst hg
      have hi : i < g.length := (List.getElem?_eq_some.1 hl).1
      unfold Board.at2
      by_cases h1 : i1 = i
      · subst h1
        rw [List.getElem?_set_self hi, hl]
        simp only
        rw [List.getElem?_set]
        by_cases h2 : j1 = j
        · subst h2
          simp [hj]
        · rw [if_neg (fun h => h2 h.symm), if_neg (fun h => h2 h.2)]
      · rw [List.getElem?_set_ne (fun h => h1 h.symm), if_neg (fun h => h1 h.1)]
    · cases h

theorem setspot_spec (b : Board) (p : Position) (a : Char) (b1 : Board)
    (h : b.setspot p a = some b1) :
    InGrid b p ∧ ∃ g, Board.set2 b.board (p.row - 1).toNat (p.col - 1).toNat a = some g ∧
      b1 = { b with board := g } := by
  unfold Board.setspot at h
  split at h
  · rename_i hin
    split at h
    · rename_i g hg
      exact ⟨hin, g, hg, (Option.some.inj h).symm⟩
    · cases h
  · cases h

/-- The occupancy grid after `relocate`: the letter on the new cell, a blank on the old
cell when it is another cell, every other entry as before. -/
theorem relocate_grid (b : Board) (i : Nat) (p q : Position) (b1 : Board)
    (hp : b.robot_positions[i]? = some p) (h : b.relocate i q = some b1) :
    InGrid b p ∧ InGrid b q ∧ ∃ a, b.robots[i]? = some a ∧
      b1 = { b with board := b1.board, robot_positions := b.robot_positions.set i q } ∧
      ∀ r c, Board.at2 b1.board r c =
        if r = (q.row - 1).toNat ∧ c = (q.col - 1).toNat then some a
        else if r = (p.row - 1).toNat ∧ c = (p.col - 1).toNat then some blank
        else Board.at2 b.board r c := by
  unfold Board.relocate at h
  simp only [hp] at h
  cases h1 : b.setspot p blank with
  | none => simp [h1] at h
  | some b2 =>
    simp only [h1] at h
    obtain ⟨hpin, g1, hg1, rfl⟩ := setspot_spec b p blank b2 h1
    simp only at h
    cases h2 : b.robots[i]? with
    | none => simp [h2] at h
    | some a =>
      simp only [h2] at h
      obtain ⟨hqin, g, hg, rfl⟩ := setspot_spec _ q a b1 h
      refine ⟨hpin, hqin, a, rfl, rfl, fun r c => ?_⟩
      simp only at hg ⊢
      rw [at2_set2 g1 g _ _ a hg r c, at2_set2 b.board g1 _ _ blank hg1 r c]

theorem finish_relocate (b : Board) (d : Nat) (place : Int → Position)
    (x : Option (Option Int)) (r : Bool) (b1 : Board)
    (h : Board.finish b d place x = some (r, b1)) :
    b1 = b ∨ ∃ q, b.relocate d q = some b1 := by
  unfold Board.finish at h
  split at h
  · cases h
  · left
    exact (Prod.mk.inj (Option.some.inj h)).2.symm
  · split at h
    · rename_i b2 hb2
      right
      have h2 := (Prod.mk.inj (Option.some.inj h)).2
      exact ⟨_, h2 ▸ hb2⟩
    · cases h

theorem moveRobot_relocate (b : Board) (i d : Nat) (r : Bool) (b1 : Board)
    (h : b.moveRobot i d = some (r, b1)) : b1 = b ∨ ∃ q, b.relocate i q = some b1 := by
  unfold Board.moveRobot at h
  split at h
  · cases h
  · split at h
    all_goals first
      | (left; exact (Prod.mk.inj (Option.some.inj h)).2.symm)
      | (split at h
         · cases h
         · exact finish_relocate _ _ _ _ _ _ h
         · left; exact (Prod.mk.inj (Option.some.inj h)).2.symm)

/-- A move that returned `true` on a well-formed board is one relocation of the robot,
by `k > 0` steps, to a cell of the grid that no other robot holds. -/
theorem moveRobot_moved (b : Board) (hb : WellFormed b) (i d : Nat) (p : Position)
    (hp : b.robot_positions[i]? = some p) (hd : d < 4) (b1 : Board)
    (h : b.moveRobot i d = some (true, b1)) :
    ∃ k : Nat, 0 < k ∧ InGrid b (p.shift d k) ∧ ¬ otherRobotAt b i (p.shift d k) ∧
      b.relocate i (p.shift d k) = some b1 ∧ WellFormed b1 := by
  obtain ⟨k, b2, hres, _, hwf, hr, hc, _, _, _, _, _, hpos, hfree, _⟩ :=
    moveRobot_facts b hb i d p hp hd
  rw [hres] at h
  obtain ⟨hk, rfl⟩ := Prod.mk.inj (Option.some.inj h)
  have hk0 : 0 < k := by simpa using hk
  have hi := index_lt_of_position b i p hp
  have hq : b2.robot_positions[i]? = some (p.shift d k) := by
    rw [hpos, List.getElem?_set_self hi]
  have hin : InGrid b (p.shift d k) := by
    have := position_inside b2 hwf i _ hq
    unfold InGrid at this ⊢
    rwa [hr, hc] at this
  refine ⟨k, hk0, hin, ?_, ?_, hwf⟩
  · obtain ⟨k0, rfl⟩ : ∃ k0, k = k0 + 1 := ⟨k - 1, by omega⟩
    have := hfree k0 (by omega)
    intro ho
    apply this
    right
    rw [step_shift]
    exact ho
  · rcases moveRobot_relocate b i d _ b2 hres with heq | ⟨q, hq2⟩
    · exfalso
      rw [heq, hp] at hq
      exact shift_ne p d k (by omega) (Option.some.inj hq).symm
    · obtain ⟨g, hg⟩ := relocate_eq b i q b2 hq2
      have : b2.robot_positions[i]? = some q := by
        rw [hg]
        exact List.getElem?_set_self hi
      rw [hq] at this
      rw [Option.some.inj this]
      exact hq2

theorem cell_index (b : Board) (p : Position) (hp : InGrid b p) :
    (p.row - 1).toNat < b.rows.toNat ∧ (p.col - 1).toNat < b.cols.toNat ∧
      p = ⟨((p.row - 1).toNat : Int) + 1, ((p.col - 1).toNat : Int) + 1⟩ := by
  obtain ⟨h1, h2, h3, h4⟩ := hp
  refine ⟨by omega, by omega, ?_⟩
  have e1 : ((p.row - 1).toNat : Int) + 1 = p.row := by omega
  have e2 : ((p.col - 1).toNat : Int) + 1 = p.col := by omega
  rw [e1, e2]

theorem cell_index_inj (r c : Nat) (q : Position)
    (h : r = (q.row - 1).toNat ∧ c = (q.col - 1).toNat) (h1 : 1 ≤ q.row) (h2 : 1 ≤ q.col) :
    (⟨(r : Int) + 1, (c : Int) + 1⟩ : Position) = q := by
  obtain ⟨hr, hc⟩ := h
  have e1 : (r : Int) + 1 = q.row := by omega
  have e2 : (c : Int) + 1 = q.col := by omega
  rw [e1, e2]

/-- Occupancy agreement survives a move that returned `true`. -/
theorem occupancy_moved (b : Board) (hb : WellFormed b) (ho : OccupancyOK b) (i d : Nat)
    (p : Position) (hp : b.robot_positions[i]? = some p) (hd : d < 4) (b1 : Board)
    (h : b.moveRobot i d = some (true, b1)) : OccupancyOK b1 := by
  obtain ⟨k, hk, hqin, hfree, hrel, _⟩ := moveRobot_moved b hb i d p hp hd b1 h
  obtain ⟨hpin, _, a, ha, hb1, hgrid⟩ := relocate_grid b i p _ b1 hp hrel
  have hi := index_lt_of_position b i p hp
  have hne : p.shift d k ≠ p := shift_ne p d k (by omega)
  have hrows : b1.rows = b.rows := by rw [hb1]
  have hcols : b1.cols = b.cols := by rw [hb1]
  have hrob : b1.robots = b.robots := by rw [hb1]
  have hpos : b1.robot_positions = b.robot_positions.set i (p.shift d k) := by rw [hb1]
  intro r hr c hc
  rw [hrows] at hr
  rw [hcols] at hc
  obtain ⟨h1, h2⟩ := ho r hr c hc
  have hcellq : (r = ((p.shift d k).row - 1).toNat ∧ c = ((p.shift d k).col - 1).toNat) →
      (⟨(r : Int) + 1, (c : Int) + 1⟩ : Position) = p.shift d k :=
    fun hh => cell_index_inj r c _ hh hqin.1 hqin.2.2.1
  have hcellp : (r = (p.row - 1).toNat ∧ c = (p.col - 1).toNat) →
      (⟨(r : Int) + 1, (c : Int) + 1⟩ : Position) = p :=
    fun hh => cell_index_inj r c _ hh hpin.1 hpin.2.2.1
  have hidxq : (⟨(r : Int) + 1, (c : Int) + 1⟩ : Position) = p.shift d k →
      (r = ((p.shift d k).row - 1).toNat ∧ c = ((p.shift d k).col - 1).toNat) := by
    intro hh
    rw [← hh]
    simp
  have hidxp : (⟨(r : Int) + 1, (c : Int) + 1⟩ : Position) = p →
      (r = (p.row - 1).toNat ∧ c = (p.col - 1).toNat) := by
    intro hh
    rw [← hh]
    simp
  constructor
  · intro j hj hjpos
    rw [hpos, List.length_set] at hj
    rw [hpos, List.getElem?_set] at hjpos
    rw [hgrid, hrob]
    by_cases hji : i = j
    · subst hji
      rw [if_pos rfl, if_pos hi] at hjpos
      rw [if_pos (hidxq (Option.some.inj hjpos).symm), ha]
    · rw [if_neg hji] at hjpos
      have hnq : ¬ (r = ((p.shift d k).row - 1).toNat ∧ c = ((p.shift d k).col - 1).toNat) := by
        intro hh
        apply hfree
        exact ⟨j, fun e => hji e.symm, by rw [hjpos, hcellq hh]⟩
      have hnp : ¬ (r = (p.row - 1).toNat ∧ c = (p.col - 1).toNat) := by
        intro hh
        rw [hcellp hh] at hjpos
        have := (List.nodup_iff_getElem?_ne_getElem?.1 hb.robots_distinct)
        rcases Nat.lt_or_gt_of_ne hji with hlt | hgt
        · exact this i j hlt hj (by rw [hp, hjpos])
        · exact this j i hgt hi (by rw [hp, hjpos])
      rw [if_neg hnq, if_neg hnp]
      exact h1 j hj hjpos
  · intro hnone
    rw [hpos, List.length_set] at hnone
    rw [hgrid]
    have hnq : ¬ (r = ((p.shift d k).row - 1).toNat ∧ c = ((p.shift d k).col - 1).toNat) := by
      intro hh
      apply hnone i hi
      rw [List.getElem?_set_self hi, hcellq hh]
    rw [if_neg hnq]
    by_cases hcp : r = (p.row - 1).toNat ∧ c = (p.col - 1).toNat
    · rw [if_pos hcp]
    · rw [if_neg hcp]
      apply h2
      intro j hj hjpos
      by_cases hji : i = j
      · subst hji
        rw [hp] at hjpos
        exact hcp (hidxp (Option.some.inj hjpos).symm)
      · apply hnone j hj
        rw [List.getElem?_set_ne hji]
        exact hjpos

/-! ## Construction of a board -/

theorem set2_lengths {α : Type} (g g1 : List (List α)) (i j : Nat) (a : α)
    (h : Board.set2 g i j a = some g1) :
    g1.length = g.length ∧ ∀ n, (∀ l ∈ g, l.length = n) → ∀ l ∈ g1, l.length = n := by
  unfold Board.set2 at h
  cases hl : g[i]? with
  | none => simp [hl] at h
  | some l0 =>
    simp only [hl] at h
    split at h
    · have hg := Option.some.inj h
      subst hg
      refine ⟨by simp, fun n hn l hmem => ?_⟩
      rcases List.mem_or_eq_of_mem_set hmem with h1 | h1
      · exact hn l h1
      · rw [h1, List.length_set]
        exact hn l0 (List.mem_iff_getElem?.2 ⟨i, hl⟩)
    · cases h

theorem wellFormed_walls (b : Board) (hb : WellFormed b) : WallsOK b :=
  ⟨hb.rows_nonneg, hb.cols_nonneg, hb.vertical_length, hb.vertical_width,
    hb.horizontal_length, hb.horizontal_width, hb.border_west, hb.border_east,
    hb.border_north, hb.border_south⟩

theorem construct_eq (r c g : Int) (b : Board) (h : Board.construct r c g = some b) :
    0 ≤ r ∧ 0 ≤ c ∧ b =
      ⟨r, c,
        List.replicate r.toNat (List.replicate c.toNat blank),
        List.replicate r.toNat
          (((List.replicate (c.toNat + 1) false).set 0 true).set c.toNat true),
        ((List.replicate (r.toNat + 1) (List.replicate c.toNat false)).set 0
            (List.replicate c.toNat true)).set r.toNat (List.replicate c.toNat true),
        [], [], ⟨-1, -1⟩, g⟩ := by
  unfold Board.construct at h
  split at h
  · rename_i hrc
    exact ⟨hrc.1, hrc.2, (Option.some.inj h).symm⟩
  · cases h

theorem construct_wellFormed (r c g : Int) (b : Board)
    (h : Board.construct r c g = some b) : WellFormed b := by
  obtain ⟨hr, hc, rfl⟩ := construct_eq r c g b h
  constructor
  · exact hr
  · exact hc
  · simp
  · intro l hl
    rw [List.eq_of_mem_replicate hl]
    simp
  · simp
  · intro l hl
    rw [List.eq_of_mem_replicate hl]
    simp
  · simp
  · intro l hl
    simp only at hl
    rcases List.mem_or_eq_of_mem_set hl with h1 | h1
    · rcases List.mem_or_eq_of_mem_set h1 with h2 | h2
      · rw [List.eq_of_mem_replicate h2]
        simp
      · rw [h2]; simp
    · rw [h1]; simp
  · intro x hx
    simp only at hx ⊢
    simp [Board.at2, List.getElem?_replicate, hx, List.getElem?_set, List.getElem_set]
  · intro x hx
    simp only at hx ⊢
    simp [Board.at2, List.getElem?_replicate, hx, List.getElem?_set]
  · intro x hx
    simp only at hx ⊢
    simp only [Board.at2, List.getElem?_set, List.length_set, List.length_replicate]
    by_cases h0 : r.toNat = 0
    · simp [h0, List.getElem?_replicate, hx]
    · simp [h0, List.getElem?_replicate, hx]
  · intro x hx
    simp only at hx ⊢
    simp [Board.at2, List.getElem?_replicate, hx, List.getElem?_set]
  · rfl
  · intro p hp
    cases hp
  · exact List.nodup_nil

theorem construct_occupancy (r c g : Int) (b : Board)
    (h : Board.construct r c g = some b) : OccupancyOK b := by
  obtain ⟨hr, hc, rfl⟩ := construct_eq r c g b h
  intro x hx y hy
  simp only at hx hy
  constructor
  · intro k hk
    simp at hk
  · intro _
    simp [Board.at2, List.getElem?_replicate, hx, hy]

theorem addHorizontalWall_spec (b b1 : Board) (r2 c : Int)
    (h : b.addHorizontalWall r2 c = some b1) :
    ∃ g, Board.set2 b.horizontal_walls (r2 / 2).toNat (c - 1).toNat true = some g ∧
      b1 = { b with horizontal_walls := g } := by
  unfold Board.addHorizontalWall at h
  split at h
  · split at h
    · split at h
      · rename_i g hg
        exact ⟨g, hg, (Option.some.inj h).symm⟩
      · cases h
    · cases h
  · cases h

theorem addVerticalWall_spec (b b1 : Board) (r c2 : Int)
    (h : b.addVerticalWall r c2 = some b1) :
    ∃ g, Board.set2 b.vertical_walls (r - 1).toNat (c2 / 2).toNat true = some g ∧
      b1 = { b with vertical_walls := g } := by
  unfold Board.addVerticalWall at h
  split at h
  · split at h
    · split at h
      · rename_i g hg
        exact ⟨g, hg, (Option.some.inj h).symm⟩
      · cases h
    · cases h
  · cases h

theorem at2_set2_true (g g1 : List (List Bool)) (i j : Nat)
    (h : Board.set2 g i j true = some g1) (i1 j1 : Nat)
    (ht : Board.at2 g i1 j1 = some true) : Board.at2 g1 i1 j1 = some true := by
  rw [at2_set2 g g1 i j true h]
  split
  · rfl
  · exact ht

theorem wallsOK_congr (b b1 : Board) (hw : WallsOK b) (hr : b1.rows = b.rows)
    (hc : b1.cols = b.cols) (hv : b1.vertical_walls = b.vertical_walls)
    (hh : b1.horizontal_walls = b.horizontal_walls) : WallsOK b1 := by
  constructor
  · rw [hr]; exact hw.rows_nonneg
  · rw [hc]; exact hw.cols_nonneg
  · rw [hv, hr]; exact hw.vertical_length
  · rw [hv, hc]; exact hw.vertical_width
  · rw [hh, hr]; exact hw.horizontal_length
  · rw [hh, hc]; exact hw.horizontal_width
  · rw [hv, hr]; exact hw.border_west
  · rw [hv, hr, hc]; exact hw.border_east
  · rw [hh, hc]; exact hw.border_north
  · rw [hh, hr, hc]; exact hw.border_south

theorem wallsOK_addHorizontalWall (b b1 : Board) (r2 c : Int) (hw : WallsOK b)
    (h : b.addHorizontalWall r2 c = some b1) : WallsOK b1 := by
  obtain ⟨g, hg, rfl⟩ := addHorizontalWall_spec b b1 r2 c h
  obtain ⟨hl, hwd⟩ := set2_lengths _ _ _ _ _ hg
  constructor
  · exact hw.rows_nonneg
  · exact hw.cols_nonneg
  · exact hw.vertical_length
  · exact hw.vertical_width
  · show g.length = _
    rw [hl]; exact hw.horizontal_length
  · exact hwd _ hw.horizontal_width
  · exact hw.border_west
  · exact hw.border_east
  · intro x hx
    exact at2_set2_true _ _ _ _ hg _ _ (hw.border_north x hx)
  · intro x hx
    exact at2_set2_true _ _ _ _ hg _ _ (hw.border_south x hx)

theorem wallsOK_addVerticalWall (b b1 : Board) (r c2 : Int) (hw : WallsOK b)
    (h : b.addVerticalWall r c2 = some b1) : WallsOK b1 := by
  obtain ⟨g, hg, rfl⟩ := addVerticalWall_spec b b1 r c2 h
  obtain ⟨hl, hwd⟩ := set2_lengths _ _ _ _ _ hg
  constructor
  · exact hw.rows_nonneg
  · exact hw.cols_nonneg
  · show g.length = _
    rw [hl]; exact hw.vertical_length
  · exact hwd _ hw.vertical_width
  · exact hw.horizontal_length
  · exact hw.horizontal_width
  · intro x hx
    exact at2_set2_true _ _ _ _ hg _ _ (hw.border_west x hx)
  · intro x hx
    exact at2_set2_true _ _ _ _ hg _ _ (hw.border_east x hx)
  · exact hw.border_north
  · exact hw.border_south

/-- Well-formedness only reads the dimensions, the grids and the robots. -/
theorem wellFormed_of_walls (b b1 : Board) (hb : WellFormed b) (hw : WallsOK b1)
    (hr : b1.rows = b.rows) (hc : b1.cols = b.cols) (hbd : b1.board = b.board)
    (hrob : b1.robots = b.robots) (hpos : b1.robot_positions = b.robot_positions) :
    WellFormed b1 := by
  constructor
  · exact hw.rows_nonneg
  · exact hw.cols_nonneg
  · rw [hbd, hr]; exact hb.board_length
  · rw [hbd, hc]; exact hb.board_width
  · exact hw.vertical_length
  · exact hw.vertical_width
  · exact hw.horizontal_length
  · exact hw.horizontal_width
  · exact hw.border_west
  · exact hw.border_east
  · exact hw.border_north
  · exact hw.border_south
  · rw [hrob, hpos]; exact hb.robots_length
  · intro p hp
    rw [hpos] at hp
    have := hb.robots_inside p hp
    unfold InGrid at this ⊢
    rwa [hr, hc]
  · rw [hpos]; exact hb.robots_distinct

theorem occupancy_congr (b b1 : Board) (ho : OccupancyOK b) (hr : b1.rows = b.rows)
    (hc : b1.cols = b.cols) (hbd : b1.board = b.board) (hrob : b1.robots = b.robots)
    (hpos : b1.robot_positions = b.robot_positions) : OccupancyOK b1 := by
  intro x hx y hy
  rw [hr] at hx
  rw [hc] at hy
  have := ho x hx y hy
  unfold CellOK at this ⊢
  rw [hbd, hrob, hpos]
  exact this

/-- The four border lines answer `true` to the wall queries. -/
theorem border_queries (b : Board) (hw : WallsOK b) :
    (∀ r : Int, 1 ≤ r → r ≤ b.rows →
      b.getVerticalWall r 1 = some true ∧ b.getVerticalWall r (2 * b.cols + 1) = some true) ∧
    (∀ c : Int, 1 ≤ c → c ≤ b.cols →
      b.getHorizontalWall 1 c = some true ∧
      b.getHorizontalWall (2 * b.rows + 1) c = some true) := by
  have hr0 := hw.rows_nonneg
  have hc0 := hw.cols_nonneg
  constructor
  · intro r h1 h2
    constructor
    · have hc : (1 : Int) % 2 = 1 ∧ 1 ≤ r ∧ r ≤ b.rows ∧ (1 : Int) ≤ 1 ∧ 1 ≤ 2 * b.cols + 1 := by
        omega
      have hidx : ((1 : Int) / 2).toNat = 0 := by decide
      unfold Board.getVerticalWall
      rw [if_pos hc, hidx]
      exact hw.border_west _ (by omega)
    · have hc : (2 * b.cols + 1) % 2 = 1 ∧ 1 ≤ r ∧ r ≤ b.rows ∧ 1 ≤ 2 * b.cols + 1 ∧
          2 * b.cols + 1 ≤ 2 * b.cols + 1 := by omega
      have hidx : (2 * b.cols + 1) / 2 = b.cols := by omega
      unfold Board.getVerticalWall
      rw [if_pos hc, hidx]
      exact hw.border_east _ (by omega)
  · intro c h1 h2
    constructor
    · have hc : (1 : Int) % 2 = 1 ∧ (1 : Int) ≤ 1 ∧ 1 ≤ 2 * b.rows + 1 ∧ 1 ≤ c ∧ c ≤ b.cols := by
        omega
      have hidx : ((1 : Int) / 2).toNat = 0 := by decide
      unfold Board.getHorizontalWall
      rw [if_pos hc, hidx]
      exact hw.border_north _ (by omega)
    · have hc : (2 * b.rows + 1) % 2 = 1 ∧ 1 ≤ 2 * b.rows + 1 ∧
          2 * b.rows + 1 ≤ 2 * b.rows + 1 ∧ 1 ≤ c ∧ c ≤ b.cols := by omega
      have hidx : (2 * b.rows + 1) / 2 = b.rows := by omega
      unfold Board.getHorizontalWall
      rw [if_pos hc, hidx]
      exact hw.border_south _ (by omega)

/-- A fresh board has no interior wall. -/
theorem construct_no_interior_wall (r c g : Int) (b : Board)
    (h : Board.construct r c g = some b) :
    (∀ x j : Int, 1 ≤ x → x ≤ b.rows → 1 ≤ j → j ≤ b.cols - 1 →
      b.getVerticalWall x (2 * j + 1) = some false) ∧
    (∀ i y : Int, 1 ≤ i → i ≤ b.rows - 1 → 1 ≤ y → y ≤ b.cols →
      b.getHorizontalWall (2 * i + 1) y = some false) := by
  obtain ⟨hr, hc, rfl⟩ := construct_eq r c g b h
  constructor
  · intro x j h1 h2 h3 h4
    simp only at h2 h4
    have hcond : (2 * j + 1) % 2 = 1 ∧ 1 ≤ x ∧ x ≤ r ∧ 1 ≤ 2 * j + 1 ∧ 2 * j + 1 ≤ 2 * c + 1 := by
      omega
    have hidx : (2 * j + 1) / 2 = j := by omega
    have hx : (x - 1).toNat < r.toNat := by omega
    have hj0 : ¬ (0 = j.toNat) := by omega
    have hjc : ¬ (c.toNat = j.toNat) := by omega
    have hjl : j.toNat < c.toNat + 1 := by omega
    unfold Board.getVerticalWall
    simp only [if_pos hcond, hidx, Board.at2, List.getElem?_replicate, if_pos hx,
      List.getElem?_set, if_neg hj0, if_neg hjc, if_pos hjl]
  · intro i y h1 h2 h3 h4
    simp only at h2 h4
    have hcond : (2 * i + 1) % 2 = 1 ∧ 1 ≤ 2 * i + 1 ∧ 2 * i + 1 ≤ 2 * r + 1 ∧ 1 ≤ y ∧ y ≤ c := by
      omega
    have hidx : (2 * i + 1) / 2 = i := by omega
    have hi0 : ¬ (0 = i.toNat) := by omega
    have hir : ¬ (r.toNat = i.toNat) := by omega
    have hil : i.toNat < r.toNat + 1 := by omega
    have hy : (y - 1).toNat < c.toNat := by omega
    unfold Board.getHorizontalWall
    simp only [if_pos hcond, hidx, Board.at2, List.getElem?_replicate, List.getElem?_set,
      if_neg hi0, if_neg hir, if_pos hil, if_pos hy]

/-- Adding a wall never clears one. -/
theorem addWall_keeps_walls (b b1 : Board) :
    (∀ r2 c, b.addHorizontalWall r2 c = some b1 →
      (∀ x y, b.getHorizontalWall x y = some true → b1.getHorizontalWall x y = some true) ∧
      (∀ x y, b1.getVerticalWall x y = b.getVerticalWall x y)) ∧
    (∀ r c2, b.addVerticalWall r c2 = some b1 →
      (∀ x y, b.getVerticalWall x y = some true → b1.getVerticalWall x y = some true) ∧
      (∀ x y, b1.getHorizontalWall x y = b.getHorizontalWall x y)) := by
  constructor
  · intro r2 c h
    obtain ⟨g, hg, rfl⟩ := addHorizontalWall_spec b b1 r2 c h
    refine ⟨fun x y hxy => ?_, fun x y => rfl⟩
    unfold Board.getHorizontalWall at hxy ⊢
    simp only at hxy ⊢
    split at hxy
    · rename_i hcond
      rw [if_pos hcond]
      exact at2_set2_true _ _ _ _ hg _ _ hxy
    · cases hxy
  · intro r c2 h
    obtain ⟨g, hg, rfl⟩ := addVerticalWall_spec b b1 r c2 h
    refine ⟨fun x y hxy => ?_, fun x y => rfl⟩
    unfold Board.getVerticalWall at hxy ⊢
    simp only at hxy ⊢
    split at hxy
    · rename_i hcond
      rw [if_pos hcond]
      exact at2_set2_true _ _ _ _ hg _ _ hxy
    · cases hxy

theorem placeRobot_spec (b b1 : Board) (p : Position) (a : Char)
    (h : b.placeRobot p a = some b1) :
    InGrid b p ∧ b.getspot p = some blank ∧ p ≠ b.goal ∧ ('A' ≤ a ∧ a ≤ 'Z') ∧ a ∉ b.robots ∧
      ∃ g, Board.set2 b.board (p.row - 1).toNat (p.col - 1).toNat a = some g ∧
        b1 = { b with board := g, robots := b.robots ++ [a],
                      robot_positions := b.robot_positions ++ [p] } := by
  unfold Board.placeRobot at h
  split at h
  · rename_i hin
    split at h
    · rename_i s hs
      split at h
      · rename_i hc
        obtain ⟨hsb, hg, h1, h2, h3⟩ := hc
        obtain ⟨_, g, hg2, hb1⟩ := setspot_spec _ p a b1 h
        exact ⟨hin, by rw [hs, hsb], hg, ⟨h1, h2⟩, h3, g, hg2, hb1⟩
      · cases h
    · cases h
  · cases h

theorem setGoal_spec (b b1 : Board) (gr : String) (p : Position)
    (h : b.setGoal gr p = some b1) :
    InGrid b p ∧
      (∀ i, i < b.robots.length →
        b.getRobotPosition i ≠ none ∧ b.getRobotPosition i ≠ some p) ∧
      ∃ k : Int, b1 = { b with goal := p, goal_robot := k } := by
  unfold Board.setGoal at h
  split at h
  · rename_i hc
    obtain ⟨h1, h2, h3, h4, h5⟩ := hc
    refine ⟨⟨h1, h2, h3, h4⟩, h5, ?_⟩
    split at h
    · exact ⟨-1, (Option.some.inj h).symm⟩
    · split at h
      · split at h
        · rename_i k _
          exact ⟨(k : Int), (Option.some.inj h).symm⟩
        · cases h
      · cases h
  · cases h

theorem upper_ne_blank (a : Char) (h : 'A' ≤ a) : a ≠ blank := by
  intro e
  rw [e] at h
  exact absurd h (by decide)

/-- On a board whose occupancy grid agrees with the robots and whose names are
uppercase letters, a cell that holds a blank is free of robots. -/
theorem blank_cell_free (b : Board) (hb : LoadedOK b) (p : Position) (hp : InGrid b p)
    (hs : b.getspot p = some blank) : p ∉ b.robot_positions := by
  intro hmem
  obtain ⟨k, hk⟩ := List.mem_iff_getElem?.1 hmem
  have hkl : k < b.robot_positions.length := (List.getElem?_eq_some.1 hk).1
  obtain ⟨hr, hc, hcell⟩ := cell_index b p hp
  have h1 := (hb.occupancy _ hr _ hc).1 k hkl (by rw [← hcell]; exact hk)
  have hkr : k < b.robots.length := by rw [hb.wellFormed.robots_length]; exact hkl
  unfold Board.getspot at hs
  rw [if_pos (show 1 ≤ p.row ∧ p.row ≤ b.rows ∧ 1 ≤ p.col ∧ p.col ≤ b.cols from hp), h1,
    List.getElem?_eq_getElem hkr] at hs
  have hup := (hb.names_upper _ (List.getElem_mem hkr)).1
  exact upper_ne_blank _ hup (Option.some.inj hs)

theorem loadedOK_placeRobot (b b1 : Board) (p : Position) (a : Char) (hb : LoadedOK b)
    (h : b.placeRobot p a = some b1) : LoadedOK b1 := by
  obtain ⟨hin, hs, _, hup, hnew, g, hg, rfl⟩ := placeRobot_spec b b1 p a h
  have hfree := blank_cell_free b hb p hin hs
  obtain ⟨hl, hwd⟩ := set2_lengths _ _ _ _ _ hg
  have hwf := hb.wellFormed
  refine ⟨?_, ?_, ?_, ?_⟩
  · constructor
    · exact hwf.rows_nonneg
    · exact hwf.cols_nonneg
    · show g.length = _
      rw [hl]; exact hwf.board_length
    · exact hwd _ hwf.board_width
    · exact hwf.vertical_length
    · exact hwf.vertical_width
    · exact hwf.horizontal_length
    · exact hwf.horizontal_width
    · exact hwf.border_west
    · exact hwf.border_east
    · exact hwf.border_north
    · exact hwf.border_south
    · simp [hwf.robots_length]
    · intro x hx
      rcases List.mem_append.1 hx with h1 | h1
      · exact hwf.robots_inside x h1
      · rw [List.mem_singleton.1 h1]; exact hin
    · show (b.robot_positions ++ [p]).Nodup
      rw [List.nodup_append]
      refine ⟨hwf.robots_distinct, List.nodup_singleton p, ?_⟩
      intro x hx1 hx2
      rw [List.mem_singleton.1 hx2] at hx1
      exact hfree hx1
  · intro r hr c hc
    simp only at hr hc
    obtain ⟨h1, h2⟩ := hb.occupancy r hr c hc
    have hgrid := at2_set2 b.board g _ _ a hg r c
    unfold CellOK
    simp only
    rw [hgrid]
    constructor
    · intro k hk hkpos
      rw [List.length_append, List.length_singleton] at hk
      by_cases hlt : k < b.robot_positions.length
      · rw [List.getElem?_append_left hlt] at hkpos
        have hne : ¬ (r = (p.row - 1).toNat ∧ c = (p.col - 1).toNat) := by
          intro hh
          apply hfree
          rw [← cell_index_inj r c p hh hin.1 hin.2.2.1]
          exact List.mem_iff_getElem?.2 ⟨k, hkpos⟩
        rw [if_neg hne, List.getElem?_append_left (by rw [hwf.robots_length]; exact hlt)]
        exact h1 k hlt hkpos
      · have hk2 : k = b.robot_positions.length := by omega
        subst hk2
        rw [List.getElem?_append_right (le_refl _)] at hkpos
        simp only [Nat.sub_self, List.getElem?_cons_zero] at hkpos
        have hpc := Option.some.inj hkpos
        have hidx : r = (p.row - 1).toNat ∧ c = (p.col - 1).toNat := by
          rw [hpc]; simp
        rw [if_pos hidx, ← hwf.robots_length, List.getElem?_append_right (le_refl _)]
        simp
    · intro hnone
      have hne : ¬ (r = (p.row - 1).toNat ∧ c = (p.col - 1).toNat) := by
        intro hh
        apply hnone b.robot_positions.length (by simp)
        rw [List.getElem?_append_right (le_refl _), cell_index_inj r c p hh hin.1 hin.2.2.1]
        simp
      rw [if_neg hne]
      apply h2
      intro k hk hkpos
      apply hnone k (by simp; omega)
      rw [List.getElem?_append_left hk]
      exact hkpos
  · show (b.robots ++ [a]).Nodup
    rw [List.nodup_append]
    refine ⟨hb.names_distinct, List.nodup_singleton a, ?_⟩
    intro x hx1 hx2
    rw [List.mem_singleton.1 hx2] at hx1
    exact hnew hx1
  · intro x hx
    rcases List.mem_append.1 hx with h1 | h1
    · exact hb.names_upper x h1
    · rw [List.mem_singleton.1 h1]; exact hup

theorem loadedOK_congr (b b1 : Board) (hb : LoadedOK b) (hw : WallsOK b1)
    (hr : b1.rows = b.rows) (hc : b1.cols = b.cols) (hbd : b1.board = b.board)
    (hrob : b1.robots = b.robots) (hpos : b1.robot_positions = b.robot_positions) :
    LoadedOK b1 :=
  ⟨wellFormed_of_walls b b1 hb.wellFormed hw hr hc hbd hrob hpos,
    occupancy_congr b b1 hb.occupancy hr hc hbd hrob hpos,
    by rw [hrob]; exact hb.names_distinct,
    by rw [hrob]; exact hb.names_upper⟩

/-- Everything the loader builds is well-formed, with the occupancy grid in agreement
and the names distinct uppercase letters, and has no robot on the goal cell. -/
theorem loaded_ok (b : Board) (h : Loaded b) : LoadedOK b ∧ b.goal ∉ b.robot_positions := by
  induction h with
  | fresh r c g b hb =>
    obtain ⟨_, _, he⟩ := construct_eq r c g b hb
    refine ⟨⟨construct_wellFormed r c g b hb, construct_occupancy r c g b hb, ?_, ?_⟩, ?_⟩
    · rw [he]; exact List.nodup_nil
    · rw [he]; intro a ha; cases ha
    · rw [he]; intro hm; cases hm
  | horizontalWall b b1 r2 c _ hadd ih =>
    obtain ⟨g, _, he⟩ := addHorizontalWall_spec b b1 r2 c hadd
    have hw := wallsOK_addHorizontalWall b b1 r2 c (wellFormed_walls b ih.1.wellFormed) hadd
    refine ⟨loadedOK_congr b b1 ih.1 hw ?_ ?_ ?_ ?_ ?_, ?_⟩ <;> rw [he]
    exact ih.2
  | verticalWall b b1 r c2 _ hadd ih =>
    obtain ⟨g, _, he⟩ := addVerticalWall_spec b b1 r c2 hadd
    have hw := wallsOK_addVerticalWall b b1 r c2 (wellFormed_walls b ih.1.wellFormed) hadd
    refine ⟨loadedOK_congr b b1 ih.1 hw ?_ ?_ ?_ ?_ ?_, ?_⟩ <;> rw [he]
    exact ih.2
  | robot b b1 p a _ hplace ih =>
    refine ⟨loadedOK_placeRobot b b1 p a ih.1 hplace, ?_⟩
    obtain ⟨_, _, hg, _, _, g, _, he⟩ := placeRobot_spec b b1 p a hplace
    rw [he]
    show b.goal ∉ b.robot_positions ++ [p]
    intro hm
    rcases List.mem_append.1 hm with h1 | h1
    · exact ih.2 h1
    · exact hg (List.mem_singleton.1 h1).symm
  | goal b b1 gr p _ hset ih =>
    obtain ⟨_, hfree, k, he⟩ := setGoal_spec b b1 gr p hset
    have hw : WallsOK b1 := by
      apply wallsOK_congr b b1 (wellFormed_walls b ih.1.wellFormed) <;> rw [he]
    refine ⟨loadedOK_congr b b1 ih.1 hw ?_ ?_ ?_ ?_ ?_, ?_⟩ <;> rw [he]
    show p ∉ b.robot_positions
    intro hm
    obtain ⟨j, hj⟩ := List.mem_iff_getElem?.1 hm
    have hjl : j < b.robots.length := by
      rw [ih.1.wellFormed.robots_length]
      exact (List.getElem?_eq_some.1 hj).1
    exact (hfree j hjl).2 hj

/-- Every board in play has its wall grids in order. -/
theorem inPlay_walls (b : Board) (h : InPlay b) : WallsOK b := by
  induction h with
  | loaded b hb => exact wellFormed_walls b (loaded_ok b hb).1.wellFormed
  | horizontalWall b b1 r2 c _ hadd ih => exact wallsOK_addHorizontalWall b b1 r2 c ih hadd
  | verticalWall b b1 r c2 _ hadd ih => exact wallsOK_addVerticalWall b b1 r c2 ih hadd
  | move b b1 i d m _ hmove ih =>
    obtain ⟨hr, hc, hv, hh, _⟩ := moveRobot_frame b i d m b1 hmove
    exact wallsOK_congr b b1 ih hr hc hv hh

theorem setGoal_name (b b1 : Board) (gr : String) (p : Position)
    (h : b.setGoal gr p = some b1) : gr = "any" ∨ ∃ a, gr.data = [a] ∧ a ∈ b.robots := by
  unfold Board.setGoal at h
  split at h
  · split at h
    · rename_i hany
      exact Or.inl hany
    · split at h
      · rename_i a hdata
        split at h
        · rename_i k hk
          right
          refine ⟨a, hdata, ?_⟩
          unfold Board.whichRobot at hk
          split at hk
          · rename_i hlt
            exact List.indexOf_lt_length.1 hlt
          · cases hk
        · cases h
      · cases h
  · cases h

theorem foldlM_placeRobot_loaded (robots : List (Char × Position)) :
    ∀ b0 b1 : Board, Loaded b0 →
      robots.foldlM (fun b x => Board.placeRobot b x.2 x.1) b0 = some b1 → Loaded b1 := by
  induction robots with
  | nil =>
    intro b0 b1 h0 h
    have : b0 = b1 := Option.some.inj h
    rw [← this]
    exact h0
  | cons x rest ih =>
    intro b0 b1 h0 h
    rw [List.foldlM_cons] at h
    cases hp : Board.placeRobot b0 x.2 x.1 with
    | none => rw [hp] at h; cases h
    | some b2 =>
      rw [hp] at h
      exact ih b2 b1 (Loaded.robot b0 b2 x.2 x.1 h0 hp) h

/-- What `loadBoard` returns is a loaded board. -/
theorem loadBoard_loaded (rows cols : Int) (robots : List (Char × Position))
    (goalRobot : String) (goal : Position) (b : Board)
    (h : loadBoard rows cols robots goalRobot goal = some b) : Loaded b := by
  unfold loadBoard at h
  split at h
  · cases h
  · rename_i b0 h0
    split at h
    · cases h
    · rename_i b1 h1
      exact Loaded.goal b1 b goalRobot goal
        (foldlM_placeRobot_loaded robots b0 b1 (Loaded.fresh rows cols 0 b0 h0) h1) h

theorem sampleTwo_loaded : Loaded sampleTwo :=
  loadBoard_loaded 5 5 [('A', ⟨1, 1⟩), ('B', ⟨1, 3⟩)] "A" ⟨1, 5⟩ sampleTwo (by decide)

theorem sampleSmall_loaded : Loaded sampleSmall :=
  loadBoard_loaded 2 2 [('A', ⟨1, 1⟩)] "any" ⟨2, 1⟩ sampleSmall (by decide)

theorem sampleBoxed_loaded : Loaded sampleBoxed :=
  Loaded.horizontalWall ((sampleSmall.addVerticalWall 1 3).getD noBoard) sampleBoxed 3 1
    (Loaded.verticalWall sampleSmall _ 1 3 sampleSmall_loaded (by decide)) (by decide)

/-! ## The reachability map: single steps -/

theorem at2_sweep (h : List (List Int)) (r c : Nat) :
    Board.at2 (sweep h) r c =
      (Board.at2 h r c).map (fun x => if x = intMax then -1 else x) := by
  unfold Board.at2 sweep
  rw [List.getElem?_map]
  cases h[r]? with
  | none => rfl
  | some l =>
    simp only [Option.map_some']
    rw [List.getElem?_map]

theorem sweep_ok (f0 : Board) (maxdepth : Nat) (h : List (List Int))
    (hok : GridOK f0 maxdepth h) : GridOK f0 maxdepth (sweep h) := by
  intro r c x hx
  rw [at2_sweep] at hx
  cases hy : Board.at2 h r c with
  | none => rw [hy] at hx; cases hx
  | some y =>
    rw [hy] at hx
    have hxy : (if y = intMax then -1 else y) = x := Option.some.inj hx
    by_cases hm : y = intMax
    · rw [if_pos hm] at hxy
      exact Or.inl hxy.symm
    · rw [if_neg hm] at hxy
      rw [← hxy]
      exact hok r c y hy

theorem sweep_size (R C : Nat) (h : List (List Int)) (hs : GridSize R C h) :
    GridSize R C (sweep h) := by
  obtain ⟨h1, h2⟩ := hs
  refine ⟨by simp [sweep, h1], fun l hl => ?_⟩
  unfold sweep at hl
  obtain ⟨l0, hl0, rfl⟩ := List.mem_map.1 hl
  rw [List.length_map]
  exact h2 l0 hl0

theorem sweep_mono (h : List (List Int)) : Mono h (sweep h) := by
  intro r c n hn hat
  obtain ⟨m, hm, hat⟩ := hat
  refine ⟨m, hm, ?_⟩
  rw [at2_sweep, hat]
  have : ((m : Int) = intMax) = False := by
    unfold intMax
    simp only [eq_iff_iff, iff_false]
    omega
  simp only [Option.map_some', this, if_false]

theorem mono_refl (h : List (List Int)) : Mono h h := fun _ _ _ _ hat => hat

theorem mono_trans (h h1 h2 : List (List Int)) (h01 : Mono h h1) (h12 : Mono h1 h2) :
    Mono h h2 := fun r c n hn hat => h12 r c n hn (h01 r c n hn hat)

theorem freshGrid_spec (f : Board) (h0 : List (List Int)) (h : freshGrid f = some h0) :
    GridSize f.rows.toNat f.cols.toNat h0 ∧ ∀ r c x, Board.at2 h0 r c = some x → x = intMax := by
  unfold freshGrid Board.getRows Board.getCols at h
  split at h
  · have := Option.some.inj h
    subst this
    refine ⟨⟨by simp, fun l hl => ?_⟩, fun r c x hx => ?_⟩
    · rw [List.eq_of_mem_replicate hl]
      simp
    · unfold Board.at2 at hx
      rw [List.getElem?_replicate] at hx
      by_cases hr : r < f.rows.toNat
      · rw [if_pos hr] at hx
        simp only at hx
        rw [List.getElem?_replicate] at hx
        by_cases hc : c < f.cols.toNat
        · rw [if_pos hc] at hx
          exact (Option.some.inj hx).symm
        · rw [if_neg hc] at hx
          cases hx
      · rw [if_neg hr] at hx
        cases hx
  · cases h

theorem record_spec (h h1 : List (List Int)) (cell : Position) (d : Nat)
    (hrec : record h cell d = some h1) :
    1 ≤ cell.row ∧ 1 ≤ cell.col ∧
      ∃ x, Board.at2 h (cell.row - 1).toNat (cell.col - 1).toNat = some x ∧
        (((d : Int) < x % 4294967296 ∧
            Board.set2 h (cell.row - 1).toNat (cell.col - 1).toNat (asInt d) = some h1) ∨
          (¬ (d : Int) < x % 4294967296 ∧ h1 = h)) := by
  unfold record at hrec
  split at hrec
  · rename_i hc
    refine ⟨hc.1, hc.2, ?_⟩
    split at hrec
    · cases hrec
    · rename_i x hx
      refine ⟨x, hx, ?_⟩
      split at hrec
      · rename_i hlt
        exact Or.inl ⟨hlt, hrec⟩
      · rename_i hlt
        exact Or.inr ⟨hlt, (Option.some.inj hrec).symm⟩
  · cases hrec

theorem asInt_small (d : Nat) (hd : d < 2147483647) : asInt d = (d : Int) := by
  unfold asInt
  rw [if_pos (by omega)]

theorem record_ok (f0 : Board) (maxdepth : Nat) (h h1 : List (List Int)) (cell : Position)
    (d : Nat) (hmax : maxdepth < 2147483647) (hd : d ≤ maxdepth)
    (hocc : OccupiedAfter f0 d cell) (hok : GridOK f0 maxdepth h)
    (hrec : record h cell d = some h1) : GridOK f0 maxdepth h1 := by
  obtain ⟨hr, hc, x, _, hcase⟩ := record_spec h h1 cell d hrec
  rcases hcase with ⟨_, hset⟩ | ⟨_, rfl⟩
  · intro r c y hy
    rw [at2_set2 h h1 _ _ _ hset r c] at hy
    split at hy
    · rename_i hidx
      right; right
      refine ⟨d, ?_, hd, ?_⟩
      · rw [← Option.some.inj hy, asInt_small d (by omega)]
      · rw [cell_index_inj r c cell hidx hr hc]
        exact hocc
    · exact hok r c y hy
  · exact hok

theorem record_size (R C : Nat) (h h1 : List (List Int)) (cell : Position) (d : Nat)
    (hs : GridSize R C h) (hrec : record h cell d = some h1) : GridSize R C h1 := by
  obtain ⟨_, _, x, _, hcase⟩ := record_spec h h1 cell d hrec
  rcases hcase with ⟨_, hset⟩ | ⟨_, rfl⟩
  · obtain ⟨hl, hw⟩ := set2_lengths _ _ _ _ _ hset
    exact ⟨by rw [hl]; exact hs.1, hw _ hs.2⟩
  · exact hs

theorem record_total (R C : Nat) (h : List (List Int)) (cell : Position) (d : Nat)
    (hs : GridSize R C h) (hr : 1 ≤ cell.row) (hc : 1 ≤ cell.col)
    (hr2 : (cell.row - 1).toNat < R) (hc2 : (cell.col - 1).toNat < C) :
    ∃ h1, record h cell d = some h1 := by
  obtain ⟨x, hx⟩ := at2_of_lengths h R C _ _ hs.1 hs.2 hr2 hc2
  unfold record
  rw [if_pos ⟨hr, hc⟩, hx]
  simp only
  split
  · obtain ⟨g1, hg1, _⟩ := set2_of_lengths h R C _ _ (asInt d) hs.1 hs.2 hr2 hc2
    exact ⟨g1, hg1⟩
  · exact ⟨h, rfl⟩

/-- After recording depth `d` on `cell` the map holds a depth of at most `d` there, and
no other depth was lost or raised. -/
theorem record_mono (f0 : Board) (maxdepth : Nat) (h h1 : List (List Int)) (cell : Position)
    (d : Nat) (hmax : maxdepth < 2147483647) (hd : d ≤ maxdepth)
    (hok : GridOK f0 maxdepth h) (hrec : record h cell d = some h1) :
    Mono h h1 ∧ AtMost h1 (cell.row - 1).toNat (cell.col - 1).toNat d := by
  obtain ⟨hr, hc, x, hx, hcase⟩ := record_spec h h1 cell d hrec
  rcases hcase with ⟨hlt, hset⟩ | ⟨hnlt, heq⟩
  · constructor
    · intro r c n hn hat
      obtain ⟨m, hm, hat⟩ := hat
      unfold AtMost
      rw [at2_set2 h h1 _ _ _ hset r c]
      split
      · rename_i hidx
        rw [hidx.1, hidx.2, hx] at hat
        have hxm : x = (m : Int) := Option.some.inj hat
        rw [hxm] at hlt
        refine ⟨d, by omega, ?_⟩
        rw [asInt_small d (by omega)]
      · exact ⟨m, hm, hat⟩
    · refine ⟨d, le_refl d, ?_⟩
      rw [at2_set2 h h1 _ _ _ hset, if_pos ⟨rfl, rfl⟩, asInt_small d (by omega)]
  · rw [heq]
    refine ⟨mono_refl h, ?_⟩
    rcases hok _ _ x hx with hx1 | hx1 | ⟨m, hm, _, _⟩
    · exfalso
      apply hnlt
      rw [hx1]
      omega
    · exfalso
      apply hnlt
      rw [hx1]
      unfold intMax
      omega
    · rw [hm] at hnlt hx
      exact ⟨m, by omega, hx⟩

theorem forEach_inv {α σ : Type} (body : α → σ → Option σ) (I : σ → Prop) (xs : List α)
    (hstep : ∀ x ∈ xs, ∀ s s1, I s → body x s = some s1 → I s1) :
    ∀ s s1, I s → forEach body xs s = some s1 → I s1 := by
  induction xs with
  | nil =>
    intro s s1 hI h
    rw [← Option.some.inj h]
    exact hI
  | cons x xs ih =>
    intro s s1 hI h
    unfold forEach at h
    cases hb : body x s with
    | none => rw [hb] at h; cases h
    | some s2 =>
      rw [hb] at h
      exact ih (fun y hy => hstep y (List.mem_cons_of_mem _ hy)) s2 s1
        (hstep x (List.mem_cons_self _ _) s s2 hI hb) h

/-- A loop whose every round succeeds, keeps `I` and is monotone ends with `I`, is
monotone as a whole, and ends with every property `T` that some round establishes and
that monotone steps keep. -/
theorem forEach_total {α σ : Type} (body : α → σ → Option σ) (I : σ → Prop)
    (M : σ → σ → Prop) (hrefl : ∀ s, M s s) (htrans : ∀ s s1 s2, M s s1 → M s1 s2 → M s s2)
    (xs : List α)
    (hstep : ∀ x ∈ xs, ∀ s, I s → ∃ s1, body x s = some s1 ∧ I s1 ∧ M s s1) :
    ∀ s, I s → ∃ s1, forEach body xs s = some s1 ∧ I s1 ∧ M s s1 ∧
      ∀ (T : σ → Prop), (∀ t t1, T t → M t t1 → T t1) →
        (∃ x ∈ xs, ∀ t t1, I t → body x t = some t1 → T t1) → T s1 := by
  induction xs with
  | nil =>
    intro s hI
    refine ⟨s, rfl, hI, hrefl s, fun T _ hx => ?_⟩
    obtain ⟨x, hx, _⟩ := hx
    cases hx
  | cons x xs ih =>
    intro s hI
    obtain ⟨s2, hb, hI2, hM2⟩ := hstep x (List.mem_cons_self _ _) s hI
    obtain ⟨s1, hf, hI1, hM1, hT1⟩ :=
      ih (fun y hy => hstep y (List.mem_cons_of_mem _ hy)) s2 hI2
    refine ⟨s1, by simp only [forEach, hb, hf], hI1, htrans _ _ _ hM2 hM1, fun T hTM hx => ?_⟩
    obtain ⟨y, hy, hyT⟩ := hx
    rcases List.mem_cons.1 hy with rfl | hy2
    · exact hTM s2 s1 (hyT s s2 hI hb) hM1
    · exact hT1 T hTM ⟨y, hy2, hyT⟩

theorem reachIn_snoc (f0 f temp : Board) (d g c : Nat) (hr : ReachIn f0 d f) (hc : c < 4)
    (hm : f.moveRobot g c = some (true, temp)) : ReachIn f0 (d + 1) temp := by
  induction hr with
  | here f => exact ReachIn.step f temp temp g c 0 hc hm (ReachIn.here temp)
  | step f1 t1 b g1 c1 k hc1 hm1 _ ih => exact ReachIn.step f1 t1 temp g1 c1 (k + 1) hc1 hm1 (ih hm)

/-! ## The reachability map: every entry is justified -/

theorem visit_ok (f0 : Board) (maxdepth : Nat) (hmax : maxdepth < 2147483647)
    (recurse : Board → List (List Int) → Option (List (List Int))) (f : Board) (d : Nat)
    (hd : d ≤ maxdepth) (hreach : ReachIn f0 d f)
    (hrec : ∀ temp h3 h4, ReachIn f0 (d + 1) temp → GridOK f0 maxdepth h3 →
      recurse temp h3 = some h4 → GridOK f0 maxdepth h4)
    (g c : Nat) (hg : g < f.numRobots) (hc : c < 4) (h h1 : List (List Int))
    (hok : GridOK f0 maxdepth h) (hv : visit recurse f d g c h = some h1) :
    GridOK f0 maxdepth h1 := by
  unfold visit at hv
  cases hp : f.getRobotPosition g with
  | none => rw [hp] at hv; cases hv
  | some curbot =>
    rw [hp] at hv
    simp only at hv
    cases hr : record h curbot d with
    | none => rw [hr] at hv; cases hv
    | some h2 =>
      rw [hr] at hv
      simp only at hv
      have hok2 : GridOK f0 maxdepth h2 :=
        record_ok f0 maxdepth h h2 curbot d hmax hd ⟨f, g, hreach, hg, hp⟩ hok hr
      cases hm : f.moveRobot g c with
      | none => rw [hm] at hv; cases hv
      | some x =>
        obtain ⟨m, temp⟩ := x
        rw [hm] at hv
        cases m with
        | true => exact hrec temp h2 h1 (reachIn_snoc f0 f temp d g c hreach hc hm) hok2 hv
        | false =>
          simp only at hv
          rw [← Option.some.inj hv]
          exact hok2

theorem succ_no_wrap (maxdepth d : Nat) (hmax : maxdepth < 2147483647) (hd : d ≤ maxdepth) :
    (d + 1) % 4294967296 = d + 1 := Nat.mod_eq_of_lt (by omega)

theorem freshGrid_ok (f0 : Board) (maxdepth : Nat) (f : Board) (h0 : List (List Int))
    (h : freshGrid f = some h0) : GridOK f0 maxdepth h0 := by
  intro r c x hx
  exact Or.inr (Or.inl ((freshGrid_spec f h0 h).2 r c x hx))

theorem exploreBody_ok (f0 : Board) (maxdepth : Nat) (hmax : maxdepth < 2147483647)
    (recurse : Board → List (List Int) → Nat → Option (List (List Int))) (f : Board) (d : Nat)
    (hreach : ReachIn f0 d f)
    (hrec : ∀ temp h3 h4, ReachIn f0 (d + 1) temp → GridOK f0 maxdepth h3 →
      recurse temp h3 (d + 1) = some h4 → GridOK f0 maxdepth h4)
    (h h1 : List (List Int)) (hok : d ≠ 0 → GridOK f0 maxdepth h)
    (he : exploreBody maxdepth recurse f h d = some h1) : GridOK f0 maxdepth h1 := by
  unfold exploreBody at he
  cases hs : (if d = 0 then freshGrid f else some h) with
  | none => rw [hs] at he; cases he
  | some h0 =>
    rw [hs] at he
    simp only at he
    have hok0 : GridOK f0 maxdepth h0 := by
      by_cases hd0 : d = 0
      · rw [if_pos hd0] at hs
        exact freshGrid_ok f0 maxdepth f h0 hs
      · rw [if_neg hd0] at hs
        rw [← Option.some.inj hs]
        exact hok hd0
    by_cases hd : d ≤ maxdepth
    · rw [if_pos hd, succ_no_wrap maxdepth d hmax hd] at he
      refine forEach_inv _ (GridOK f0 maxdepth) _ ?_ h0 h1 hok0 he
      intro g hg s s1 hs1 hb
      refine forEach_inv _ (GridOK f0 maxdepth) _ ?_ s s1 hs1 hb
      intro c hc t t1 ht hv
      exact visit_ok f0 maxdepth hmax _ f d hd hreach
        (fun temp h3 h4 hr3 hok3 hrc => hrec temp h3 h4 hr3 hok3 hrc) g c
        (List.mem_range.1 hg) (by simp at hc; omega) t t1 ht hv
    · rw [if_neg hd] at he
      rw [← Option.some.inj he]
      exact sweep_ok f0 maxdepth h0 hok0

/-- Every entry of the map after a traversal is `-1`, `INT_MAX`, or a depth of at most
`maxdepth` at which the cell is occupied; no assumption on the board. -/
theorem explore_ok (f0 : Board) (maxdepth : Nat) (hmax : maxdepth < 2147483647) :
    ∀ (levels : Nat) (f : Board) (h h1 : List (List Int)) (d : Nat), ReachIn f0 d f →
      (d ≠ 0 → GridOK f0 maxdepth h) → explore maxdepth levels f h d = some h1 →
      GridOK f0 maxdepth h1 := by
  intro levels
  induction levels with
  | zero =>
    intro f h h1 d hreach hok he
    exact exploreBody_ok f0 maxdepth hmax _ f d hreach
      (fun _ _ _ _ _ hrc => by cases hrc) h h1 hok he
  | succ n ih =>
    intro f h h1 d hreach hok he
    exact exploreBody_ok f0 maxdepth hmax _ f d hreach
      (fun temp h3 h4 hr3 hok3 hrc => ih temp h3 h4 (d + 1) hr3 (fun _ => hok3) hrc) h h1 hok he

/-! ## The reachability map: every reachable cell is known -/

theorem moveRobot_position (b : Board) (i d : Nat) (r : Bool) (b1 : Board)
    (h : b.moveRobot i d = some (r, b1)) : ∃ p, b.robot_positions[i]? = some p := by
  cases hq : b.robot_positions[i]? with
  | none => simp [Board.moveRobot, Board.getRobotPosition, hq] at h
  | some p => exact ⟨p, rfl⟩

theorem move_wellFormed (f : Board) (hf : WellFormed f) (g c : Nat) (hc : c < 4) (m : Bool)
    (temp : Board) (hm : f.moveRobot g c = some (m, temp)) :
    WellFormed temp ∧ temp.rows = f.rows ∧ temp.cols = f.cols ∧ g < f.numRobots := by
  obtain ⟨p, hp⟩ := moveRobot_position f g c m temp hm
  obtain ⟨k, b2, hres, _, hwf, hr, hcl, _⟩ := moveRobot_facts f hf g c p hp hc
  rw [hres] at hm
  obtain ⟨_, rfl⟩ := Prod.mk.inj (Option.some.inj hm)
  refine ⟨hwf, hr, hcl, ?_⟩
  unfold Board.numRobots
  rw [hf.robots_length]
  exact index_lt_of_position f g p hp

theorem reach_wellFormed (f b : Board) (k : Nat) (hr : ReachIn f k b) :
    WellFormed f → WellFormed b ∧ b.rows = f.rows ∧ b.cols = f.cols := by
  induction hr with
  | here f => exact fun hf => ⟨hf, rfl, rfl⟩
  | step f1 t1 b g1 c1 k hc1 hm1 _ ih =>
    intro hf
    obtain ⟨hwt, hrt, hct, _⟩ := move_wellFormed f1 hf g1 c1 hc1 true t1 hm1
    obtain ⟨hwb, hrb, hcb⟩ := ih hwt
    exact ⟨hwb, by rw [hrb, hrt], by rw [hcb, hct]⟩

theorem atMost_mono (h h1 : List (List Int)) (r c n : Nat) (hn : n < 2147483647)
    (hat : AtMost h r c n) (hm : Mono h h1) : AtMost h1 r c n := hm r c n hn hat

theorem complete_mono (maxdepth : Nat) (hmax : maxdepth < 2147483647) (f : Board) (d : Nat)
    (h h1 : List (List Int)) (hc : Complete maxdepth f d h) (hm : Mono h h1) :
    Complete maxdepth f d h1 :=
  fun cell k hocc hk => hm _ _ _ (by omega) (hc cell k hocc hk)

/-- One round of the loops on a well-formed board: it succeeds, keeps the map in order,
loses nothing, knows the cell of robot `g` at depth `d`, and when the move changed the
board it knows everything reachable from the moved board. -/
theorem visit_complete (f0 : Board) (maxdepth : Nat) (hmax : maxdepth < 2147483647)
    (recurse : Board → List (List Int) → Option (List (List Int))) (f : Board)
    (hf : WellFormed f) (d : Nat) (hd : d ≤ maxdepth) (hreach : ReachIn f0 d f)
    (hrec : ∀ temp h3, WellFormed temp → temp.rows = f.rows → temp.cols = f.cols →
      ReachIn f0 (d + 1) temp → GridSize f.rows.toNat f.cols.toNat h3 →
      GridOK f0 maxdepth h3 →
      ∃ h4, recurse temp h3 = some h4 ∧ GridSize f.rows.toNat f.cols.toNat h4 ∧
        GridOK f0 maxdepth h4 ∧ Mono h3 h4 ∧ Complete maxdepth temp (d + 1) h4)
    (g c : Nat) (hg : g < f.numRobots) (hc : c < 4) (h : List (List Int))
    (hsize : GridSize f.rows.toNat f.cols.toNat h) (hok : GridOK f0 maxdepth h) :
    ∃ h1, visit recurse f d g c h = some h1 ∧
      (GridSize f.rows.toNat f.cols.toNat h1 ∧ GridOK f0 maxdepth h1) ∧ Mono h h1 ∧
      (∀ cell, f.getRobotPosition g = some cell →
        AtMost h1 (cell.row - 1).toNat (cell.col - 1).toNat d) ∧
      (∀ temp, f.moveRobot g c = some (true, temp) → Complete maxdepth temp (d + 1) h1) := by
  obtain ⟨p, hp⟩ := position_of_index f hf g hg
  have hpin := position_inside f hf g p hp
  obtain ⟨hi1, hi2, _⟩ := cell_index f p hpin
  obtain ⟨h2, hr2⟩ := record_total _ _ h p d hsize hpin.1 hpin.2.2.1 hi1 hi2
  have hsize2 := record_size _ _ h h2 p d hsize hr2
  have hok2 : GridOK f0 maxdepth h2 :=
    record_ok f0 maxdepth h h2 p d hmax hd ⟨f, g, hreach, hg, hp⟩ hok hr2
  obtain ⟨hmono2, hat2⟩ := record_mono f0 maxdepth h h2 p d hmax hd hok hr2
  obtain ⟨k, b1, hres, _⟩ := moveRobot_facts f hf g c p hp hc
  have hgp : f.getRobotPosition g = some p := hp
  by_cases hk : 0 < k
  · have hkt : decide (0 < k) = true := by simpa using hk
    rw [hkt] at hres
    obtain ⟨hwt, hrt, hct, _⟩ := move_wellFormed f hf g c hc true b1 hres
    obtain ⟨h4, hrc, hsize4, hok4, hmono4, hcomp4⟩ :=
      hrec b1 h2 hwt hrt hct (reachIn_snoc f0 f b1 d g c hreach hc hres) hsize2 hok2
    refine ⟨h4, ?_, ⟨hsize4, hok4⟩, mono_trans h h2 h4 hmono2 hmono4, ?_, ?_⟩
    · unfold visit
      simp only [hgp, hr2, hres, hrc]
    · intro cell hcell
      rw [hgp] at hcell
      rw [← Option.some.inj hcell]
      exact hmono4 _ _ _ (by omega) hat2
    · intro temp htemp
      rw [hres] at htemp
      rw [← (Prod.mk.inj (Option.some.inj htemp)).2]
      exact hcomp4
  · have hkf : decide (0 < k) = false := by simpa using hk
    rw [hkf] at hres
    refine ⟨h2, ?_, ⟨hsize2, hok2⟩, hmono2, ?_, ?_⟩
    · unfold visit
      simp only [hgp, hr2, hres]
    · intro cell hcell
      rw [hgp] at hcell
      rw [← Option.some.inj hcell]
      exact hat2
    · intro temp htemp
      rw [hres] at htemp
      cases (Prod.mk.inj (Option.some.inj htemp)).1

theorem forEach_det {α σ : Type} (body : α → σ → Option σ) (xs : List α) (s s1 s2 : σ)
    (h1 : forEach body xs s = some s1) (h2 : forEach body xs s = some s2) : s1 = s2 := by
  rw [h1] at h2
  exact Option.some.inj h2

/-- One activation on a well-formed board, given that the recursive calls behave. -/
theorem exploreBody_complete (f0 : Board) (maxdepth : Nat) (hmax : maxdepth < 2147483647)
    (recurse : Board → List (List Int) → Nat → Option (List (List Int))) (f : Board)
    (hf : WellFormed f) (d : Nat) (hreach : ReachIn f0 d f)
    (hrec : d ≤ maxdepth → ∀ temp h3, WellFormed temp → temp.rows = f.rows →
      temp.cols = f.cols → ReachIn f0 (d + 1) temp → GridSize f.rows.toNat f.cols.toNat h3 →
      GridOK f0 maxdepth h3 →
      ∃ h4, recurse temp h3 (d + 1) = some h4 ∧ GridSize f.rows.toNat f.cols.toNat h4 ∧
        GridOK f0 maxdepth h4 ∧ Mono h3 h4 ∧ Complete maxdepth temp (d + 1) h4)
    (h h0 : List (List Int)) (hs : (if d = 0 then freshGrid f else some h) = some h0)
    (hsize : GridSize f.rows.toNat f.cols.toNat h0) (hok : GridOK f0 maxdepth h0) :
    ∃ h1, exploreBody maxdepth recurse f h d = some h1 ∧
      GridSize f.rows.toNat f.cols.toNat h1 ∧ GridOK f0 maxdepth h1 ∧ Mono h0 h1 ∧
      Complete maxdepth f d h1 := by
  unfold exploreBody
  rw [hs]
  simp only
  by_cases hd : d ≤ maxdepth
  · rw [if_pos hd, succ_no_wrap maxdepth d hmax hd]
    have hvisit := fun g c hg hc t (ht : GridSize f.rows.toNat f.cols.toNat t ∧
        GridOK f0 maxdepth t) =>
      visit_complete f0 maxdepth hmax (fun temp h3 => recurse temp h3 (d + 1)) f hf d hd hreach
        (hrec hd) g c hg hc t ht.1 ht.2
    have hinner := fun g (hg : g < f.numRobots) =>
      forEach_total
        (fun c h2 => visit (fun temp h3 => recurse temp h3 (d + 1)) f d g c h2)
        (fun t => GridSize f.rows.toNat f.cols.toNat t ∧ GridOK f0 maxdepth t) Mono
        mono_refl mono_trans [0, 1, 2, 3]
        (fun c hc t ht => by
          obtain ⟨t1, hv, hI, hM, _⟩ := hvisit g c hg (by simp at hc; omega) t ht
          exact ⟨t1, hv, hI, hM⟩)
    obtain ⟨h1, hfe, hI1, hM1, hT1⟩ :=
      forEach_total
        (fun g h1 =>
          forEach (fun c h2 => visit (fun temp h3 => recurse temp h3 (d + 1)) f d g c h2)
            [0, 1, 2, 3] h1)
        (fun t => GridSize f.rows.toNat f.cols.toNat t ∧ GridOK f0 maxdepth t) Mono
        mono_refl mono_trans (List.range f.numRobots)
        (fun g hg t ht => by
          obtain ⟨t1, hv, hI, hM, _⟩ := hinner g (List.mem_range.1 hg) t ht
          exact ⟨t1, hv, hI, hM⟩)
        h0 ⟨hsize, hok⟩
    refine ⟨h1, hfe, hI1.1, hI1.2, hM1, ?_⟩
    intro cell k hocc hk
    apply hT1 (fun t => AtMost t (cell.row - 1).toNat (cell.col - 1).toNat (d + k))
      (fun t t1 hT hM => hM _ _ _ (by omega) hT)
    obtain ⟨b, g0, hrb, hg0, hpos⟩ := hocc
    cases hrb with
    | here =>
      refine ⟨g0, List.mem_range.2 hg0, fun t t1 ht hbody => ?_⟩
      obtain ⟨s1, hs1, _, _, hTs⟩ := hinner g0 hg0 t ht
      have : s1 = t1 := forEach_det _ _ t s1 t1 hs1 hbody
      rw [← this]
      apply hTs (fun t => AtMost t (cell.row - 1).toNat (cell.col - 1).toNat (d + 0))
        (fun t t1 hT hM => hM _ _ _ (by omega) hT)
      refine ⟨0, by simp, fun u u1 hu hvu => ?_⟩
      obtain ⟨v1, hv1, _, _, hcell, _⟩ := hvisit g0 0 hg0 (by omega) u hu
      have : v1 = u1 := by
        rw [hv1] at hvu
        exact Option.some.inj hvu
      rw [← this]
      exact hcell cell hpos
    | step _ temp _ g c k1 hc hm hr1 =>
      obtain ⟨_, _, _, hg⟩ := move_wellFormed f hf g c hc true temp hm
      refine ⟨g, List.mem_range.2 hg, fun t t1 ht hbody => ?_⟩
      obtain ⟨s1, hs1, _, _, hTs⟩ := hinner g hg t ht
      have : s1 = t1 := forEach_det _ _ t s1 t1 hs1 hbody
      rw [← this]
      apply hTs (fun t => AtMost t (cell.row - 1).toNat (cell.col - 1).toNat (d + (k1 + 1)))
        (fun t t1 hT hM => hM _ _ _ (by omega) hT)
      refine ⟨c, by simp; omega, fun u u1 hu hvu => ?_⟩
      obtain ⟨v1, hv1, _, _, _, hcomp⟩ := hvisit g c hg hc u hu
      have : v1 = u1 := by
        rw [hv1] at hvu
        exact Option.some.inj hvu
      rw [← this]
      have := hcomp temp hm cell k1 ⟨b, g0, hr1, hg0, hpos⟩ (by omega)
      rw [show d + (k1 + 1) = d + 1 + k1 by omega]
      exact this
  · rw [if_neg hd]
    refine ⟨sweep h0, rfl, sweep_size _ _ h0 hsize, sweep_ok f0 maxdepth h0 hok, sweep_mono h0,
      ?_⟩
    intro cell k _ hk
    omega

/-- The whole traversal on a well-formed board: it returns a map, in order, that lost
nothing and knows every cell reachable within the remaining depth. -/
theorem explore_complete (f0 : Board) (maxdepth : Nat) (hmax : maxdepth < 2147483647) :
    ∀ (levels : Nat) (f : Board) (h h0 : List (List Int)) (d : Nat),
      d + levels = maxdepth + 1 → WellFormed f → ReachIn f0 d f →
      (if d = 0 then freshGrid f else some h) = some h0 →
      GridSize f.rows.toNat f.cols.toNat h0 → GridOK f0 maxdepth h0 →
      ∃ h1, explore maxdepth levels f h d = some h1 ∧
        GridSize f.rows.toNat f.cols.toNat h1 ∧ GridOK f0 maxdepth h1 ∧ Mono h0 h1 ∧
        Complete maxdepth f d h1 := by
  intro levels
  induction levels with
  | zero =>
    intro f h h0 d hlev hf hreach hs hsize hok
    exact exploreBody_complete f0 maxdepth hmax _ f hf d hreach
      (fun hd => by omega) h h0 hs hsize hok
  | succ n ih =>
    intro f h h0 d hlev hf hreach hs hsize hok
    refine exploreBody_complete f0 maxdepth hmax _ f hf d hreach ?_ h h0 hs hsize hok
    intro hd temp h3 hwt hrt hct hr3 hsize3 hok3
    have := ih temp h3 h3 (d + 1) (by omega) hwt hr3 (by rw [if_neg (by omega)])
      (by rw [hrt, hct]; exact hsize3) hok3
    rw [hrt, hct] at this
    exact this

theorem getAccessibility_ok (f : Board) (h h1 : List (List Int)) (maxdepth : Nat)
    (hmax : maxdepth < 2147483647) (he : getAccessibility f h maxdepth 0 = some h1) :
    GridOK f maxdepth h1 :=
  explore_ok f maxdepth hmax _ f h h1 0 (ReachIn.here f) (fun h0 => absurd rfl h0) he

theorem firstSuccess_carries {α : Type} (body : α → List command → Option (Bool × List command))
    (xs : List α)
    (hbody : ∀ x ∈ xs, ∀ p, body x p = (body x []).map (fun y => (y.1, p ++ y.2)))
    (hfalse : ∀ x ∈ xs, ∀ p p1, body x p = some (false, p1) → p1 = p) :
    ∀ path, firstSuccess body xs path =
      (firstSuccess body xs []).map (fun y => (y.1, path ++ y.2)) := by
  induction xs with
  | nil =>
    intro path
    simp [firstSuccess]
  | cons x xs ih =>
    intro path
    have ih2 := ih (fun y hy => hbody y (List.mem_cons_of_mem _ hy))
      (fun y hy => hfalse y (List.mem_cons_of_mem _ hy)) path
    have hx := hbody x (List.mem_cons_self _ _) path
    cases h0 : body x [] with
    | none =>
      rw [h0] at hx
      simp [firstSuccess, h0, hx]
    | some y =>
      obtain ⟨r, q⟩ := y
      rw [h0] at hx
      cases r with
      | true => simp [firstSuccess, h0, hx]
      | false =>
        have hq : q = [] := hfalse x (List.mem_cons_self _ _) _ _ h0
        subst hq
        simp only [Option.map_some', List.append_nil] at hx
        simp only [firstSuccess, h0, hx]
        exact ih2

theorem tryMove_carries (recurse : Board → List command → command → Option (Bool × List command))
    (hrec : ∀ t p l, recurse t p l = (recurse t [] l).map (fun y => (y.1, p ++ y.2)))
    (c : Board) (last : command) (i d : Nat) (path : List command) :
    tryMove recurse c last i d path =
      (tryMove recurse c last i d []).map (fun y => (y.1, path ++ y.2)) := by
  unfold tryMove
  split
  · cases hm : c.moveRobot i d with
    | none => rfl
    | some x =>
      obtain ⟨r, temp⟩ := x
      cases r with
      | false => simp
      | true =>
        simp only
        cases ha : temp.getRobot i with
        | none => rfl
        | some a =>
          simp only
          rw [hrec temp path]
          cases hr : recurse temp [] ⟨a, d, some (i % 65536)⟩ with
          | none => rfl
          | some y =>
            obtain ⟨r2, q⟩ := y
            cases r2 with
            | false => simp
            | true =>
              cases ha0 : c.getRobot i with
              | none => rfl
              | some a0 => simp
  · simp

/-- The search never reads the initial content of `path`: the result on any initial
path is the result on the empty path with that content in front. -/
theorem findPathFrom_carries :
    ∀ (n : Nat) (c : Board) (path : List command) (last : command),
      findPathFrom n c path last =
        (findPathFrom n c [] last).map (fun y => (y.1, path ++ y.2)) := by
  intro n
  induction n with
  | zero =>
    intro c path last
    rw [findPathFrom_zero, findPathFrom_zero]
    cases goalReached c with
    | none => rfl
    | some g => cases g <;> simp
  | succ m ih =>
    intro c path last
    rw [findPathFrom_succ, findPathFrom_succ]
    cases goalReached c with
    | none => rfl
    | some g =>
      cases g with
      | true => simp
      | false =>
        simp only
        have hrec : ∀ t p l p1, findPathFrom m t p l = some (false, p1) → p1 = p :=
          fun t p l p1 hr => (findPathFrom_result m t p l false p1 hr).1 rfl
        have hinner : ∀ i, ∀ d ∈ [0, 1, 2, 3], ∀ p p1,
            tryMove (findPathFrom m) c last i d p = some (false, p1) → p1 = p :=
          fun i d _ p p1 ht => (tryMove_elim _ hrec c last i d p false p1 ht).1 rfl
        apply firstSuccess_carries
        · intro i _ p
          apply firstSuccess_carries
          · intro d _ q
            exact tryMove_carries _ ih c last i d q
          · exact hinner i
        · intro i _ p p1 hf
          exact (firstSuccess_elim _ _ (hinner i) p false p1 hf).1 rfl

/-! ## The search: the test on the last move skips nothing -/

theorem firstSuccess_congr {α : Type}
    (body body2 : α → List command → Option (Bool × List command)) (xs : List α)
    (h : ∀ x ∈ xs, ∀ p, body x p = body2 x p) :
    ∀ path, firstSuccess body xs path = firstSuccess body2 xs path := by
  induction xs with
  | nil => intro path; rfl
  | cons x xs ih =>
    intro path
    unfold firstSuccess
    rw [h x (List.mem_cons_self _ _) path]
    cases body2 x path with
    | none => rfl
    | some y =>
      obtain ⟨r, p1⟩ := y
      cases r with
      | true => rfl
      | false => exact ih (fun y hy => h y (List.mem_cons_of_mem _ hy)) p1

theorem tryMove_unpruned
    (recurse recurse2 : Board → List command → command → Option (Bool × List command))
    (c : Board) (last : command) (i d : Nat) (path : List command)
    (hprune : last.dir = d → last.robonum = some i → c.moveRobot i d = some (false, c))
    (hrec : ∀ temp a, c.moveRobot i d = some (true, temp) → temp.getRobot i = some a →
      recurse temp path ⟨a, d, some (i % 65536)⟩ =
        recurse2 temp path ⟨a, d, some (i % 65536)⟩) :
    tryMove recurse c last i d path = tryMoveUnpruned recurse2 c i d path := by
  unfold tryMove tryMoveUnpruned
  split
  · cases hm : c.moveRobot i d with
    | none => rfl
    | some x =>
      obtain ⟨r, temp⟩ := x
      cases r with
      | false => rfl
      | true =>
        simp only
        cases ha : temp.getRobot i with
        | none => rfl
        | some a =>
          simp only
          rw [hrec temp a hm ha]
  · rename_i hnot
    have h1 : last.dir = d := by
      by_contra h; exact hnot (Or.inl h)
    have h2 : last.robonum = some i := by
      by_contra h; exact hnot (Or.inr h)
    rw [hprune h1 h2]

theorem findPathFromUnpruned_zero (c : Board) (path : List command) (last : command) :
    findPathFromUnpruned 0 c path last =
      match goalReached c with
      | none => none
      | some true => some (true, path)
      | some false => some (false, path) := by
  rfl

theorem findPathFromUnpruned_succ (m : Nat) (c : Board) (path : List command)
    (last : command) :
    findPathFromUnpruned (m + 1) c path last =
      match goalReached c with
      | none => none
      | some true => some (true, path)
      | some false =>
        firstSuccess
          (fun i p =>
            firstSuccess (fun d q => tryMoveUnpruned (findPathFromUnpruned m) c i d q)
              [0, 1, 2, 3] p)
          (List.range c.numRobots) path := by
  rfl

/-- A robot index below `65536` is stored unchanged in `robonum`, so after a move of
robot `i` in direction `d` the test on `last` skips exactly that robot and direction,
which `moveRobot` rejects. -/
theorem pruneSafe_after_move (c : Board) (hc : WellFormed c) (hn : c.numRobots ≤ 65536)
    (i d : Nat) (hi : i < c.numRobots) (hd : d < 4) (temp : Board)
    (hm : c.moveRobot i d = some (true, temp)) (a : Char) :
    PruneSafe temp ⟨a, d, some (i % 65536)⟩ := by
  intro j e _ _ hdir hrob
  have hje : j = i := by
    have := Option.some.inj hrob
    omega
  subst hje
  have hde : e = d := hdir.symm
  subst hde
  exact (moveRobot_again c hc j e hd temp hm).2.choose_spec.2.2

/-- With or without the test on `last`, the bounded search gives the same result. -/
theorem findPathFrom_unpruned :
    ∀ (n : Nat) (c : Board) (path : List command) (last : command), WellFormed c →
      c.numRobots ≤ 65536 → PruneSafe c last →
      findPathFrom n c path last = findPathFromUnpruned n c path last := by
  intro n
  induction n with
  | zero =>
    intro c path last _ _ _
    rfl
  | succ m ih =>
    intro c path last hc hn hprune
    rw [findPathFrom_succ, findPathFromUnpruned_succ]
    cases goalReached c with
    | none => rfl
    | some g =>
      cases g with
      | true => rfl
      | false =>
        simp only
        apply firstSuccess_congr
        intro i hi p
        apply firstSuccess_congr
        intro d hd q
        have hi2 : i < c.numRobots := List.mem_range.1 hi
        have hd2 : d < 4 := by simp at hd; omega
        apply tryMove_unpruned
        · exact fun h1 h2 => hprune i d hi2 hd2 h1 h2
        · intro temp a hm _
          have hwf := (moveRobot_again c hc i d hd2 temp hm).1
          have hnum : temp.numRobots = c.numRobots := by
            unfold Board.numRobots
            rw [(moveRobot_frame c i d true temp hm).2.2.2.2.1]
          exact ih temp q _ hwf (by rw [hnum]; exact hn)
            (pruneSafe_after_move c hc hn i d hi2 hd2 temp hm a)

/-! ## `BuildPlausibleCommand`: a matched direction always meets the final loop -/

theorem moveRobot_index (b : Board) (i d : Nat) (x : Bool × Board)
    (h : b.moveRobot i d = some x) : i < b.robot_positions.length := by
  cases hq : b.robot_positions[i]? with
  | none => simp [Board.moveRobot, Board.getRobotPosition, hq] at h
  | some p => exact index_lt_of_position b i p hq

theorem moveRobot_positions_length (b : Board) (i d : Nat) (r : Bool) (b1 : Board)
    (h : b.moveRobot i d = some (r, b1)) :
    b1.robot_positions.length = b.robot_positions.length := by
  rcases moveRobot_eq b i d r b1 h with rfl | ⟨g, q, rfl⟩
  · rfl
  · simp

/-- The direction loop either leaves the command as it was, or ends on a board `temp`
in which robot `sd` stands where it stands in `b`. -/
theorem directionLoop_result (a b : Board) (sd : Nat) :
    ∀ (ds : List Nat) (cmd : command) (temp0 : Board) (cmd1 : command) (temp1 : Board),
      directionLoop a b sd ds cmd temp0 = some (cmd1, temp1) →
      cmd1 = cmd ∨
        ∃ x, temp1.robot_positions[sd]? = some x ∧ b.robot_positions[sd]? = some x := by
  intro ds
  induction ds with
  | nil =>
    intro cmd temp0 cmd1 temp1 h
    simp only [directionLoop] at h
    left
    exact (Prod.mk.inj (Option.some.inj h)).1.symm
  | cons i rest ih =>
    intro cmd temp0 cmd1 temp1 h
    unfold directionLoop at h
    split at h
    · cases h
    · rename_i r temp hm
      split at h
      · rename_i x y hx hy
        split at h
        · rename_i hxy
          split at h
          · obtain ⟨_, rfl⟩ := Prod.mk.inj (Option.some.inj h)
            right
            exact ⟨x, hx, by rw [hy, hxy]⟩
          · cases h
        · exact ih cmd temp cmd1 temp1 h
      · cases h

/-- When some direction of the list reproduces the position of robot `sd` in `b`, the
direction loop ends on a board in which robot `sd` stands where it stands in `b`. -/
theorem directionLoop_match (a b : Board) (sd : Nat) :
    ∀ (ds : List Nat) (cmd : command) (temp0 : Board) (cmd1 : command) (temp1 : Board),
      directionLoop a b sd ds cmd temp0 = some (cmd1, temp1) →
      (∃ d ∈ ds, ∃ r temp, a.moveRobot sd d = some (r, temp) ∧
        temp.robot_positions[sd]? = b.robot_positions[sd]?) →
      ∃ x, temp1.robot_positions[sd]? = some x ∧ b.robot_positions[sd]? = some x := by
  intro ds
  induction ds with
  | nil =>
    intro cmd temp0 cmd1 temp1 _ hex
    obtain ⟨d, hd, _⟩ := hex
    cases hd
  | cons i rest ih =>
    intro cmd temp0 cmd1 temp1 h hex
    unfold directionLoop at h
    split at h
    · cases h
    · rename_i r temp hm
      split at h
      · rename_i x y hx hy
        split at h
        · rename_i hxy
          split at h
          · obtain ⟨_, rfl⟩ := Prod.mk.inj (Option.some.inj h)
            exact ⟨x, hx, by rw [hy, hxy]⟩
          · cases h
        · rename_i hxy
          apply ih cmd temp cmd1 temp1 h
          obtain ⟨d, hd, r2, temp2, hm2, he⟩ := hex
          rcases List.mem_cons.1 hd with rfl | hd2
          · rw [hm] at hm2
            obtain ⟨_, rfl⟩ := Prod.mk.inj (Option.some.inj hm2)
            rw [hx, hy] at he
            exact absurd (Option.some.inj he) hxy
          · exact ⟨d, hd2, r2, temp2, hm2, he⟩
      · cases h

theorem directionLoop_total (a b : Board) (ha : WellFormed a) (sd : Nat)
    (hsd : sd < a.robot_positions.length)
    (hlen : a.robot_positions.length = b.robot_positions.length) :
    ∀ (ds : List Nat) (cmd : command) (temp0 : Board), (∀ d ∈ ds, d < 4) →
      temp0.robot_positions.length = a.robot_positions.length →
      ∃ cmd1 temp1, directionLoop a b sd ds cmd temp0 = some (cmd1, temp1) ∧
        temp1.robot_positions.length = a.robot_positions.length := by
  intro ds
  induction ds with
  | nil =>
    intro cmd temp0 _ h0
    exact ⟨cmd, temp0, rfl, h0⟩
  | cons i rest ih =>
    intro cmd temp0 hds _
    obtain ⟨p, hp⟩ : ∃ p, a.robot_positions[sd]? = some p :=
      ⟨_, List.getElem?_eq_getElem hsd⟩
    obtain ⟨k, temp, hres, _⟩ :=
      moveRobot_facts a ha sd i p hp (hds i (List.mem_cons_self _ _))
    have hl := moveRobot_positions_length a sd i _ temp hres
    have hx : temp.robot_positions[sd]? = some temp.robot_positions[sd] :=
      List.getElem?_eq_getElem (by omega)
    have hy : b.robot_positions[sd]? = some b.robot_positions[sd] :=
      List.getElem?_eq_getElem (by omega)
    have hsr : sd < a.robots.length := by rw [ha.robots_length]; exact hsd
    have hn : a.robots[sd]? = some a.robots[sd] := List.getElem?_eq_getElem hsr
    unfold directionLoop
    simp only [hres, hx, hy, hn]
    split
    · exact ⟨_, temp, rfl, hl⟩
    · exact ih cmd temp (fun d hd => hds d (List.mem_cons_of_mem _ hd)) hl

theorem somePositionEqual_false (temp b : Board) :
    ∀ is : List Nat, somePositionEqual temp b is = some false →
      ∀ i ∈ is, ∀ x, temp.robot_positions[i]? = some x → b.robot_positions[i]? ≠ some x := by
  intro is
  induction is with
  | nil =>
    intro _ i hi
    cases hi
  | cons j rest ih =>
    intro h i hi x hx hbx
    unfold somePositionEqual at h
    split at h
    · rename_i u v hu hv
      split at h
      · cases h
      · rename_i huv
        rcases List.mem_cons.1 hi with rfl | hi2
        · rw [hu] at hx
          rw [hv] at hbx
          exact huv ((Option.some.inj hx).trans (Option.some.inj hbx).symm)
        · exact ih h i hi2 x hx hbx
    · cases h

theorem somePositionEqual_total (temp b : Board) (n : Nat)
    (ht : temp.robot_positions.length = n) (hb : b.robot_positions.length = n) :
    ∀ is : List Nat, (∀ i ∈ is, i < n) → ∃ r, somePositionEqual temp b is = some r := by
  intro is
  induction is with
  | nil => intro _; exact ⟨false, rfl⟩
  | cons j rest ih =>
    intro his
    have hj := his j (List.mem_cons_self _ _)
    have hx : temp.robot_positions[j]? = some temp.robot_positions[j] :=
      List.getElem?_eq_getElem (by omega)
    have hy : b.robot_positions[j]? = some b.robot_positions[j] :=
      List.getElem?_eq_getElem (by omega)
    unfold somePositionEqual
    simp only [hx, hy]
    split
    · exact ⟨true, rfl⟩
    · exact ih (fun i hi => his i (List.mem_cons_of_mem _ hi))

/-- Shape of the results of `BuildPlausibleCommand`. -/
theorem buildPlausibleCommand_cases (a b : Board) (o : Outcome)
    (h : BuildPlausibleCommand a b = some o) :
    (a.robot_positions.length ≠ b.robot_positions.length ∧
      ((o = Outcome.thrown ∧
          somePositionEqual a b (List.range a.robot_positions.length) = some true) ∨
        (o = Outcome.returned command.default ∧
          somePositionEqual a b (List.range a.robot_positions.length) = some false))) ∨
    (a.robot_positions.length = b.robot_positions.length ∧
      ∃ sd cmd temp, firstDifference a b (List.range a.robot_positions.length) = some sd ∧
        directionLoop a b sd [0, 1, 2, 3] command.default a = some (cmd, temp) ∧
        ((o = Outcome.thrown ∧
            somePositionEqual temp b (List.range a.robot_positions.length) = some true) ∨
          (o = Outcome.returned cmd ∧
            somePositionEqual temp b (List.range a.robot_positions.length) = some false))) := by
  unfold BuildPlausibleCommand at h
  by_cases hl : a.robot_positions.length = b.robot_positions.length
  · right
    refine ⟨hl, ?_⟩
    simp only [hl, if_true] at h
    rw [← hl] at h
    cases hf : firstDifference a b (List.range a.robot_positions.length) with
    | none => simp [hf] at h
    | some sd =>
      cases hd : directionLoop a b sd [0, 1, 2, 3] command.default a with
      | none => simp [hf, hd] at h
      | some x =>
        obtain ⟨cmd, temp⟩ := x
        refine ⟨sd, cmd, temp, rfl, hd, ?_⟩
        simp only [hf, hd] at h
        cases hs : somePositionEqual temp b (List.range a.robot_positions.length) with
        | none => simp [hs] at h
        | some r =>
          cases r with
          | true =>
            simp only [hs] at h
            exact Or.inl ⟨(Option.some.inj h).symm, rfl⟩
          | false =>
            simp only [hs] at h
            exact Or.inr ⟨(Option.some.inj h).symm, rfl⟩
  · left
    refine ⟨hl, ?_⟩
    simp only [hl, if_false] at h
    cases hs : somePositionEqual a b (List.range a.robot_positions.length) with
    | none => simp [hs] at h
    | some r =>
      cases r with
      | true =>
        simp only [hs] at h
        exact Or.inl ⟨(Option.some.inj h).symm, rfl⟩
      | false =>
        simp only [hs] at h
        exact Or.inr ⟨(Option.some.inj h).symm, rfl⟩

/-! ## A robot that has moved can move back -/

theorem wall_opposite (b : Board) (p : Position) (d : Nat) (hd : d < 4) :
    wallOnSide b (p.step d) ((d + 2) % 4) = wallOnSide b p d := by
  have hcases : d = 0 ∨ d = 1 ∨ d = 2 ∨ d = 3 := by omega
  rcases hcases with rfl | rfl | rfl | rfl
  · simp [wallOnSide, Position.step, Position.shift]
  · simp [wallOnSide, Position.step, Position.shift]
  · simp [wallOnSide, Position.step, Position.shift]
  · simp [wallOnSide, Position.step, Position.shift]

theorem step_opposite (p : Position) (d : Nat) (hd : d < 4) :
    (p.step d).step ((d + 2) % 4) = p := by
  have hcases : d = 0 ∨ d = 1 ∨ d = 2 ∨ d = 3 := by omega
  rcases hcases with rfl | rfl | rfl | rfl <;>
    simp [Position.step, Position.shift]

/-- After a move of robot `i` in direction `d` that changed the board, robot `i` can
move in the opposite direction: the cell it left last is free and no wall was crossed. -/
theorem mobile_after_move (b : Board) (hb : WellFormed b) (i d : Nat) (hd : d < 4)
    (b1 : Board) (h : b.moveRobot i d = some (true, b1)) :
    WellFormed b1 ∧ ∃ b2, b1.moveRobot i ((d + 2) % 4) = some (true, b2) := by
  obtain ⟨p, hp⟩ := moveRobot_position b i d true b1 h
  obtain ⟨k, b2, hres, _, hwf, _, _, hv, hh, _, _, _, hpos, hfree, _⟩ :=
    moveRobot_facts b hb i d p hp hd
  rw [hres] at h
  obtain ⟨hk, rfl⟩ := Prod.mk.inj (Option.some.inj h)
  have hk0 : 0 < k := by simpa using hk
  obtain ⟨k0, rfl⟩ : ∃ k0, k = k0 + 1 := ⟨k - 1, by omega⟩
  have hi := index_lt_of_position b i p hp
  have hq : b2.robot_positions[i]? = some (p.shift d ((k0 + 1 : Nat))) := by
    rw [hpos, List.getElem?_set_self hi]
  have hothers : ∀ j : Nat, j ≠ i → b2.robot_positions[j]? = b.robot_positions[j]? := by
    intro j hj
    rw [hpos, List.getElem?_set_ne (Ne.symm hj)]
  have hlast := hfree k0 (by omega)
  have hwall : wallOnSide b (p.shift d (k0 : Nat)) d = false := by
    cases hw : wallOnSide b (p.shift d (k0 : Nat)) d with
    | false => rfl
    | true => exact absurd (Or.inl hw) hlast
  have hempty : ¬ otherRobotAt b i (p.shift d (k0 : Nat)) := by
    intro ho
    cases k0 with
    | zero =>
      obtain ⟨j, hj, hjp⟩ := ho
      rw [shift_zero] at hjp
      have hjl := index_lt_of_position b j _ hjp
      have e1 : b.robot_positions[j] = p := by
        rw [List.getElem?_eq_getElem hjl] at hjp
        exact Option.some.inj hjp
      have e2 : b.robot_positions[i] = p := by
        rw [List.getElem?_eq_getElem hi] at hp
        exact Option.some.inj hp
      have := (List.Nodup.getElem_inj_iff hb.robots_distinct).1 (e1.trans e2.symm)
      exact hj this
    | succ k1 =>
      have := hfree k1 (by omega)
      apply this
      right
      rw [step_shift]
      exact ho
  have hnot : ¬ stepBlocked b2 i (p.shift d ((k0 + 1 : Nat))) ((d + 2) % 4) := by
    rw [stepBlocked_congr b b2 i _ _ hv hh hothers]
    rw [← step_shift]
    intro hblk
    rcases hblk with hw | ho
    · rw [wall_opposite b _ d hd, hwall] at hw
      cases hw
    · rw [step_opposite _ d hd] at ho
      exact hempty ho
  obtain ⟨k2, b3, hres2, _, _, _, _, _, _, _, _, _, _, _, hblk2⟩ :=
    moveRobot_facts b2 hwf i ((d + 2) % 4) _ hq (Nat.mod_lt _ (by omega))
  have hk2 : 0 < k2 := by
    by_contra hz
    have hz0 : k2 = 0 := by omega
    subst hz0
    rw [shift_zero] at hblk2
    exact hnot hblk2
  refine ⟨hwf, b3, ?_⟩
  rw [hres2]
  simp [hk2]

theorem mobile_of_move (b : Board) (hb : WellFormed b) (i d : Nat) (hd : d < 4)
    (b1 : Board) (h : b.moveRobot i d = some (true, b1)) : WellFormed b1 ∧ Mobile b1 := by
  obtain ⟨hwf, b2, h2⟩ := mobile_after_move b hb i d hd b1 h
  exact ⟨hwf, i, (d + 2) % 4, b2, Nat.mod_lt _ (by omega), h2⟩

/-! ## The reachability map: the filler does not survive a sweep -/

theorem sweep_noFiller (h : List (List Int)) : NoFiller (sweep h) := by
  intro r c x hx
  rw [at2_sweep] at hx
  cases hy : Board.at2 h r c with
  | none => rw [hy] at hx; cases hx
  | some y =>
    rw [hy] at hx
    have hxy : (if y = intMax then -1 else y) = x := Option.some.inj hx
    by_cases hm : y = intMax
    · rw [if_pos hm] at hxy
      rw [← hxy]
      decide
    · rw [if_neg hm] at hxy
      rw [← hxy]
      exact hm

theorem record_noFiller (h h1 : List (List Int)) (cell : Position) (d : Nat)
    (hd : d < 2147483647) (hn : NoFiller h) (hrec : record h cell d = some h1) :
    NoFiller h1 := by
  obtain ⟨_, _, x, _, hcase⟩ := record_spec h h1 cell d hrec
  rcases hcase with ⟨_, hset⟩ | ⟨_, rfl⟩
  · intro r c y hy
    rw [at2_set2 h h1 _ _ _ hset r c] at hy
    split at hy
    · rw [← Option.some.inj hy, asInt_small d hd]
      unfold intMax
      omega
    · exact hn r c y hy
  · exact hn

/-- A loop ends with `P` when every round keeps `P` and some round establishes it. -/
theorem forEach_establish {α σ : Type} (body : α → σ → Option σ) (P : σ → Prop)
    (xs : List α) (hkeep : ∀ x ∈ xs, ∀ t t1, P t → body x t = some t1 → P t1)
    (x0 : α) (hx0 : x0 ∈ xs) (hest : ∀ t t1, body x0 t = some t1 → P t1) :
    ∀ s s1, forEach body xs s = some s1 → P s1 := by
  induction xs with
  | nil => cases hx0
  | cons x xs ih =>
    intro s s1 h
    unfold forEach at h
    cases hb : body x s with
    | none => rw [hb] at h; cases h
    | some s2 =>
      rw [hb] at h
      simp only at h
      rcases List.mem_cons.1 hx0 with rfl | hmem
      · exact forEach_inv body P xs (fun y hy => hkeep y (List.mem_cons_of_mem _ hy)) s2 s1
          (hest s s2 hb) h
      · exact ih (fun y hy => hkeep y (List.mem_cons_of_mem _ hy)) hmem s2 s1 h

theorem visit_keep (recurse : Board → List (List Int) → Option (List (List Int)))
    (f : Board) (d : Nat) (hd : d < 2147483647)
    (hrec : ∀ temp h3 h4, NoFiller h3 → recurse temp h3 = some h4 → NoFiller h4)
    (g c : Nat) (h h1 : List (List Int)) (hn : NoFiller h)
    (hv : visit recurse f d g c h = some h1) : NoFiller h1 := by
  unfold visit at hv
  cases hp : f.getRobotPosition g with
  | none => rw [hp] at hv; cases hv
  | some curbot =>
    rw [hp] at hv
    simp only at hv
    cases hr : record h curbot d with
    | none => rw [hr] at hv; cases hv
    | some h2 =>
      rw [hr] at hv
      simp only at hv
      have hn2 : NoFiller h2 := record_noFiller h h2 curbot d hd hn hr
      cases hm : f.moveRobot g c with
      | none => rw [hm] at hv; cases hv
      | some x =>
        obtain ⟨m, temp⟩ := x
        rw [hm] at hv
        cases m with
        | true => exact hrec temp h2 h1 hn2 hv
        | false =>
          simp only at hv
          rw [← Option.some.inj hv]
          exact hn2

theorem visit_establish (recurse : Board → List (List Int) → Option (List (List Int)))
    (f : Board) (d : Nat) (g c : Nat) (temp : Board)
    (hm : f.moveRobot g c = some (true, temp))
    (hrec : ∀ h3 h4, recurse temp h3 = some h4 → NoFiller h4)
    (h h1 : List (List Int)) (hv : visit recurse f d g c h = some h1) : NoFiller h1 := by
  unfold visit at hv
  cases hp : f.getRobotPosition g with
  | none => rw [hp] at hv; cases hv
  | some curbot =>
    rw [hp] at hv
    simp only at hv
    cases hr : record h curbot d with
    | none => rw [hr] at hv; cases hv
    | some h2 =>
      rw [hr, hm] at hv
      exact hrec h2 h1 hv

theorem exploreBody_noFiller (maxdepth : Nat) (hmax : maxdepth < 2147483647)
    (recurse : Board → List (List Int) → Nat → Option (List (List Int))) (f : Board) (d : Nat)
    (hkeep : ∀ temp h3 h4, NoFiller h3 → recurse temp h3 (d + 1) = some h4 → NoFiller h4)
    (hest : ∀ temp h3 h4, WellFormed temp → Mobile temp →
      recurse temp h3 (d + 1) = some h4 → NoFiller h4)
    (h h1 : List (List Int)) (he : exploreBody maxdepth recurse f h d = some h1) :
    (d ≠ 0 → NoFiller h → NoFiller h1) ∧ (WellFormed f → Mobile f → NoFiller h1) := by
  unfold exploreBody at he
  cases hs : (if d = 0 then freshGrid f else some h) with
  | none => rw [hs] at he; cases he
  | some h0 =>
    rw [hs] at he
    simp only at he
    by_cases hd : d ≤ maxdepth
    · rw [if_pos hd, succ_no_wrap maxdepth d hmax hd] at he
      have hinner : ∀ g, ∀ c ∈ [0, 1, 2, 3], ∀ t t1, NoFiller t →
          visit (fun temp h3 => recurse temp h3 (d + 1)) f d g c t = some t1 → NoFiller t1 :=
        fun g c _ t t1 ht hv =>
          visit_keep _ f d (by omega) (fun temp h3 h4 h3n hr => hkeep temp h3 h4 h3n hr)
            g c t t1 ht hv
      have houter : ∀ g ∈ List.range f.numRobots, ∀ t t1, NoFiller t →
          forEach (fun c h2 => visit (fun temp h3 => recurse temp h3 (d + 1)) f d g c h2)
            [0, 1, 2, 3] t = some t1 → NoFiller t1 :=
        fun g _ t t1 ht hf => forEach_inv _ NoFiller _ (hinner g) t t1 ht hf
      constructor
      · intro hd0 hn
        rw [if_neg hd0] at hs
        rw [← Option.some.inj hs] at he
        exact forEach_inv _ NoFiller _ houter h h1 hn he
      · intro hf hmob
        obtain ⟨g, c, temp, hc, hm⟩ := hmob
        obtain ⟨hwt, hmt⟩ := mobile_of_move f hf g c hc temp hm
        have hg : g < f.numRobots := (move_wellFormed f hf g c hc true temp hm).2.2.2
        refine forEach_establish _ NoFiller _ houter g (List.mem_range.2 hg) ?_ h0 h1 he
        intro t t1 hb
        refine forEach_establish _ NoFiller _ (hinner g) c (by simp; omega) ?_ t t1 hb
        intro u u1 hv
        exact visit_establish _ f d g c temp hm
          (fun h3 h4 hr => hest temp h3 h4 hwt hmt hr) u u1 hv
    · rw [if_neg hd] at he
      rw [← Option.some.inj he]
      exact ⟨fun _ _ => sweep_noFiller h0, fun _ _ => sweep_noFiller h0⟩

/-- A traversal that returns keeps a map free of the filler so, and on a well-formed
board with a mobile robot it returns a map free of the filler: some branch reaches
depth `maxdepth + 1`, where the sweep runs. -/
theorem explore_noFiller (maxdepth : Nat) (hmax : maxdepth < 2147483647) :
    ∀ (levels : Nat) (f : Board) (h h1 : List (List Int)) (d : Nat),
      explore maxdepth levels f h d = some h1 →
      (d ≠ 0 → NoFiller h → NoFiller h1) ∧ (WellFormed f → Mobile f → NoFiller h1) := by
  intro levels
  induction levels with
  | zero =>
    intro f h h1 d he
    refine exploreBody_noFiller maxdepth hmax _ f d ?_ ?_ h h1 he
    · intro temp h3 h4 _ hr
      cases hr
    · intro temp h3 h4 _ _ hr
      cases hr
  | succ n ih =>
    intro f h h1 d he
    refine exploreBody_noFiller maxdepth hmax _ f d ?_ ?_ h h1 he
    · intro temp h3 h4 h3n hr
      exact (ih temp h3 h4 (d + 1) hr).1 (by omega) h3n
    · intro temp h3 h4 hwt hmt hr
      exact (ih temp h3 h4 (d + 1) hr).2 hwt hmt

/-! ## The search: the first candidate in the order of the loops -/

theorem firstSuccess_first {α : Type} (body : α → List command → Option (Bool × List command))
    (xs : List α) (hfalse : ∀ x ∈ xs, ∀ p p1, body x p = some (false, p1) → p1 = p) :
    ∀ path path1, firstSuccess body xs path = some (true, path1) →
      ∃ pre x post, xs = pre ++ x :: post ∧
        (∀ y ∈ pre, body y path = some (false, path)) ∧ body x path = some (true, path1) := by
  induction xs with
  | nil =>
    intro path path1 h
    simp only [firstSuccess] at h
    cases (Prod.mk.inj (Option.some.inj h)).1
  | cons x xs ih =>
    intro path path1 h
    unfold firstSuccess at h
    split at h
    · cases h
    · rename_i p1 hb
      obtain ⟨_, rfl⟩ := Prod.mk.inj (Option.some.inj h)
      exact ⟨[], x, xs, rfl, fun y hy => absurd hy (List.not_mem_nil y), hb⟩
    · rename_i p1 hb
      have hp : p1 = path := hfalse x (List.mem_cons_self _ _) _ _ hb
      subst hp
      obtain ⟨pre, x1, post, hxs, hpre, hx1⟩ :=
        ih (fun y hy => hfalse y (List.mem_cons_of_mem _ hy)) _ _ h
      refine ⟨x :: pre, x1, post, by rw [hxs]; rfl, fun y hy => ?_, hx1⟩
      rcases List.mem_cons.1 hy with rfl | hy2
      · exact hb
      · exact hpre y hy2

theorem firstSuccess_all_false {α : Type}
    (body : α → List command → Option (Bool × List command)) (xs : List α)
    (hfalse : ∀ x ∈ xs, ∀ p p1, body x p = some (false, p1) → p1 = p) :
    ∀ path path1, firstSuccess body xs path = some (false, path1) →
      ∀ x ∈ xs, body x path = some (false, path) := by
  induction xs with
  | nil =>
    intro path path1 _ x hx
    cases hx
  | cons x xs ih =>
    intro path path1 h y hy
    unfold firstSuccess at h
    split at h
    · cases h
    · cases (Prod.mk.inj (Option.some.inj h)).1
    · rename_i p1 hb
      have hp : p1 = path := hfalse x (List.mem_cons_self _ _) _ _ hb
      subst hp
      rcases List.mem_cons.1 hy with rfl | hy2
      · exact hb
      · exact ih (fun z hz => hfalse z (List.mem_cons_of_mem _ hz)) _ _ h y hy2

/-- In a loop over `0, 1, .., n - 1` the indices below `i` come before `i`. -/
theorem range_split (n i : Nat) (pre post : List Nat)
    (h : List.range n = pre ++ i :: post) : ∀ j, j < i → j ∈ pre := by
  have hlen : n = pre.length + (post.length + 1) := by
    have := congrArg List.length h
    simpa using this
  have hi : (List.range n)[pre.length]? = some i := by
    rw [h, List.getElem?_append_right (le_refl _)]
    simp
  have hpl : pre.length = i := by
    rw [List.getElem?_range (by omega)] at hi
    exact Option.some.inj hi
  intro j hj
  have hjp : j < pre.length := by omega
  have hj2 : (List.range n)[j]? = some j := List.getElem?_range (by omega)
  rw [h, List.getElem?_append_left hjp] at hj2
  exact List.mem_iff_getElem?.2 ⟨j, hj2⟩

theorem findPathFrom_goal (n : Nat) (c : Board) (path : List command) (last : command)
    (hg : goalReached c = some true) : findPathFrom n c path last = some (true, path) := by
  cases n with
  | zero => rw [findPathFrom_zero, hg]
  | succ m => rw [findPathFrom_succ, hg]

theorem whichRobot_congr (b b1 : Board) (h : b1.robots = b.robots) (a : Char) :
    b1.whichRobot a = b.whichRobot a := by
  unfold Board.whichRobot
  rw [h]

/-- A candidate of the search is a solution: the commands naming its moves reach the
goal when replayed. -/
theorem goalRun_solvable (c : Board) (t : List (Nat × Nat)) (hrun : GoalRun c t) :
    WellFormed c → c.robots.Nodup → SolvableWithin c t.length := by
  induction hrun with
  | done c hg =>
    intro _ _
    exact ⟨[], le_refl _, c, rfl, hg⟩
  | move c temp i d rest hg hd hm _ ih =>
    intro hc hn
    obtain ⟨hwt, _, _, hi⟩ := move_wellFormed c hc i d hd true temp hm
    have hrob : temp.robots = c.robots := (moveRobot_frame c i d true temp hm).2.2.2.2.1
    obtain ⟨cmds, hlen, b1, hrep, hgoal⟩ := ih hwt (by rw [hrob]; exact hn)
    obtain ⟨a0, ha0⟩ := getRobot_of_lt c i hi
    have hexec : c.executeCommand ⟨a0, d, none⟩ = some temp := by
      simp only [Board.executeCommand, whichRobot_getRobot c hn i a0 ha0, hm]
    refine ⟨⟨a0, d, none⟩ :: cmds, by simp; omega, b1, ?_, hgoal⟩
    rw [replay_cons c temp _ _ hexec]
    exact hrep

theorem lexLe_refl (s : List (Nat × Nat)) : LexLe s s := by
  induction s with
  | nil => exact LexLe.nil []
  | cons a s ih => exact LexLe.next a s s ih

/-- What the bounded search returns is a candidate, and it comes first among the
candidates of at most `n` moves in the lexicographic order of the loops. -/
theorem findPathFrom_first :
    ∀ (n : Nat) (c : Board) (last : command) (path : List command), Playable c →
      PruneSafe c last → findPathFrom n c [] last = some (true, path) →
      ∃ ms : List (Nat × Nat), GoalRun c ms ∧
        path.reverse.map (fun y => (c.whichRobot y.robot, y.dir)) =
          ms.map (fun m => (some m.1, m.2)) ∧
        ∀ t, GoalRun c t → t.length ≤ n → LexLe ms t := by
  intro n
  induction n with
  | zero =>
    intro c last path hc _ h
    rw [findPathFrom_zero] at h
    split at h
    · cases h
    · rename_i hg
      obtain ⟨_, rfl⟩ := Prod.mk.inj (Option.some.inj h)
      exact ⟨[], GoalRun.done c hg, rfl, fun t _ _ => LexLe.nil t⟩
    · cases (Prod.mk.inj (Option.some.inj h)).1
  | succ m ih =>
    intro c last path hc hprune h
    rw [findPathFrom_succ] at h
    split at h
    · cases h
    · rename_i hg
      obtain ⟨_, rfl⟩ := Prod.mk.inj (Option.some.inj h)
      exact ⟨[], GoalRun.done c hg, rfl, fun t _ _ => LexLe.nil t⟩
    · rename_i hg
      have hrec : ∀ t p l p1, findPathFrom m t p l = some (false, p1) → p1 = p :=
        fun t p l p1 hr => (findPathFrom_result m t p l false p1 hr).1 rfl
      have hinner : ∀ i, ∀ d ∈ [0, 1, 2, 3], ∀ p p1,
          tryMove (findPathFrom m) c last i d p = some (false, p1) → p1 = p :=
        fun i d _ p p1 ht => (tryMove_elim _ hrec c last i d p false p1 ht).1 rfl
      have houter : ∀ i ∈ List.range c.numRobots, ∀ p p1,
          firstSuccess (fun d q => tryMove (findPathFrom m) c last i d q) [0, 1, 2, 3] p =
            some (false, p1) → p1 = p :=
        fun i _ p p1 hf => (firstSuccess_elim _ _ (hinner i) p false p1 hf).1 rfl
      obtain ⟨pre, i, post, hsplit, hpre, hi⟩ := firstSuccess_first _ _ houter [] path h
      obtain ⟨pre2, d, post2, hsplit2, hpre2, hd⟩ :=
        firstSuccess_first _ _ (hinner i) [] path hi
      obtain ⟨temp, a, a0, p1, hm, ha, hfp, ha0, rfl⟩ :=
        (tryMove_elim _ hrec c last i d [] true path hd).2 rfl
      have hi2 : i < c.numRobots := by
        have : i ∈ List.range c.numRobots := by rw [hsplit]; simp
        exact List.mem_range.1 this
      have hd2 : d < 4 := by
        have : d ∈ [0, 1, 2, 3] := by rw [hsplit2]; simp
        simp at this
        omega
      obtain ⟨r, temp2, hmove2, hplay, _, hrob⟩ := playable_move c hc i d hi2 hd2
      rw [hm] at hmove2
      obtain ⟨_, rfl⟩ := Prod.mk.inj (Option.some.inj hmove2)
      have hcount := upper_count c.robots hc.names_distinct hc.names_upper
      have hn : c.numRobots ≤ 65536 := by
        unfold Board.numRobots
        omega
      have hsafe := pruneSafe_after_move c hc.wellFormed hn i d hi2 hd2 temp hm a
      obtain ⟨ms, hrun, hmap, hmin⟩ := ih temp _ p1 hplay hsafe hfp
      refine ⟨(i, d) :: ms, GoalRun.move c temp i d ms hg hd2 hm hrun, ?_, ?_⟩
      · rw [List.reverse_append, List.reverse_singleton, List.singleton_append,
          List.map_cons, List.map_cons, whichRobot_getRobot c hc.names_distinct i a0 ha0]
        have hfun : (fun y : command => (c.whichRobot y.robot, y.dir)) =
            (fun y : command => (temp.whichRobot y.robot, y.dir)) := by
          funext y
          rw [whichRobot_congr c temp hrob]
        rw [hfun, hmap]
      · intro t ht hlen
        cases ht with
        | done _ hg2 =>
          rw [hg] at hg2
          cases hg2
        | move _ temp3 j e rest hg3 he hmv hrest =>
          have hlen2 : rest.length ≤ m := by
            simp only [List.length_cons] at hlen
            omega
          have hj : j < c.numRobots :=
            (move_wellFormed c hc.wellFormed j e he true temp3 hmv).2.2.2
          have htrue : ∃ p2, tryMove (findPathFrom m) c last j e [] = some (true, p2) := by
            obtain ⟨r3, temp4, hmove4, hplay4, hnum4, _⟩ := playable_move c hc j e hj he
            rw [hmv] at hmove4
            obtain ⟨_, rfl⟩ := Prod.mk.inj (Option.some.inj hmove4)
            obtain ⟨b, hb⟩ := getRobot_of_lt temp3 j (by rw [hnum4]; exact hj)
            obtain ⟨b0, hb0⟩ := getRobot_of_lt c j hj
            have hnot : last.dir ≠ e ∨ last.robonum ≠ some j := by
              by_contra hcon
              have h1 : last.dir = e := by
                by_contra h; exact hcon (Or.inl h)
              have h2 : last.robonum = some j := by
                by_contra h; exact hcon (Or.inr h)
              have := hprune j e hj he h1 h2
              rw [hmv] at this
              cases this
            have hsafe3 := pruneSafe_after_move c hc.wellFormed hn j e hj he temp3 hmv b
            have hsolv : SolvableWithin temp3 m := by
              obtain ⟨cmds, hl, hrest2⟩ :=
                goalRun_solvable temp3 rest hrest hplay4.wellFormed hplay4.names_distinct
              exact ⟨cmds, by omega, hrest2⟩
            obtain ⟨p3, hp3⟩ := findPathFrom_complete m temp3 [] _ hplay4 hsafe3 hsolv
            refine ⟨p3 ++ [⟨b0, e, none⟩], ?_⟩
            unfold tryMove
            rw [if_pos hnot]
            simp only [hmv, hb, hp3, hb0]
          obtain ⟨p2, hp2⟩ := htrue
          by_cases hji : j < i
          · exfalso
            have h1 := hpre j (range_split _ _ _ _ hsplit j hji)
            have h2 := firstSuccess_all_false _ _ (hinner j) [] [] h1 e (by simp; omega)
            rw [hp2] at h2
            cases (Prod.mk.inj (Option.some.inj h2)).1
          · by_cases hij : i < j
            · exact LexLe.before _ _ _ _ (Or.inl hij)
            · have hje : j = i := by omega
              subst hje
              by_cases hed : e < d
              · exfalso
                have h4 : List.range 4 = pre2 ++ d :: post2 := by
                  rw [← hsplit2]
                  decide
                have h1 := hpre2 e (range_split 4 d pre2 post2 h4 e hed)
                rw [hp2] at h1
                cases (Prod.mk.inj (Option.some.inj h1)).1
              · by_cases hde : d < e
                · exact LexLe.before _ _ _ _ (Or.inr ⟨rfl, hde⟩)
                · have hee : e = d := by omega
                  subst hee
                  rw [hm] at hmv
                  obtain ⟨_, rfl⟩ := Prod.mk.inj (Option.some.inj hmv)
                  exact LexLe.next _ _ _ (hmin rest hrest hlen2)

theorem movesOf_decode (c : Board) (cmds : List command) (ms : List (Nat × Nat))
    (h : cmds.map (fun y => (c.whichRobot y.robot, y.dir)) = ms.map (fun m => (some m.1, m.2))) :
    cmds.filterMap (fun y => (c.whichRobot y.robot).map (fun k => (k, y.dir))) = ms ∧
      cmds.length = ms.length := by
  induction cmds generalizing ms with
  | nil =>
    cases ms with
    | nil => exact ⟨rfl, rfl⟩
    | cons m ms => cases h
  | cons y cmds ih =>
    cases ms with
    | nil => cases h
    | cons m ms =>
      simp only [List.map_cons, List.cons.injEq, Prod.mk.injEq] at h
      obtain ⟨⟨h1, h2⟩, h3⟩ := h
      obtain ⟨ih1, ih2⟩ := ih ms h3
      refine ⟨?_, by simp [ih2]⟩
      rw [List.filterMap_cons, h1]
      simp only [Option.map_some']
      rw [ih1, h2]

/-- On the 5 x 5 board with robot `A` at (1,1) and goal `any` at (5,5) the search to any
depth of at least 2 ends in its first branch that moves: north is blocked, east slides
to (1,5), and from there north is blocked, east is skipped, south reaches the goal. -/
theorem sampleOne_east_south (m : Nat) :
    findPathFrom (m + 2) sampleOne [] command.default =
      some (true, [⟨'A', 2, none⟩, ⟨'A', 1, none⟩]) := by
  obtain ⟨t1, m01, g1, r1, n1, m10, t2, m12, g2, n2⟩ :
      ∃ t1, sampleOne.moveRobot 0 1 = some (true, t1) ∧ goalReached t1 = some false ∧
        List.range t1.numRobots = [0] ∧ t1.getRobot 0 = some 'A' ∧
        t1.moveRobot 0 0 = some (false, t1) ∧
        ∃ t2, t1.moveRobot 0 2 = some (true, t2) ∧ goalReached t2 = some true ∧
          t2.getRobot 0 = some 'A' :=
    ⟨((sampleOne.moveRobot 0 1).getD (false, noBoard)).2, by decide, by decide, by decide,
      by decide, by decide,
      ((((sampleOne.moveRobot 0 1).getD (false, noBoard)).2.moveRobot 0 2).getD
        (false, noBoard)).2, by decide, by decide, by decide⟩
  have g0 : goalReached sampleOne = some false := by decide
  have r0 : List.range sampleOne.numRobots = [0] := by decide
  have n0 : sampleOne.getRobot 0 = some 'A' := by decide
  have m00 : sampleOne.moveRobot 0 0 = some (false, sampleOne) := by decide
  have inner : findPathFrom (m + 1) t1 [] ⟨'A', 1, some (0 % 65536)⟩ =
      some (true, [⟨'A', 2, none⟩]) := by
    have t10 : tryMove (findPathFrom m) t1 ⟨'A', 1, some (0 % 65536)⟩ 0 0 [] =
        some (false, []) := by
      unfold tryMove
      rw [if_pos (by decide), m10]
    have t11 : tryMove (findPathFrom m) t1 ⟨'A', 1, some (0 % 65536)⟩ 0 1 [] =
        some (false, []) := by
      unfold tryMove
      rw [if_neg (by decide)]
    have t12 : tryMove (findPathFrom m) t1 ⟨'A', 1, some (0 % 65536)⟩ 0 2 [] =
        some (true, [⟨'A', 2, none⟩]) := by
      unfold tryMove
      rw [if_pos (by decide), m12]
      simp only [n2, findPathFrom_goal m t2 [] _ g2, n1]
      rfl
    rw [findPathFrom_succ, g1]
    simp only [r1, firstSuccess, t10, t11, t12]
  have t00 : tryMove (findPathFrom (m + 1)) sampleOne command.default 0 0 [] =
      some (false, []) := by
    unfold tryMove
    rw [if_pos (by decide), m00]
  have t01 : tryMove (findPathFrom (m + 1)) sampleOne command.default 0 1 [] =
      some (true, [⟨'A', 2, none⟩, ⟨'A', 1, none⟩]) := by
    unfold tryMove
    rw [if_pos (by decide), m01]
    simp only [n1, inner, n0]
    rfl
  rw [findPathFrom_succ, g0]
  simp only [r0, firstSuccess, t00, t01]

theorem sampleOne_any_depth (depth : Int) (hd : 2 ≤ depth) :
    findPath sampleOne [] depth command.default =
      some (true, [⟨'A', 2, none⟩, ⟨'A', 1, none⟩]) := by
  unfold findPath
  rw [if_neg (by omega)]
  obtain ⟨m, hm⟩ : ∃ m, depth.toNat = m + 2 := ⟨depth.toNat - 2, by omega⟩
  rw [hm]
  exact sampleOne_east_south m

/-! ## The reachability map: no result at the largest depth bound -/

theorem forEach_none {α σ : Type} (body : α → σ → Option σ) (xs : List α) (x0 : α)
    (hx0 : x0 ∈ xs) (h0 : ∀ t, body x0 t = none) : ∀ s, forEach body xs s = none := by
  induction xs with
  | nil => cases hx0
  | cons x xs ih =>
    intro s
    unfold forEach
    cases hb : body x s with
    | none => rfl
    | some s1 =>
      simp only
      rcases List.mem_cons.1 hx0 with rfl | hmem
      · rw [h0 s] at hb
        cases hb
      · exact ih hmem s1

theorem visit_none (recurse : Board → List (List Int) → Option (List (List Int)))
    (f : Board) (d g c : Nat) (temp : Board) (hm : f.moveRobot g c = some (true, temp))
    (hrec : ∀ h3, recurse temp h3 = none) (h : List (List Int)) :
    visit recurse f d g c h = none := by
  unfold visit
  cases f.getRobotPosition g with
  | none => rfl
  | some curbot =>
    simp only
    cases record h curbot d with
    | none => rfl
    | some h2 =>
      simp only [hm]
      exact hrec h2

/-- With `maxdepth = 4294967295` the test `curdepth <= maxdepth` never fails: on a
well-formed board with a robot that can move, the recursion has no result whatever the
number of nested levels allowed. -/
theorem explore_unbounded :
    ∀ (levels : Nat) (f : Board) (h : List (List Int)) (d : Nat), WellFormed f → Mobile f →
      d ≤ 4294967295 → explore 4294967295 levels f h d = none := by
  have hbody : ∀ (recurse : Board → List (List Int) → Nat → Option (List (List Int))),
      (∀ temp h3 e, WellFormed temp → Mobile temp → e ≤ 4294967295 →
        recurse temp h3 e = none) →
      ∀ (f : Board) (h : List (List Int)) (d : Nat), WellFormed f → Mobile f →
        d ≤ 4294967295 → exploreBody 4294967295 recurse f h d = none := by
    intro recurse hrec f h d hf hmob hd
    obtain ⟨g, c, temp, hc, hm⟩ := hmob
    obtain ⟨hwt, hmt⟩ := mobile_of_move f hf g c hc temp hm
    have hg : g < f.numRobots := (move_wellFormed f hf g c hc true temp hm).2.2.2
    unfold exploreBody
    cases (if d = 0 then freshGrid f else some h) with
    | none => rfl
    | some h0 =>
      simp only
      rw [if_pos hd]
      apply forEach_none _ _ g (List.mem_range.2 hg)
      intro t
      apply forEach_none _ _ c (by simp; omega)
      intro u
      apply visit_none _ f d g c temp hm
      intro h3
      exact hrec temp h3 _ hwt hmt (by omega)
  intro levels
  induction levels with
  | zero =>
    intro f h d hf hmob hd
    exact hbody _ (fun _ _ _ _ _ _ => rfl) f h d hf hmob hd
  | succ n ih =>
    intro f h d hf hmob hd
    exact hbody _ (fun temp h3 e hwt hmt he => ih temp h3 e hwt hmt he) f h d hf hmob hd

/-! ## The reachability map: invariants for every depth bound below `2^32 - 1` -/

theorem visit_cases (recurse : Board → List (List Int) → Option (List (List Int)))
    (f : Board) (d g c : Nat) (h h1 : List (List Int))
    (hv : visit recurse f d g c h = some h1) :
    ∃ curbot h2, f.getRobotPosition g = some curbot ∧ record h curbot d = some h2 ∧
      ((∃ temp, f.moveRobot g c = some (true, temp) ∧ recurse temp h2 = some h1) ∨
        (∃ b, f.moveRobot g c = some (false, b) ∧ h1 = h2)) := by
  unfold visit at hv
  cases hp : f.getRobotPosition g with
  | none => rw [hp] at hv; cases hv
  | some curbot =>
    rw [hp] at hv
    simp only at hv
    cases hr : record h curbot d with
    | none => rw [hr] at hv; cases hv
    | some h2 =>
      rw [hr] at hv
      simp only at hv
      refine ⟨curbot, h2, rfl, hr, ?_⟩
      cases hm : f.moveRobot g c with
      | none => rw [hm] at hv; cases hv
      | some x =>
        obtain ⟨m, temp⟩ := x
        rw [hm] at hv
        cases m with
        | true => exact Or.inl ⟨temp, rfl, hv⟩
        | false =>
          simp only at hv
          exact Or.inr ⟨temp, rfl, (Option.some.inj hv).symm⟩

theorem succ_in_range (maxdepth d : Nat) (hmax : maxdepth < 4294967295) (hd : d ≤ maxdepth) :
    (d + 1) % 4294967296 = d + 1 := Nat.mod_eq_of_lt (by omega)

/-- A loop ends with `P` when every round keeps `I`, every round keeps `P` under `I`,
and some round establishes `P` from `I`. -/
theorem forEach_establish_inv {α σ : Type} (body : α → σ → Option σ) (I P : σ → Prop)
    (xs : List α) (hI : ∀ x ∈ xs, ∀ t t1, I t → body x t = some t1 → I t1)
    (hP : ∀ x ∈ xs, ∀ t t1, I t → P t → body x t = some t1 → P t1)
    (x0 : α) (hx0 : x0 ∈ xs) (hest : ∀ t t1, I t → body x0 t = some t1 → P t1) :
    ∀ s s1, I s → forEach body xs s = some s1 → P s1 := by
  induction xs with
  | nil => cases hx0
  | cons x xs ih =>
    intro s s1 hs h
    unfold forEach at h
    cases hb : body x s with
    | none => rw [hb] at h; cases h
    | some s2 =>
      rw [hb] at h
      simp only at h
      have hI2 : I s2 := hI x (List.mem_cons_self _ _) s s2 hs hb
      rcases List.mem_cons.1 hx0 with rfl | hmem
      · have hboth : I s1 ∧ P s1 :=
          forEach_inv body (fun t => I t ∧ P t) xs
            (fun y hy t t1 ht hbt =>
              ⟨hI y (List.mem_cons_of_mem _ hy) t t1 ht.1 hbt,
                hP y (List.mem_cons_of_mem _ hy) t t1 ht.1 ht.2 hbt⟩)
            s2 s1 ⟨hI2, hest s s2 hs hb⟩ h
        exact hboth.2
      · exact ih (fun y hy => hI y (List.mem_cons_of_mem _ hy))
          (fun y hy => hP y (List.mem_cons_of_mem _ hy)) hmem s2 s1 hI2 h

/-- A property of the map that every recording step and every sweep keeps is kept by one
round of the loops, given that the recursive call keeps it. -/
theorem visit_kept (f0 : Board) (maxdepth : Nat) (P : List (List Int) → Prop)
    (hrecord : ∀ h h1 cell d, d ≤ maxdepth → OccupiedAfter f0 d cell → P h →
      record h cell d = some h1 → P h1)
    (recurse : Board → List (List Int) → Option (List (List Int))) (f : Board) (d : Nat)
    (hd : d ≤ maxdepth) (hreach : ReachIn f0 d f)
    (hrec : ∀ temp h3 h4, ReachIn f0 (d + 1) temp → P h3 → recurse temp h3 = some h4 → P h4)
    (g c : Nat) (hg : g < f.numRobots) (hc : c < 4) (h h1 : List (List Int)) (hp : P h)
    (hv : visit recurse f d g c h = some h1) : P h1 := by
  obtain ⟨curbot, h2, hpos, hr, hcase⟩ := visit_cases recurse f d g c h h1 hv
  have hp2 : P h2 := hrecord h h2 curbot d hd ⟨f, g, hreach, hg, hpos⟩ hp hr
  rcases hcase with ⟨temp, hm, hrc⟩ | ⟨b, _, rfl⟩
  · exact hrec temp h2 h1 (reachIn_snoc f0 f temp d g c hreach hc hm) hp2 hrc
  · exact hp2

theorem exploreBody_kept (f0 : Board) (maxdepth : Nat) (hmax : maxdepth < 4294967295)
    (P : List (List Int) → Prop)
    (hrecord : ∀ h h1 cell d, d ≤ maxdepth → OccupiedAfter f0 d cell → P h →
      record h cell d = some h1 → P h1)
    (hsweep : ∀ h, P h → P (sweep h))
    (recurse : Board → List (List Int) → Nat → Option (List (List Int))) (f : Board) (d : Nat)
    (hreach : ReachIn f0 d f)
    (hrec : ∀ temp h3 h4, ReachIn f0 (d + 1) temp → P h3 →
      recurse temp h3 (d + 1) = some h4 → P h4)
    (h h0 h1 : List (List Int)) (hs : (if d = 0 then freshGrid f else some h) = some h0)
    (hp : P h0) (he : exploreBody maxdepth recurse f h d = some h1) : P h1 := by
  unfold exploreBody at he
  rw [hs] at he
  simp only at he
  by_cases hd : d ≤ maxdepth
  · rw [if_pos hd, succ_in_range maxdepth d hmax hd] at he
    refine forEach_inv _ P _ ?_ h0 h1 hp he
    intro g hg s s1 hs1 hb
    refine forEach_inv _ P _ ?_ s s1 hs1 hb
    intro c hc t t1 ht hv
    exact visit_kept f0 maxdepth P hrecord _ f d hd hreach
      (fun temp h3 h4 hr3 hp3 hrc => hrec temp h3 h4 hr3 hp3 hrc) g c
      (List.mem_range.1 hg) (by simp at hc; omega) t t1 ht hv
  · rw [if_neg hd] at he
    rw [← Option.some.inj he]
    exact hsweep h0 hp

/-- A property of the map that every recording step and every sweep keeps is kept by
the whole recursion. -/
theorem explore_kept (f0 : Board) (maxdepth : Nat) (hmax : maxdepth < 4294967295)
    (P : List (List Int) → Prop)
    (hrecord : ∀ h h1 cell d, d ≤ maxdepth → OccupiedAfter f0 d cell → P h →
      record h cell d = some h1 → P h1)
    (hsweep : ∀ h, P h → P (sweep h)) :
    ∀ (levels : Nat) (f : Board) (h h0 h1 : List (List Int)) (d : Nat), ReachIn f0 d f →
      (if d = 0 then freshGrid f else some h) = some h0 → P h0 →
      explore maxdepth levels f h d = some h1 → P h1 := by
  intro levels
  induction levels with
  | zero =>
    intro f h h0 h1 d hreach hs hp he
    refine exploreBody_kept f0 maxdepth hmax P hrecord hsweep _ f d hreach ?_ h h0 h1 hs hp he
    intro temp h3 h4 _ _ hrc
    cases hrc
  | succ n ih =>
    intro f h h0 h1 d hreach hs hp he
    refine exploreBody_kept f0 maxdepth hmax P hrecord hsweep _ f d hreach ?_ h h0 h1 hs hp he
    intro temp h3 h4 hr3 hp3 hrc
    exact ih temp h3 h3 h4 (d + 1) hr3 (by rw [if_neg (by omega)]) hp3 hrc

theorem record_wrapped (f0 : Board) (maxdepth : Nat) (h h1 : List (List Int))
    (cell : Position) (d : Nat) (hd : d ≤ maxdepth) (hocc : OccupiedAfter f0 d cell)
    (hok : GridWrapped f0 maxdepth h) (hrec : record h cell d = some h1) :
    GridWrapped f0 maxdepth h1 := by
  obtain ⟨hr, hc, x, _, hcase⟩ := record_spec h h1 cell d hrec
  rcases hcase with ⟨_, hset⟩ | ⟨_, rfl⟩
  · intro r c y hy
    rw [at2_set2 h h1 _ _ _ hset r c] at hy
    split at hy
    · rename_i hidx
      right; right
      refine ⟨d, (Option.some.inj hy).symm, hd, ?_⟩
      rw [cell_index_inj r c cell hidx hr hc]
      exact hocc
    · exact hok r c y hy
  · exact hok

theorem record_swept (f0 : Board) (maxdepth : Nat) (h h1 : List (List Int))
    (cell : Position) (d : Nat) (hd : d ≤ maxdepth) (hocc : OccupiedAfter f0 d cell)
    (hok : GridSwept f0 maxdepth h) (hrec : record h cell d = some h1) :
    GridSwept f0 maxdepth h1 := by
  obtain ⟨hr, hc, x, _, hcase⟩ := record_spec h h1 cell d hrec
  rcases hcase with ⟨_, hset⟩ | ⟨_, rfl⟩
  · intro r c y hy
    rw [at2_set2 h h1 _ _ _ hset r c] at hy
    split at hy
    · rename_i hidx
      right
      refine ⟨d, (Option.some.inj hy).symm, hd, ?_⟩
      rw [cell_index_inj r c cell hidx hr hc]
      exact hocc
    · exact hok r c y hy
  · exact hok

theorem swept_wrapped (f0 : Board) (maxdepth : Nat) (h : List (List Int))
    (hok : GridSwept f0 maxdepth h) : GridWrapped f0 maxdepth h := by
  intro r c x hx
  rcases hok r c x hx with h1 | h1
  · exact Or.inl h1
  · exact Or.inr (Or.inr h1)

/-- A sweep leaves no entry that is only the filler: what was `INT_MAX` is `-1`. -/
theorem sweep_wrapped (f0 : Board) (maxdepth : Nat) (h : List (List Int))
    (hok : GridWrapped f0 maxdepth h) : GridSwept f0 maxdepth (sweep h) := by
  intro r c x hx
  rw [at2_sweep] at hx
  cases hy : Board.at2 h r c with
  | none => rw [hy] at hx; cases hx
  | some y =>
    rw [hy] at hx
    have hxy : (if y = intMax then -1 else y) = x := Option.some.inj hx
    by_cases hm : y = intMax
    · rw [if_pos hm] at hxy
      exact Or.inl hxy.symm
    · rw [if_neg hm] at hxy
      rw [← hxy]
      rcases hok r c y hy with h1 | h1 | h1
      · exact Or.inl h1
      · exact absurd h1 hm
      · exact Or.inr h1

theorem freshGrid_wrapped (f0 : Board) (maxdepth : Nat) (f : Board) (h0 : List (List Int))
    (h : freshGrid f = some h0) : GridWrapped f0 maxdepth h0 := by
  intro r c x hx
  exact Or.inr (Or.inl ((freshGrid_spec f h0 h).2 r c x hx))

theorem explore_wrapped (f0 : Board) (maxdepth : Nat) (hmax : maxdepth < 4294967295)
    (levels : Nat) (f : Board) (h h0 h1 : List (List Int)) (d : Nat) (hreach : ReachIn f0 d f)
    (hs : (if d = 0 then freshGrid f else some h) = some h0)
    (hok : GridWrapped f0 maxdepth h0) (he : explore maxdepth levels f h d = some h1) :
    GridWrapped f0 maxdepth h1 :=
  explore_kept f0 maxdepth hmax (GridWrapped f0 maxdepth)
    (fun h h1 cell d hd hocc hp hr => record_wrapped f0 maxdepth h h1 cell d hd hocc hp hr)
    (fun h hp => swept_wrapped f0 maxdepth _ (sweep_wrapped f0 maxdepth h hp))
    levels f h h0 h1 d hreach hs hok he

theorem sweep_swept (f0 : Board) (maxdepth : Nat) (h : List (List Int))
    (hok : GridSwept f0 maxdepth h) : GridSwept f0 maxdepth (sweep h) :=
  sweep_wrapped f0 maxdepth h (swept_wrapped f0 maxdepth h hok)

theorem explore_keeps_swept (f0 : Board) (maxdepth : Nat) (hmax : maxdepth < 4294967295)
    (levels : Nat) (f : Board) (h h1 : List (List Int)) (d : Nat) (hreach : ReachIn f0 d f)
    (hd : d ≠ 0) (hok : GridSwept f0 maxdepth h)
    (he : explore maxdepth levels f h d = some h1) : GridSwept f0 maxdepth h1 :=
  explore_kept f0 maxdepth hmax (GridSwept f0 maxdepth)
    (fun h h1 cell d hd hocc hp hr => record_swept f0 maxdepth h h1 cell d hd hocc hp hr)
    (fun h hp => sweep_swept f0 maxdepth h hp)
    levels f h h h1 d hreach (by rw [if_neg hd]) hok he

/-- On a well-formed board with a robot that can move, the recursion ends with a swept
map: some branch reaches depth `maxdepth + 1`. -/
theorem explore_swept (f0 : Board) (maxdepth : Nat) (hmax : maxdepth < 4294967295) :
    ∀ (levels : Nat) (f : Board) (h h0 h1 : List (List Int)) (d : Nat), ReachIn f0 d f →
      (if d = 0 then freshGrid f else some h) = some h0 → GridWrapped f0 maxdepth h0 →
      WellFormed f → Mobile f → explore maxdepth levels f h d = some h1 →
      GridSwept f0 maxdepth h1 := by
  have hbody : ∀ (recurse : Board → List (List Int) → Nat → Option (List (List Int)))
      (f : Board) (d : Nat), ReachIn f0 d f →
      (∀ temp h3 h4, ReachIn f0 (d + 1) temp → GridWrapped f0 maxdepth h3 →
        recurse temp h3 (d + 1) = some h4 → GridWrapped f0 maxdepth h4) →
      (∀ temp h3 h4, ReachIn f0 (d + 1) temp → GridSwept f0 maxdepth h3 →
        recurse temp h3 (d + 1) = some h4 → GridSwept f0 maxdepth h4) →
      (∀ temp h3 h4, ReachIn f0 (d + 1) temp → GridWrapped f0 maxdepth h3 →
        WellFormed temp → Mobile temp → recurse temp h3 (d + 1) = some h4 →
        GridSwept f0 maxdepth h4) →
      ∀ (h h0 h1 : List (List Int)),
        (if d = 0 then freshGrid f else some h) = some h0 → GridWrapped f0 maxdepth h0 →
        WellFormed f → Mobile f → exploreBody maxdepth recurse f h d = some h1 →
        GridSwept f0 maxdepth h1 := by
    intro recurse f d hreach hrecW hrecS hrecE h h0 h1 hs hok hf hmob he
    unfold exploreBody at he
    rw [hs] at he
    simp only at he
    by_cases hd : d ≤ maxdepth
    · rw [if_pos hd, succ_in_range maxdepth d hmax hd] at he
      obtain ⟨g, c, temp, hc, hm⟩ := hmob
      obtain ⟨hwt, hmt⟩ := mobile_of_move f hf g c hc temp hm
      have hg : g < f.numRobots := (move_wellFormed f hf g c hc true temp hm).2.2.2
      have hvW : ∀ g1, g1 < f.numRobots → ∀ c1 ∈ [0, 1, 2, 3], ∀ t t1,
          GridWrapped f0 maxdepth t →
          visit (fun temp h3 => recurse temp h3 (d + 1)) f d g1 c1 t = some t1 →
          GridWrapped f0 maxdepth t1 :=
        fun g1 hg1 c1 hc1 t t1 ht hv =>
          visit_kept f0 maxdepth (GridWrapped f0 maxdepth)
            (fun h h1 cell d hd hocc hp hr =>
              record_wrapped f0 maxdepth h h1 cell d hd hocc hp hr)
            _ f d hd hreach hrecW g1 c1 hg1 (by simp at hc1; omega) t t1 ht hv
      have hvS : ∀ g1, g1 < f.numRobots → ∀ c1 ∈ [0, 1, 2, 3], ∀ t t1,
          GridSwept f0 maxdepth t →
          visit (fun temp h3 => recurse temp h3 (d + 1)) f d g1 c1 t = some t1 →
          GridSwept f0 maxdepth t1 :=
        fun g1 hg1 c1 hc1 t t1 ht hv =>
          visit_kept f0 maxdepth (GridSwept f0 maxdepth)
            (fun h h1 cell d hd hocc hp hr =>
              record_swept f0 maxdepth h h1 cell d hd hocc hp hr)
            _ f d hd hreach hrecS g1 c1 hg1 (by simp at hc1; omega) t t1 ht hv
      refine forEach_establish_inv _ (GridWrapped f0 maxdepth) (GridSwept f0 maxdepth) _
        ?_ ?_ g (List.mem_range.2 hg) ?_ h0 h1 hok he
      · intro g1 hg1 t t1 ht hb
        exact forEach_inv _ (GridWrapped f0 maxdepth) _
          (hvW g1 (List.mem_range.1 hg1)) t t1 ht hb
      · intro g1 hg1 t t1 _ ht hb
        exact forEach_inv _ (GridSwept f0 maxdepth) _
          (hvS g1 (List.mem_range.1 hg1)) t t1 ht hb
      · intro t t1 ht hb
        refine forEach_establish_inv _ (GridWrapped f0 maxdepth) (GridSwept f0 maxdepth) _
          (hvW g hg) (fun c1 hc1 u u1 _ hu hv => hvS g hg c1 hc1 u u1 hu hv) c
          (by simp; omega) ?_ t t1 ht hb
        intro u u1 hu hv
        obtain ⟨curbot, h2, hpos, hr, hcase⟩ := visit_cases _ f d g c u u1 hv
        have hw2 : GridWrapped f0 maxdepth h2 :=
          record_wrapped f0 maxdepth u h2 curbot d hd ⟨f, g, hreach, hg, hpos⟩ hu hr
        rcases hcase with ⟨temp2, hm2, hrc⟩ | ⟨b, hm2, _⟩
        · rw [hm] at hm2
          obtain ⟨_, rfl⟩ := Prod.mk.inj (Option.some.inj hm2)
          exact hrecE temp h2 u1 (reachIn_snoc f0 f temp d g c hreach hc hm) hw2 hwt hmt hrc
        · rw [hm] at hm2
          cases (Prod.mk.inj (Option.some.inj hm2)).1
    · rw [if_neg hd] at he
      rw [← Option.some.inj he]
      exact sweep_wrapped f0 maxdepth h0 hok
  intro levels
  induction levels with
  | zero =>
    intro f h h0 h1 d hreach hs hok hf hmob he
    refine hbody _ f d hreach ?_ ?_ ?_ h h0 h1 hs hok hf hmob he
    · intro temp h3 h4 _ _ hrc
      cases hrc
    · intro temp h3 h4 _ _ hrc
      cases hrc
    · intro temp h3 h4 _ _ _ _ hrc
      cases hrc
  | succ n ih =>
    intro f h h0 h1 d hreach hs hok hf hmob he
    refine hbody _ f d hreach ?_ ?_ ?_ h h0 h1 hs hok hf hmob he
    · intro temp h3 h4 hr3 hp3 hrc
      exact explore_wrapped f0 maxdepth hmax n temp h3 h3 h4 (d + 1) hr3
        (by rw [if_neg (by omega)]) hp3 hrc
    · intro temp h3 h4 hr3 hp3 hrc
      exact explore_keeps_swept f0 maxdepth hmax n temp h3 h4 (d + 1) hr3 (by omega) hp3 hrc
    · intro temp h3 h4 hr3 hp3 hwt hmt hrc
      exact ih temp h3 h3 h4 (d + 1) hr3 (by rw [if_neg (by omega)]) hp3 hwt hmt hrc

/-! ## The reachability map: a cell that is first reached at depth `maxdepth` -/

theorem reachIn_cases (f b : Board) (k : Nat) (h : ReachIn f k b) :
    (k = 0 ∧ b = f) ∨
      ∃ temp g c k1, k = k1 + 1 ∧ c < 4 ∧ f.moveRobot g c = some (true, temp) ∧
        ReachIn temp k1 b := by
  cases h with
  | here => exact Or.inl ⟨rfl, rfl⟩
  | step _ temp _ g c k1 hc hm hrest => exact Or.inr ⟨temp, g, c, k1, rfl, hc, hm, hrest⟩

theorem asInt_ne_filler (m : Nat) (hm : m < 4294967296) (hne : m ≠ 2147483647) :
    asInt m ≠ intMax := by
  unfold asInt intMax
  split <;> omega

theorem record_holdsLast (f0 : Board) (maxdepth r c : Nat)
    (hmin : ∀ m, OccupiedAfter f0 m ⟨(r : Int) + 1, (c : Int) + 1⟩ → maxdepth ≤ m)
    (h h1 : List (List Int)) (cell : Position) (d : Nat) (hd : d ≤ maxdepth)
    (hocc : OccupiedAfter f0 d cell) (hp : HoldsLast maxdepth h r c)
    (hrec : record h cell d = some h1) : HoldsLast maxdepth h1 r c := by
  obtain ⟨hr, hc, x, _, hcase⟩ := record_spec h h1 cell d hrec
  rcases hcase with ⟨_, hset⟩ | ⟨_, rfl⟩
  · unfold HoldsLast
    rw [at2_set2 h h1 _ _ _ hset r c]
    split
    · rename_i hidx
      rw [← cell_index_inj r c cell hidx hr hc] at hocc
      have := hmin d hocc
      have hdm : d = maxdepth := by omega
      rw [hdm]
    · exact hp
  · exact hp

theorem sweep_holdsLast (maxdepth r c : Nat) (hmax : maxdepth < 4294967295)
    (hne : maxdepth ≠ 2147483647) (h : List (List Int)) (hp : HoldsLast maxdepth h r c) :
    HoldsLast maxdepth (sweep h) r c := by
  unfold HoldsLast at hp ⊢
  rw [at2_sweep, hp]
  simp only [Option.map_some']
  rw [if_neg (asInt_ne_filler maxdepth (by omega) hne)]

/-- Recording depth `maxdepth` on a swept map for a cell that no robot occupies earlier
leaves the stored `maxdepth` there. -/
theorem record_last (f0 : Board) (maxdepth r c : Nat) (hmax : maxdepth < 4294967295)
    (hmin : ∀ m, OccupiedAfter f0 m ⟨(r : Int) + 1, (c : Int) + 1⟩ → maxdepth ≤ m)
    (h h1 : List (List Int)) (hok : GridSwept f0 maxdepth h)
    (hrec : record h ⟨(r : Int) + 1, (c : Int) + 1⟩ maxdepth = some h1) :
    HoldsLast maxdepth h1 r c := by
  obtain ⟨_, _, x, hx, hcase⟩ := record_spec h h1 _ maxdepth hrec
  have e1 : ((⟨(r : Int) + 1, (c : Int) + 1⟩ : Position).row - 1).toNat = r := by simp
  have e2 : ((⟨(r : Int) + 1, (c : Int) + 1⟩ : Position).col - 1).toNat = c := by simp
  rw [e1, e2] at hx hcase
  rcases hcase with ⟨_, hset⟩ | ⟨hnlt, rfl⟩
  · unfold HoldsLast
    rw [at2_set2 h h1 _ _ _ hset r c, if_pos ⟨rfl, rfl⟩]
  · unfold HoldsLast
    rw [hx]
    rcases hok r c x hx with h2 | ⟨m, hxm, hm, hocc⟩
    · exfalso
      apply hnlt
      rw [h2]
      omega
    · have := hmin m hocc
      have hmm : m = maxdepth := by omega
      rw [hxm, hmm]

theorem explore_keeps_last (f0 : Board) (maxdepth r c : Nat) (hmax : maxdepth < 4294967295)
    (hne : maxdepth ≠ 2147483647)
    (hmin : ∀ m, OccupiedAfter f0 m ⟨(r : Int) + 1, (c : Int) + 1⟩ → maxdepth ≤ m)
    (levels : Nat) (f : Board) (h h1 : List (List Int)) (d : Nat) (hreach : ReachIn f0 d f)
    (hd : d ≠ 0) (hp : HoldsLast maxdepth h r c)
    (he : explore maxdepth levels f h d = some h1) : HoldsLast maxdepth h1 r c :=
  explore_kept f0 maxdepth hmax (fun t => HoldsLast maxdepth t r c)
    (fun h h1 cell d hd hocc hp hr =>
      record_holdsLast f0 maxdepth r c hmin h h1 cell d hd hocc hp hr)
    (fun h hp => sweep_holdsLast maxdepth r c hmax hne h hp)
    levels f h h h1 d hreach (by rw [if_neg hd]) hp he

/-- Let no robot occupy the cell in row `r + 1`, column `c + 1` after fewer than
`maxdepth` moves. An activation at depth `d >= 1` on a swept map, from whose board some
robot reaches that cell with `maxdepth - d` more moves, ends with the stored `maxdepth`
in that cell. -/
theorem explore_reaches (f0 : Board) (hf0 : WellFormed f0) (maxdepth r c : Nat)
    (hmax : maxdepth < 4294967295) (hne : maxdepth ≠ 2147483647)
    (hmin : ∀ m, OccupiedAfter f0 m ⟨(r : Int) + 1, (c : Int) + 1⟩ → maxdepth ≤ m) :
    ∀ (levels : Nat) (f : Board) (h h1 : List (List Int)) (d k : Nat) (b : Board) (g : Nat),
      ReachIn f0 d f → d ≠ 0 → GridSwept f0 maxdepth h → ReachIn f k b → d + k = maxdepth →
      g < b.numRobots → b.getRobotPosition g = some ⟨(r : Int) + 1, (c : Int) + 1⟩ →
      explore maxdepth levels f h d = some h1 → HoldsLast maxdepth h1 r c := by
  have hbody : ∀ (recurse : Board → List (List Int) → Nat → Option (List (List Int)))
      (f : Board) (d : Nat), ReachIn f0 d f → d ≠ 0 →
      (∀ temp h3 h4, ReachIn f0 (d + 1) temp → GridSwept f0 maxdepth h3 →
        recurse temp h3 (d + 1) = some h4 → GridSwept f0 maxdepth h4) →
      (∀ temp h3 h4, ReachIn f0 (d + 1) temp → HoldsLast maxdepth h3 r c →
        recurse temp h3 (d + 1) = some h4 → HoldsLast maxdepth h4 r c) →
      (∀ temp h3 h4 k b g, ReachIn f0 (d + 1) temp → GridSwept f0 maxdepth h3 →
        ReachIn temp k b → d + 1 + k = maxdepth → g < b.numRobots →
        b.getRobotPosition g = some ⟨(r : Int) + 1, (c : Int) + 1⟩ →
        recurse temp h3 (d + 1) = some h4 → HoldsLast maxdepth h4 r c) →
      ∀ (h h1 : List (List Int)) (k : Nat) (b : Board) (g : Nat),
        GridSwept f0 maxdepth h → ReachIn f k b → d + k = maxdepth → g < b.numRobots →
        b.getRobotPosition g = some ⟨(r : Int) + 1, (c : Int) + 1⟩ →
        exploreBody maxdepth recurse f h d = some h1 → HoldsLast maxdepth h1 r c := by
    intro recurse f d hreach hd0 hrecS hrecH hrecE h h1 k b g hok hpath hdk hg hpos he
    have hf : WellFormed f := (reach_wellFormed f0 f d hreach hf0).1
    unfold exploreBody at he
    rw [if_neg hd0] at he
    simp only at he
    have hd : d ≤ maxdepth := by omega
    rw [if_pos hd, succ_in_range maxdepth d hmax hd] at he
    have hvS : ∀ g1, g1 < f.numRobots → ∀ c1 ∈ [0, 1, 2, 3], ∀ t t1,
        GridSwept f0 maxdepth t →
        visit (fun temp h3 => recurse temp h3 (d + 1)) f d g1 c1 t = some t1 →
        GridSwept f0 maxdepth t1 :=
      fun g1 hg1 c1 hc1 t t1 ht hv =>
        visit_kept f0 maxdepth (GridSwept f0 maxdepth)
          (fun h h1 cell d hd hocc hp hr =>
            record_swept f0 maxdepth h h1 cell d hd hocc hp hr)
          _ f d hd hreach hrecS g1 c1 hg1 (by simp at hc1; omega) t t1 ht hv
    have hvH : ∀ g1, g1 < f.numRobots → ∀ c1 ∈ [0, 1, 2, 3], ∀ t t1,
        HoldsLast maxdepth t r c →
        visit (fun temp h3 => recurse temp h3 (d + 1)) f d g1 c1 t = some t1 →
        HoldsLast maxdepth t1 r c :=
      fun g1 hg1 c1 hc1 t t1 ht hv =>
        visit_kept f0 maxdepth (fun t => HoldsLast maxdepth t r c)
          (fun h h1 cell d hd hocc hp hr =>
            record_holdsLast f0 maxdepth r c hmin h h1 cell d hd hocc hp hr)
          _ f d hd hreach hrecH g1 c1 hg1 (by simp at hc1; omega) t t1 ht hv
    have hround : ∀ g0 c0, g0 < f.numRobots → c0 < 4 →
        (∀ u u1, GridSwept f0 maxdepth u →
          visit (fun temp h3 => recurse temp h3 (d + 1)) f d g0 c0 u = some u1 →
          HoldsLast maxdepth u1 r c) → HoldsLast maxdepth h1 r c := by
      intro g0 c0 hg0 hc0 hest
      refine forEach_establish_inv _ (GridSwept f0 maxdepth)
        (fun t => HoldsLast maxdepth t r c) _ ?_ ?_ g0 (List.mem_range.2 hg0) ?_ h h1 hok he
      · intro g1 hg1 t t1 ht hb
        exact forEach_inv _ (GridSwept f0 maxdepth) _
          (hvS g1 (List.mem_range.1 hg1)) t t1 ht hb
      · intro g1 hg1 t t1 _ ht hb
        exact forEach_inv _ (fun t => HoldsLast maxdepth t r c) _
          (hvH g1 (List.mem_range.1 hg1)) t t1 ht hb
      · intro t t1 ht hb
        exact forEach_establish_inv _ (GridSwept f0 maxdepth)
          (fun t => HoldsLast maxdepth t r c) _
          (hvS g0 hg0) (fun c1 hc1 u u1 _ hu hv => hvH g0 hg0 c1 hc1 u u1 hu hv) c0
          (by simp; omega) hest t t1 ht hb
    rcases reachIn_cases f b k hpath with ⟨hk0, hbf⟩ | ⟨temp, g1, c1, k1, hk1, hc1, hm, hrest⟩
    · have hdm : d = maxdepth := by omega
      rw [hbf] at hg hpos
      apply hround g 0 hg (by omega)
      intro u u1 hu hv
      obtain ⟨curbot, h2, hpos2, hr, hcase⟩ := visit_cases _ f d g 0 u u1 hv
      rw [hpos] at hpos2
      have hcb := Option.some.inj hpos2
      rw [← hcb, hdm] at hr
      have h2l : HoldsLast maxdepth h2 r c := record_last f0 maxdepth r c hmax hmin u h2 hu hr
      rcases hcase with ⟨temp, hm, hrc⟩ | ⟨_, _, rfl⟩
      · exact hrecH temp h2 u1 (reachIn_snoc f0 f temp d g 0 hreach (by omega) hm) h2l hrc
      · exact h2l
    · have hg1 : g1 < f.numRobots := (move_wellFormed f hf g1 c1 hc1 true temp hm).2.2.2
      apply hround g1 c1 hg1 hc1
      intro u u1 hu hv
      obtain ⟨curbot, h2, hpos2, hr, hcase⟩ := visit_cases _ f d g1 c1 u u1 hv
      have hs2 : GridSwept f0 maxdepth h2 :=
        record_swept f0 maxdepth u h2 curbot d hd ⟨f, g1, hreach, hg1, hpos2⟩ hu hr
      rcases hcase with ⟨temp2, hm2, hrc⟩ | ⟨_, hm2, _⟩
      · rw [hm] at hm2
        obtain ⟨_, rfl⟩ := Prod.mk.inj (Option.some.inj hm2)
        exact hrecE temp h2 u1 k1 b g (reachIn_snoc f0 f temp d g1 c1 hreach hc1 hm) hs2
          hrest (by omega) hg hpos hrc
      · rw [hm] at hm2
        cases (Prod.mk.inj (Option.some.inj hm2)).1
  intro levels
  induction levels with
  | zero =>
    intro f h h1 d k b g hreach hd hok hpath hdk hg hpos he
    refine hbody _ f d hreach hd ?_ ?_ ?_ h h1 k b g hok hpath hdk hg hpos he
    · intro temp h3 h4 _ _ hrc
      cases hrc
    · intro temp h3 h4 _ _ hrc
      cases hrc
    · intro temp h3 h4 _ _ _ _ _ _ _ _ _ hrc
      cases hrc
  | succ n ih =>
    intro f h h1 d k b g hreach hd hok hpath hdk hg hpos he
    refine hbody _ f d hreach hd ?_ ?_ ?_ h h1 k b g hok hpath hdk hg hpos he
    · intro temp h3 h4 hr3 hp3 hrc
      exact explore_keeps_swept f0 maxdepth hmax n temp h3 h4 (d + 1) hr3 (by omega) hp3 hrc
    · intro temp h3 h4 hr3 hp3 hrc
      exact explore_keeps_last f0 maxdepth r c hmax hne hmin n temp h3 h4 (d + 1) hr3
        (by omega) hp3 hrc
    · intro temp h3 h4 k2 b2 g2 hr3 hp3 hpath2 hdk2 hg2 hpos2 hrc
      exact ih temp h3 h4 (d + 1) k2 b2 g2 hr3 (by omega) hp3 hpath2 hdk2 hg2 hpos2 hrc

/-! ## The reachability map: the call returns for every depth bound below `2^32 - 1` -/

theorem visit_returns (recurse : Board → List (List Int) → Option (List (List Int)))
    (f : Board) (hf : WellFormed f) (d g c : Nat) (hg : g < f.numRobots) (hc : c < 4)
    (hrec : ∀ temp h3, WellFormed temp → temp.rows = f.rows → temp.cols = f.cols →
      GridSize f.rows.toNat f.cols.toNat h3 →
      ∃ h4, recurse temp h3 = some h4 ∧ GridSize f.rows.toNat f.cols.toNat h4)
    (h : List (List Int)) (hs : GridSize f.rows.toNat f.cols.toNat h) :
    ∃ h1, visit recurse f d g c h = some h1 ∧ GridSize f.rows.toNat f.cols.toNat h1 := by
  obtain ⟨p, hp⟩ := position_of_index f hf g hg
  have hin := position_inside f hf g p hp
  obtain ⟨hr2, hc2, _⟩ := cell_index f p hin
  obtain ⟨h2, hrc⟩ := record_total _ _ h p d hs hin.1 hin.2.2.1 hr2 hc2
  have hs2 := record_size _ _ h h2 p d hs hrc
  obtain ⟨k, b1, hres, _, hwf, hrows, hcols, _⟩ := moveRobot_facts f hf g c p hp hc
  have hpos : f.getRobotPosition g = some p := hp
  unfold visit
  rw [hpos]
  simp only [hrc, hres]
  by_cases hk : 0 < k
  · simp only [hk, decide_True]
    exact hrec b1 h2 hwf hrows hcols hs2
  · simp only [hk, decide_False]
    exact ⟨h2, rfl, hs2⟩

theorem exploreBody_returns (maxdepth : Nat) (hmax : maxdepth < 4294967295)
    (recurse : Board → List (List Int) → Nat → Option (List (List Int))) (f : Board)
    (hf : WellFormed f) (d : Nat)
    (hrec : d ≤ maxdepth → ∀ temp h3, WellFormed temp → temp.rows = f.rows →
      temp.cols = f.cols → GridSize f.rows.toNat f.cols.toNat h3 →
      ∃ h4, recurse temp h3 (d + 1) = some h4 ∧ GridSize f.rows.toNat f.cols.toNat h4)
    (h : List (List Int)) (hs : d ≠ 0 → GridSize f.rows.toNat f.cols.toNat h) :
    ∃ h1, exploreBody maxdepth recurse f h d = some h1 ∧
      GridSize f.rows.toNat f.cols.toNat h1 := by
  have hstart : ∃ h0, (if d = 0 then freshGrid f else some h) = some h0 ∧
      GridSize f.rows.toNat f.cols.toNat h0 := by
    by_cases hd0 : d = 0
    · rw [if_pos hd0]
      have hfresh : ∃ h0, freshGrid f = some h0 := by
        unfold freshGrid Board.getRows Board.getCols
        rw [if_pos ⟨hf.rows_nonneg, hf.cols_nonneg⟩]
        exact ⟨_, rfl⟩
      obtain ⟨h0, hh0⟩ := hfresh
      exact ⟨h0, hh0, (freshGrid_spec f h0 hh0).1⟩
    · rw [if_neg hd0]
      exact ⟨h, rfl, hs hd0⟩
  obtain ⟨h0, hh0, hsize⟩ := hstart
  unfold exploreBody
  rw [hh0]
  simp only
  by_cases hd : d ≤ maxdepth
  · rw [if_pos hd, succ_in_range maxdepth d hmax hd]
    have hinner := fun g (hg : g < f.numRobots) =>
      forEach_total
        (fun c h2 => visit (fun temp h3 => recurse temp h3 (d + 1)) f d g c h2)
        (fun t => GridSize f.rows.toNat f.cols.toNat t) (fun _ _ => True)
        (fun _ => trivial) (fun _ _ _ _ _ => trivial) [0, 1, 2, 3]
        (fun c hc t ht => by
          obtain ⟨t1, hv, hI⟩ := visit_returns _ f hf d g c hg (by simp at hc; omega)
            (hrec hd) t ht
          exact ⟨t1, hv, hI, trivial⟩)
    obtain ⟨h1, hfe, hI1, _⟩ :=
      forEach_total
        (fun g h1 =>
          forEach (fun c h2 => visit (fun temp h3 => recurse temp h3 (d + 1)) f d g c h2)
            [0, 1, 2, 3] h1)
        (fun t => GridSize f.rows.toNat f.cols.toNat t) (fun _ _ => True)
        (fun _ => trivial) (fun _ _ _ _ _ => trivial) (List.range f.numRobots)
        (fun g hg t ht => by
          obtain ⟨t1, hv, hI, _⟩ := hinner g (List.mem_range.1 hg) t ht
          exact ⟨t1, hv, hI, trivial⟩)
        h0 hsize
    exact ⟨h1, hfe, hI1⟩
  · rw [if_neg hd]
    exact ⟨sweep h0, rfl, sweep_size _ _ h0 hsize⟩

/-- On a well-formed board and for a depth bound below `2^32 - 1` the recursion of
`getAccessibility` returns a map of the size of the board. -/
theorem explore_returns (maxdepth : Nat) (hmax : maxdepth < 4294967295) :
    ∀ (levels : Nat) (f : Board) (h : List (List Int)) (d : Nat),
      d + levels = maxdepth + 1 → WellFormed f →
      (d ≠ 0 → GridSize f.rows.toNat f.cols.toNat h) →
      ∃ h1, explore maxdepth levels f h d = some h1 ∧
        GridSize f.rows.toNat f.cols.toNat h1 := by
  intro levels
  induction levels with
  | zero =>
    intro f h d hlev hf hs
    exact exploreBody_returns maxdepth hmax _ f hf d (fun hd => by omega) h hs
  | succ n ih =>
    intro f h d hlev hf hs
    refine exploreBody_returns maxdepth hmax _ f hf d ?_ h hs
    intro hd temp h3 hwt hrt hct hs3
    have := ih temp h3 (d + 1) (by omega) hwt (fun _ => by rw [hrt, hct]; exact hs3)
    rw [hrt, hct] at this
    exact this

/-! ## The reachability map: minima below `INT_MAX` for every depth bound -/

theorem at2_table {α : Type} (R C : Nat) (f : Nat → Nat → α) (r c : Nat) :
    Board.at2 ((List.range R).map (fun r => (List.range C).map (fun c => f r c))) r c =
      if r < R ∧ c < C then some (f r c) else none := by
  unfold Board.at2
  by_cases hr : r < R
  · rw [List.getElem?_map, List.getElem?_range hr]
    simp only [Option.map_some']
    by_cases hc : c < C
    · rw [List.getElem?_map, List.getElem?_range hc, if_pos ⟨hr, hc⟩]
      rfl
    · rw [List.getElem?_eq_none (by simp; omega), if_neg (fun h => hc h.2)]
  · rw [List.getElem?_eq_none (by simp; omega), if_neg (fun h => hr h.1)]

theorem table_length {α : Type} (R C : Nat) (f : Nat → Nat → α) :
    ((List.range R).map (fun r => (List.range C).map (fun c => f r c))).length = R := by
  simp

theorem table_width {α : Type} (R C : Nat) (f : Nat → Nat → α) :
    ∀ l ∈ (List.range R).map (fun r => (List.range C).map (fun c => f r c)),
      l.length = C := by
  intro l hl
  obtain ⟨r, _, rfl⟩ := List.mem_map.1 hl
  simp

theorem staircase_wellFormed (n : Nat) (hn : 1 ≤ n) : WellFormed (staircase n) := by
  constructor
  · simp [staircase]
  · simp only [staircase]; omega
  · simp [staircase]
  · intro l hl
    have := table_width n (n + 1) (fun r c => if r = 0 ∧ c = 0 then 'A' else blank) l hl
    rw [this]
    simp only [staircase]
    omega
  · simp [staircase]
  · intro l hl
    have := table_width n (n + 2) (fun r c => decide (c ≠ r + 1)) l hl
    rw [this]
    simp only [staircase]
    omega
  · simp [staircase]
  · intro l hl
    have := table_width (n + 1) (n + 1) (fun i c => decide (c ≠ i ∨ i = 0 ∨ i = n)) l hl
    rw [this]
    simp only [staircase]
    omega
  · intro r hr
    have hr2 : r < n := by simpa [staircase] using hr
    simp only [staircase]
    rw [at2_table, if_pos ⟨hr2, by omega⟩]
    simp
  · intro r hr
    have hr2 : r < n := by simpa [staircase] using hr
    have hc : ((n : Int) + 1).toNat = n + 1 := by omega
    simp only [staircase]
    rw [hc, at2_table, if_pos ⟨hr2, by omega⟩]
    simp
    omega
  · intro c hc
    have hc2 : c < n + 1 := by
      simp only [staircase] at hc
      omega
    simp only [staircase]
    rw [at2_table, if_pos ⟨by omega, hc2⟩]
    simp
  · intro c hc
    have hc2 : c < n + 1 := by
      simp only [staircase] at hc
      omega
    simp only [staircase, Int.toNat_ofNat]
    rw [at2_table, if_pos ⟨by omega, hc2⟩]
    simp
  · rfl
  · intro p hp
    simp only [staircase, List.mem_singleton] at hp
    subst hp
    simp only [InGrid, staircase]
    omega
  · simp [staircase]

theorem onStair_start (n : Nat) (hn : 1 ≤ n) : OnStair n 0 (staircase n) :=
  ⟨by omega, staircase_wellFormed n hn, rfl, rfl, rfl, rfl, rfl, rfl⟩

/-- The walls around the cells of the path. -/
theorem stair_wall (n j d : Nat) (b : Board) (hb : OnStair n j b) (i : Nat)
    (hi : i < 2 * n) (hd : d < 4) :
    wallOnSide b (stairCell i) d = !stairOpen n i d := by
  obtain ⟨_, _, _, _, hv, hh, _, _⟩ := hb
  have e1 : (((i / 2 : Nat) : Int) + 1 - 1).toNat = i / 2 := by omega
  have e2 : ((((i + 1) / 2 : Nat) : Int) + 1 - 1).toNat = (i + 1) / 2 := by omega
  have e3 : (((i / 2 : Nat) : Int) + 1).toNat = i / 2 + 1 := by omega
  have e4 : ((((i + 1) / 2 : Nat) : Int) + 1).toNat = (i + 1) / 2 + 1 := by omega
  have hcases : d = 0 ∨ d = 1 ∨ d = 2 ∨ d = 3 := by omega
  rcases hcases with rfl | rfl | rfl | rfl
  · simp only [wallOnSide, stairCell, hh, staircase, e1, e2, stairOpen]
    rw [at2_table, if_pos ⟨by omega, by omega⟩]
    simp only [Option.getD_some]
    by_cases h1 : i % 2 = 0 ∧ 2 ≤ i
    · simp only [h1, and_self, decide_True, Bool.not_true, decide_eq_false_iff_not]
      omega
    · simp only [h1, decide_False, Bool.not_false, decide_eq_true_eq]
      omega
  · simp only [wallOnSide, stairCell, hv, staircase, e1, e4, stairOpen]
    rw [at2_table, if_pos ⟨by omega, by omega⟩]
    simp only [Option.getD_some]
    by_cases h1 : i % 2 = 0
    · simp only [h1, decide_True, Bool.not_true, decide_eq_false_iff_not]
      omega
    · simp only [h1, decide_False, Bool.not_false, decide_eq_true_eq]
      omega
  · simp only [wallOnSide, stairCell, hh, staircase, e3, e2, stairOpen]
    rw [at2_table, if_pos ⟨by omega, by omega⟩]
    simp only [Option.getD_some]
    by_cases h1 : i % 2 = 1 ∧ i + 2 < 2 * n
    · simp only [h1, and_self, decide_True, Bool.not_true, decide_eq_false_iff_not]
      omega
    · simp only [h1, decide_False, Bool.not_false, decide_eq_true_eq]
      omega
  · simp only [wallOnSide, stairCell, hv, staircase, e1, e2, stairOpen]
    rw [at2_table, if_pos ⟨by omega, by omega⟩]
    simp only [Option.getD_some]
    by_cases h1 : i % 2 = 1
    · simp only [h1, decide_True, Bool.not_true, decide_eq_false_iff_not]
      omega
    · simp only [h1, decide_False, Bool.not_false, decide_eq_true_eq]
      omega

theorem stair_next (n j d : Nat) (hj : j < 2 * n) (hd : d < 4)
    (ho : stairOpen n j d = true) :
    stairNext j d < 2 * n ∧ stairNext j d ≤ j + 1 ∧ stairOpen n (stairNext j d) d = false ∧
      (stairCell j).shift d ((1 : Nat) : Int) = stairCell (stairNext j d) := by
  have hcases : d = 0 ∨ d = 1 ∨ d = 2 ∨ d = 3 := by omega
  rcases hcases with rfl | rfl | rfl | rfl
  · simp only [stairOpen, decide_eq_true_eq] at ho
    refine ⟨by simp [stairNext]; omega, by simp [stairNext]; omega, ?_, ?_⟩
    · simp only [stairOpen, stairNext, decide_eq_false_iff_not]
      simp
      omega
    · simp only [Position.shift, stairCell, stairNext, Position.mk.injEq]
      simp
      omega
  · simp only [stairOpen, decide_eq_true_eq] at ho
    refine ⟨by simp [stairNext]; omega, by simp [stairNext], ?_, ?_⟩
    · simp only [stairOpen, stairNext, decide_eq_false_iff_not]
      simp
      omega
    · simp only [Position.shift, stairCell, stairNext, Position.mk.injEq]
      simp
      omega
  · simp only [stairOpen, decide_eq_true_eq] at ho
    refine ⟨by simp [stairNext]; omega, by simp [stairNext], ?_, ?_⟩
    · simp only [stairOpen, stairNext, decide_eq_false_iff_not]
      simp
      omega
    · simp only [Position.shift, stairCell, stairNext, Position.mk.injEq]
      simp
      omega
  · simp only [stairOpen, decide_eq_true_eq] at ho
    refine ⟨by simp [stairNext]; omega, by simp [stairNext]; omega, ?_, ?_⟩
    · simp only [stairOpen, stairNext, decide_eq_false_iff_not]
      simp
      omega
    · simp only [Position.shift, stairCell, stairNext, Position.mk.injEq]
      simp
      omega

theorem stair_blocked (n j : Nat) (b : Board) (hb : OnStair n j b) (q : Position) (d : Nat) :
    stepBlocked b 0 q d ↔ wallOnSide b q d = true := by
  obtain ⟨_, _, _, _, _, _, _, hpos⟩ := hb
  unfold stepBlocked otherRobotAt
  constructor
  · rintro (h | ⟨k, hk, hkp⟩)
    · exact h
    · rw [hpos] at hkp
      obtain ⟨k1, rfl⟩ : ∃ k1, k = k1 + 1 := ⟨k - 1, by omega⟩
      simp at hkp
  · exact fun h => Or.inl h

/-- A move on the staircase: through an open side the robot goes to the next cell of
the path and stops there; a side with a wall gives no move. -/
theorem stair_move (n j d : Nat) (b : Board) (hb : OnStair n j b) (hd : d < 4) :
    (stairOpen n j d = true →
      ∃ temp, b.moveRobot 0 d = some (true, temp) ∧ OnStair n (stairNext j d) temp) ∧
    (stairOpen n j d = false → b.moveRobot 0 d = some (false, b)) := by
  have hb2 := hb
  obtain ⟨hj, hwf, hrows, hcols, hv, hh, hrob, hpos⟩ := hb
  have hp : b.robot_positions[0]? = some (stairCell j) := by rw [hpos]; rfl
  obtain ⟨k, b1, hres, hsame, hwf1, hr1, hc1, hv1, hh1, hrob1, _, _, hpos1, hfree, hblk⟩ :=
    moveRobot_facts b hwf 0 d (stairCell j) hp hd
  constructor
  · intro ho
    obtain ⟨hnj, _, hclosed, hstep⟩ := stair_next n j d hj hd ho
    have hk0 : k ≠ 0 := by
      intro hk
      subst hk
      rw [shift_zero, stair_blocked n j b hb2, stair_wall n j d b hb2 j hj hd, ho] at hblk
      cases hblk
    have hk1 : k < 2 := by
      by_contra hk
      have := hfree 1 (by omega)
      apply this
      rw [hstep, stair_blocked n j b hb2, stair_wall n j d b hb2 _ hnj hd, hclosed]
      rfl
    have hk : k = 1 := by omega
    subst hk
    refine ⟨b1, ?_, hnj, hwf1, by rw [hr1, hrows], by rw [hc1, hcols], by rw [hv1, hv],
      by rw [hh1, hh], by rw [hrob1, hrob], ?_⟩
    · rw [hres]
      rfl
    · rw [hpos1, hpos, hstep]
      rfl
  · intro ho
    have hk : k = 0 := by
      by_contra hk
      have := hfree 0 (by omega)
      apply this
      rw [shift_zero, stair_blocked n j b hb2, stair_wall n j d b hb2 j hj hd, ho]
      rfl
    subst hk
    rw [hres, hsame rfl]
    rfl

/-- Whatever move changes a board of the staircase, the robot is then on a cell of the
path at most one further. -/
theorem stair_any_move (n j : Nat) (b : Board) (hb : OnStair n j b) (g c : Nat) (hc : c < 4)
    (temp : Board) (hm : b.moveRobot g c = some (true, temp)) :
    ∃ j1, j1 ≤ j + 1 ∧ OnStair n j1 temp := by
  have hg : g = 0 := by
    have := moveRobot_index b g c _ hm
    rw [hb.2.2.2.2.2.2.2] at this
    simpa using this
  subst hg
  obtain ⟨h1, h2⟩ := stair_move n j c b hb hc
  cases ho : stairOpen n j c with
  | true =>
    obtain ⟨temp2, hm2, hon⟩ := h1 ho
    rw [hm] at hm2
    obtain ⟨_, rfl⟩ := Prod.mk.inj (Option.some.inj hm2)
    exact ⟨stairNext j c, (stair_next n j c hb.1 hc ho).2.1, hon⟩
  | false =>
    rw [h2 ho] at hm
    cases (Prod.mk.inj (Option.some.inj hm)).1

theorem stair_reach (n : Nat) (f b : Board) (k : Nat) (hr : ReachIn f k b) :
    ∀ j, OnStair n j f → ∃ j1, j1 ≤ j + k ∧ OnStair n j1 b := by
  induction hr with
  | here f => exact fun j hj => ⟨j, by omega, hj⟩
  | step f1 t1 b g1 c1 k hc1 hm1 _ ih =>
    intro j hj
    obtain ⟨j1, hj1, hon⟩ := stair_any_move n j f1 hj g1 c1 hc1 t1 hm1
    obtain ⟨j2, hj2, hon2⟩ := ih j1 hon
    exact ⟨j2, by omega, hon2⟩

theorem stairCell_inj (i j : Nat) (h : stairCell i = stairCell j) : i = j := by
  simp only [stairCell, Position.mk.injEq] at h
  omega

/-- The cell number `j` of the path is not occupied after fewer than `j` moves. -/
theorem stair_lower_bound (n : Nat) (hn : 1 ≤ n) (j m : Nat)
    (hocc : OccupiedAfter (staircase n) m (stairCell j)) : j ≤ m := by
  obtain ⟨b, g, hrb, hg, hpos⟩ := hocc
  obtain ⟨j1, hj1, hon⟩ := stair_reach n _ b m hrb 0 (onStair_start n hn)
  have hg0 : g = 0 := by
    unfold Board.numRobots at hg
    rw [hon.2.2.2.2.2.2.1] at hg
    simpa using hg
  subst hg0
  unfold Board.getRobotPosition at hpos
  rw [hon.2.2.2.2.2.2.2] at hpos
  have : stairCell j1 = stairCell j := by simpa using hpos
  have := stairCell_inj _ _ this
  omega

/-- Going forward from the cell number `j` of the path, the robot is on the cell number
`j + k` after `k` moves. -/
theorem stair_forward (n : Nat) (k : Nat) :
    ∀ (j : Nat) (f : Board), OnStair n j f → j + k < 2 * n →
      ∃ b, ReachIn f k b ∧ OnStair n (j + k) b := by
  induction k with
  | zero => exact fun j f hf _ => ⟨f, ReachIn.here f, hf⟩
  | succ k ih =>
    intro j f hf hjk
    have ho : stairOpen n j (if j % 2 = 0 then 1 else 2) = true := by
      by_cases hpar : j % 2 = 0
      · rw [if_pos hpar]
        simp [stairOpen, hpar]
      · rw [if_neg hpar]
        simp only [stairOpen, decide_eq_true_eq]
        omega
    have hd : (if j % 2 = 0 then 1 else 2) < 4 := by split <;> omega
    obtain ⟨temp, hm, hon⟩ := (stair_move n j _ f hf hd).1 ho
    have hnext : stairNext j (if j % 2 = 0 then 1 else 2) = j + 1 := by
      unfold stairNext
      split <;> simp
    rw [hnext] at hon
    obtain ⟨b, hrb, hob⟩ := ih (j + 1) temp hon (by omega)
    refine ⟨b, ReachIn.step f temp b 0 _ k hd hm hrb, ?_⟩
    have : j + 1 + k = j + (k + 1) := by omega
    rw [← this]
    exact hob

/-! ## The reachability map of the staircase -/

theorem forEach_cons_some {α σ : Type} (body : α → σ → Option σ) (x : α) (xs : List α)
    (s s1 : σ) (h : forEach body (x :: xs) s = some s1) :
    ∃ s2, body x s = some s2 ∧ forEach body xs s2 = some s1 := by
  unfold forEach at h
  cases hb : body x s with
  | none => rw [hb] at h; cases h
  | some s2 =>
    rw [hb] at h
    exact ⟨s2, rfl, h⟩

theorem forEach_nil_some {α σ : Type} (body : α → σ → Option σ) (s s1 : σ)
    (h : forEach body [] s = some s1) : s1 = s :=
  (Option.some.inj h).symm

theorem exploreBody_none (maxdepth : Nat)
    (recurse : Board → List (List Int) → Nat → Option (List (List Int))) (f : Board)
    (g c : Nat) (temp : Board) (hg : g < f.numRobots) (hc : c < 4)
    (hm : f.moveRobot g c = some (true, temp)) (d : Nat) (hd : d ≤ maxdepth)
    (hrec : ∀ h3, recurse temp h3 ((d + 1) % 4294967296) = none) (h : List (List Int)) :
    exploreBody maxdepth recurse f h d = none := by
  unfold exploreBody
  cases (if d = 0 then freshGrid f else some h) with
  | none => rfl
  | some h0 =>
    simp only
    rw [if_pos hd]
    apply forEach_none _ _ g (List.mem_range.2 hg)
    intro t
    apply forEach_none _ _ c (by simp; omega)
    intro u
    exact visit_none _ f d g c temp hm hrec u

/-- One level of the recursion on the way to a cell: when the recursive call on the
board after the move of robot `g` in direction `c` ends with the stored `maxdepth` in
the cell, so does this activation. -/
theorem exploreBody_forward (f0 : Board) (maxdepth r c0 : Nat) (hmax : maxdepth < 4294967295)
    (hmin : ∀ m, OccupiedAfter f0 m ⟨(r : Int) + 1, (c0 : Int) + 1⟩ → maxdepth ≤ m)
    (recurse : Board → List (List Int) → Nat → Option (List (List Int))) (f : Board) (d : Nat)
    (hd : d ≤ maxdepth) (hreach : ReachIn f0 d f)
    (hrecW : ∀ temp h3 h4, ReachIn f0 (d + 1) temp → GridWrapped f0 maxdepth h3 →
      recurse temp h3 (d + 1) = some h4 → GridWrapped f0 maxdepth h4)
    (hrecH : ∀ temp h3 h4, ReachIn f0 (d + 1) temp → HoldsLast maxdepth h3 r c0 →
      recurse temp h3 (d + 1) = some h4 → HoldsLast maxdepth h4 r c0)
    (g c : Nat) (temp : Board) (hg : g < f.numRobots) (hc : c < 4)
    (hm : f.moveRobot g c = some (true, temp))
    (hE : ∀ h3 h4, GridWrapped f0 maxdepth h3 → recurse temp h3 (d + 1) = some h4 →
      HoldsLast maxdepth h4 r c0)
    (h h0 h1 : List (List Int)) (hs : (if d = 0 then freshGrid f else some h) = some h0)
    (hok : GridWrapped f0 maxdepth h0)
    (he : exploreBody maxdepth recurse f h d = some h1) : HoldsLast maxdepth h1 r c0 := by
  unfold exploreBody at he
  rw [hs] at he
  simp only at he
  rw [if_pos hd, succ_in_range maxdepth d hmax hd] at he
  have hvW : ∀ g1, g1 < f.numRobots → ∀ c1 ∈ [0, 1, 2, 3], ∀ t t1,
      GridWrapped f0 maxdepth t →
      visit (fun temp h3 => recurse temp h3 (d + 1)) f d g1 c1 t = some t1 →
      GridWrapped f0 maxdepth t1 :=
    fun g1 hg1 c1 hc1 t t1 ht hv =>
      visit_kept f0 maxdepth (GridWrapped f0 maxdepth)
        (fun h h1 cell d hd hocc hp hr =>
          record_wrapped f0 maxdepth h h1 cell d hd hocc hp hr)
        _ f d hd hreach hrecW g1 c1 hg1 (by simp at hc1; omega) t t1 ht hv
  have hvH : ∀ g1, g1 < f.numRobots → ∀ c1 ∈ [0, 1, 2, 3], ∀ t t1,
      HoldsLast maxdepth t r c0 →
      visit (fun temp h3 => recurse temp h3 (d + 1)) f d g1 c1 t = some t1 →
      HoldsLast maxdepth t1 r c0 :=
    fun g1 hg1 c1 hc1 t t1 ht hv =>
      visit_kept f0 maxdepth (fun t => HoldsLast maxdepth t r c0)
        (fun h h1 cell d hd hocc hp hr =>
          record_holdsLast f0 maxdepth r c0 hmin h h1 cell d hd hocc hp hr)
        _ f d hd hreach hrecH g1 c1 hg1 (by simp at hc1; omega) t t1 ht hv
  refine forEach_establish_inv _ (GridWrapped f0 maxdepth)
    (fun t => HoldsLast maxdepth t r c0) _ ?_ ?_ g (List.mem_range.2 hg) ?_ h0 h1 hok he
  · intro g1 hg1 t t1 ht hb
    exact forEach_inv _ (GridWrapped f0 maxdepth) _
      (hvW g1 (List.mem_range.1 hg1)) t t1 ht hb
  · intro g1 hg1 t t1 _ ht hb
    exact forEach_inv _ (fun t => HoldsLast maxdepth t r c0) _
      (hvH g1 (List.mem_range.1 hg1)) t t1 ht hb
  · intro t t1 ht hb
    refine forEach_establish_inv _ (GridWrapped f0 maxdepth)
      (fun t => HoldsLast maxdepth t r c0) _
      (hvW g hg) (fun c1 hc1 u u1 _ hu hv => hvH g hg c1 hc1 u u1 hu hv) c
      (by simp; omega) ?_ t t1 ht hb
    intro u u1 hu hv
    obtain ⟨curbot, h2, hpos, hr, hcase⟩ := visit_cases _ f d g c u u1 hv
    have hw2 : GridWrapped f0 maxdepth h2 :=
      record_wrapped f0 maxdepth u h2 curbot d hd ⟨f, g, hreach, hg, hpos⟩ hu hr
    rcases hcase with ⟨temp2, hm2, hrc⟩ | ⟨b, hm2, _⟩
    · rw [hm] at hm2
      obtain ⟨_, rfl⟩ := Prod.mk.inj (Option.some.inj hm2)
      exact hE h2 u1 hw2 hrc
    · rw [hm] at hm2
      cases (Prod.mk.inj (Option.some.inj hm2)).1

theorem stair_level2 (n M : Nat) (hM3 : 3 ≤ M) (hMn : M < 2 * n) (hmax : M < 4294967295)
    (hne : M ≠ 2147483647) (levels : Nat) (b2 : Board) (h h1 : List (List Int))
    (hon : OnStair n 2 b2) (hreach : ReachIn (staircase n) 2 b2)
    (hok : GridWrapped (staircase n) M h) (he : explore M levels b2 h 2 = some h1) :
    HoldsLast M h1 (M / 2) ((M + 1) / 2) := by
  have hn1 : 1 ≤ n := by omega
  have hf0 := staircase_wellFormed n hn1
  have hmin : ∀ m, OccupiedAfter (staircase n) m
      ⟨((M / 2 : Nat) : Int) + 1, (((M + 1) / 2 : Nat) : Int) + 1⟩ → M ≤ m :=
    fun m ho => stair_lower_bound n hn1 M m ho
  obtain ⟨tN, hmN, honN⟩ := (stair_move n 2 0 b2 hon (by omega)).1 (by simp [stairOpen])
  obtain ⟨b3, hmE, hon3⟩ := (stair_move n 2 1 b2 hon (by omega)).1 (by simp [stairOpen])
  have hnext : stairNext 2 1 = 3 := rfl
  rw [hnext] at hon3
  have hnum : b2.numRobots = 1 := by
    unfold Board.numRobots
    rw [hon.2.2.2.2.2.2.1]
    rfl
  have hg : 0 < b2.numRobots := by omega
  cases levels with
  | zero =>
    have hnone := exploreBody_none M (fun _ _ _ => none) b2 0 0 tN hg (by omega) hmN 2
      (by omega) (fun _ => rfl) h
    have he2 : exploreBody M (fun _ _ _ => none) b2 h 2 = some h1 := he
    rw [hnone] at he2
    cases he2
  | succ n1 =>
    have he2 : exploreBody M (explore M n1) b2 h 2 = some h1 := he
    unfold exploreBody at he2
    have hs : (if (2 : Nat) = 0 then freshGrid b2 else some h) = some h := if_neg (by omega)
    rw [hs] at he2
    simp only at he2
    rw [if_pos (by omega), succ_in_range M 2 hmax (by omega), hnum] at he2
    have hr1 : List.range 1 = [0] := rfl
    rw [hr1] at he2
    obtain ⟨s4, hinner, hnil⟩ := forEach_cons_some _ 0 [] h h1 he2
    have hs4 := forEach_nil_some _ _ _ hnil
    rw [hs4]
    obtain ⟨s1, hv0, hrest1⟩ := forEach_cons_some _ 0 [1, 2, 3] h _ hinner
    obtain ⟨s2, hv1, hrest2⟩ := forEach_cons_some _ 1 [2, 3] s1 _ hrest1
    have hswept : GridSwept (staircase n) M s1 := by
      obtain ⟨curbot, h2, hpos, hr, hcase⟩ := visit_cases _ b2 2 0 0 h s1 hv0
      have hw2 : GridWrapped (staircase n) M h2 :=
        record_wrapped _ M h h2 curbot 2 (by omega) ⟨b2, 0, hreach, hg, hpos⟩ hok hr
      rcases hcase with ⟨temp2, hm2, hrc⟩ | ⟨b, hm2, _⟩
      · rw [hmN] at hm2
        obtain ⟨_, rfl⟩ := Prod.mk.inj (Option.some.inj hm2)
        obtain ⟨hwt, hmt⟩ := mobile_of_move b2 hon.2.1 0 0 (by omega) tN hmN
        exact explore_swept _ M hmax n1 tN h2 h2 s1 3
          (reachIn_snoc _ b2 tN 2 0 0 hreach (by omega) hmN) (if_neg (by omega)) hw2 hwt hmt
          hrc
      · rw [hmN] at hm2
        cases (Prod.mk.inj (Option.some.inj hm2)).1
    have hlast : HoldsLast M s2 (M / 2) ((M + 1) / 2) := by
      obtain ⟨curbot, h2, hpos, hr, hcase⟩ := visit_cases _ b2 2 0 1 s1 s2 hv1
      have hs2 : GridSwept (staircase n) M h2 :=
        record_swept _ M s1 h2 curbot 2 (by omega) ⟨b2, 0, hreach, hg, hpos⟩ hswept hr
      rcases hcase with ⟨temp2, hm2, hrc⟩ | ⟨b, hm2, _⟩
      · rw [hmE] at hm2
        obtain ⟨_, rfl⟩ := Prod.mk.inj (Option.some.inj hm2)
        obtain ⟨b, hpath, honb⟩ := stair_forward n (M - 3) 3 b3 hon3 (by omega)
        have hM : 3 + (M - 3) = M := by omega
        rw [hM] at honb
        have hgb : 0 < b.numRobots := by
          unfold Board.numRobots
          rw [honb.2.2.2.2.2.2.1]
          exact Nat.zero_lt_one
        have hposb : b.getRobotPosition 0 =
            some ⟨((M / 2 : Nat) : Int) + 1, (((M + 1) / 2 : Nat) : Int) + 1⟩ := by
          unfold Board.getRobotPosition
          rw [honb.2.2.2.2.2.2.2]
          rfl
        exact explore_reaches _ hf0 M _ _ hmax hne hmin n1 b3 h2 s2 3 (M - 3) b 0
          (reachIn_snoc _ b2 b3 2 0 1 hreach (by omega) hmE) (by omega) hs2 hpath hM hgb hposb
          hrc
      · rw [hmE] at hm2
        cases (Prod.mk.inj (Option.some.inj hm2)).1
    refine forEach_inv _ (fun t => HoldsLast M t (M / 2) ((M + 1) / 2)) [2, 3] ?_ s2 s4 hlast
      hrest2
    intro c1 hc1 t t1 ht hv
    refine visit_kept _ M (fun t => HoldsLast M t (M / 2) ((M + 1) / 2))
      (fun h h1 cell d hd hocc hp hr =>
        record_holdsLast _ M _ _ hmin h h1 cell d hd hocc hp hr)
      _ b2 2 (by omega) hreach ?_ 0 c1 hg (by simp at hc1; omega) t t1 ht hv
    intro temp h3 h4 hr3 hp3 hrc
    exact explore_keeps_last _ M _ _ hmax hne hmin n1 temp h3 h4 3 hr3 (by omega) hp3 hrc

theorem stair_level1 (n M : Nat) (hM3 : 3 ≤ M) (hMn : M < 2 * n) (hmax : M < 4294967295)
    (hne : M ≠ 2147483647) (levels : Nat) (b1 : Board) (h h1 : List (List Int))
    (hon : OnStair n 1 b1) (hreach : ReachIn (staircase n) 1 b1)
    (hok : GridWrapped (staircase n) M h) (he : explore M levels b1 h 1 = some h1) :
    HoldsLast M h1 (M / 2) ((M + 1) / 2) := by
  have hn1 : 1 ≤ n := by omega
  have hmin : ∀ m, OccupiedAfter (staircase n) m
      ⟨((M / 2 : Nat) : Int) + 1, (((M + 1) / 2 : Nat) : Int) + 1⟩ → M ≤ m :=
    fun m ho => stair_lower_bound n hn1 M m ho
  obtain ⟨b2, hmS, hon2⟩ := (stair_move n 1 2 b1 hon (by omega)).1
    (by simp [stairOpen]; omega)
  have hnext : stairNext 1 2 = 2 := rfl
  rw [hnext] at hon2
  have hg : 0 < b1.numRobots := by
    unfold Board.numRobots
    rw [hon.2.2.2.2.2.2.1]
    exact Nat.zero_lt_one
  cases levels with
  | zero =>
    have hnone := exploreBody_none M (fun _ _ _ => none) b1 0 2 b2 hg (by omega) hmS 1
      (by omega) (fun _ => rfl) h
    have he2 : exploreBody M (fun _ _ _ => none) b1 h 1 = some h1 := he
    rw [hnone] at he2
    cases he2
  | succ n1 =>
    have he2 : exploreBody M (explore M n1) b1 h 1 = some h1 := he
    refine exploreBody_forward _ M _ _ hmax hmin _ b1 1 (by omega) hreach ?_ ?_ 0 2 b2 hg
      (by omega) hmS ?_ h h h1 (if_neg (by omega)) hok he2
    · intro temp h3 h4 hr3 hp3 hrc
      exact explore_wrapped _ M hmax n1 temp h3 h3 h4 2 hr3 (if_neg (by omega)) hp3 hrc
    · intro temp h3 h4 hr3 hp3 hrc
      exact explore_keeps_last _ M _ _ hmax hne hmin n1 temp h3 h4 2 hr3 (by omega) hp3 hrc
    · intro h3 h4 hp3 hrc
      exact stair_level2 n M hM3 hMn hmax hne n1 b2 h3 h4 hon2
        (reachIn_snoc _ b1 b2 1 0 2 hreach (by omega) hmS) hp3 hrc

/-- The map of the staircase: with a depth bound `M` of at least 3 the cell number `M` of
the path, which the robot first reaches after `M` moves, ends with the `int` stored for
`M`. The first branch of the traversal goes back and forth between the cells number 1
and 2 down to depth `M + 1`, where the sweep runs, before the branch along the path
records depth `M`. -/
theorem staircase_last (n M : Nat) (hM3 : 3 ≤ M) (hMn : M < 2 * n) (hmax : M < 4294967295)
    (hne : M ≠ 2147483647) (h : List (List Int)) :
    ∃ h1, getAccessibility (staircase n) h M 0 = some h1 ∧
      GridSize n (n + 1) h1 ∧ Board.at2 h1 (M / 2) ((M + 1) / 2) = some (asInt M) := by
  have hn1 : 1 ≤ n := by omega
  have hf0 := staircase_wellFormed n hn1
  have hmin : ∀ m, OccupiedAfter (staircase n) m
      ⟨((M / 2 : Nat) : Int) + 1, (((M + 1) / 2 : Nat) : Int) + 1⟩ → M ≤ m :=
    fun m ho => stair_lower_bound n hn1 M m ho
  obtain ⟨h1, he, hsize⟩ := explore_returns M hmax (M + 1) (staircase n) h 0 (by omega) hf0
    (fun h0 => absurd rfl h0)
  have hsize2 : GridSize n (n + 1) h1 := by
    have e1 : (staircase n).rows.toNat = n := by simp [staircase]
    have e2 : (staircase n).cols.toNat = n + 1 := by
      simp only [staircase]
      omega
    rw [e1, e2] at hsize
    exact hsize
  refine ⟨h1, he, hsize2, ?_⟩
  have hon := onStair_start n hn1
  obtain ⟨b1, hmE, hon1⟩ := (stair_move n 0 1 _ hon (by omega)).1 (by simp [stairOpen])
  have hnext : stairNext 0 1 = 1 := rfl
  rw [hnext] at hon1
  have hg : 0 < (staircase n).numRobots := Nat.zero_lt_one
  have hfresh : ∃ h0, freshGrid (staircase n) = some h0 := by
    unfold freshGrid Board.getRows Board.getCols
    rw [if_pos ⟨hf0.rows_nonneg, hf0.cols_nonneg⟩]
    exact ⟨_, rfl⟩
  obtain ⟨h0, hh0⟩ := hfresh
  have he2 : exploreBody M (explore M M) (staircase n) h 0 = some h1 := he
  refine exploreBody_forward _ M _ _ hmax hmin _ _ 0 (by omega) (ReachIn.here _) ?_ ?_ 0 1 b1
    hg (by omega) hmE ?_ h h0 h1 (by rw [if_pos rfl]; exact hh0)
    (freshGrid_wrapped _ M _ h0 hh0) he2
  · intro temp h3 h4 hr3 hp3 hrc
    exact explore_wrapped _ M hmax M temp h3 h3 h4 1 hr3 (if_neg (by omega)) hp3 hrc
  · intro temp h3 h4 hr3 hp3 hrc
    exact explore_keeps_last _ M _ _ hmax hne hmin M temp h3 h4 1 hr3 (by omega) hp3 hrc
  · intro h3 h4 hp3 hrc
    exact stair_level1 n M hM3 hMn hmax hne M b1 h3 h4 hon1
      (reachIn_snoc _ _ b1 0 0 1 (ReachIn.here _) (by omega) hmE) hp3 hrc

/-- The staircase of 1073741825 rows at the depth bound 2147483648: the call returns a
map, and the cell (1073741825, 1073741825), which the robot first reaches after
2147483648 moves, holds -2147483648 in it. -/
theorem staircase_wrapped_entry (h : List (List Int)) :
    ∃ h1, getAccessibility (staircase 1073741825) h 2147483648 0 = some h1 ∧
      Board.at2 h1 1073741824 1073741824 = some (-2147483648) := by
  obtain ⟨h1, he, _, hat⟩ :=
    staircase_last 1073741825 2147483648 (by omega) (by omega) (by omega) (by omega) h
  refine ⟨h1, he, ?_⟩
  have e3 : asInt 2147483648 = -2147483648 := by
    unfold asInt
    norm_num
  rw [e3] at hat
  exact hat

theorem staircase_last_cell :
    stairCell 2147483648 = ⟨1073741825, 1073741825⟩ := by
  unfold stairCell
  norm_num

theorem staircase_occupied :
    OccupiedAfter (staircase 1073741825) 2147483648 ⟨1073741825, 1073741825⟩ := by
  obtain ⟨b, hpath, hon⟩ :=
    stair_forward 1073741825 2147483648 0 _ (onStair_start 1073741825 (by omega)) (by omega)
  have h0 : 0 + 2147483648 = 2147483648 := by omega
  rw [h0] at hon
  refine ⟨b, 0, hpath, ?_, ?_⟩
  · unfold Board.numRobots
    rw [hon.2.2.2.2.2.2.1]
    exact Nat.zero_lt_one
  · unfold Board.getRobotPosition
    rw [hon.2.2.2.2.2.2.2, staircase_last_cell]
    rfl

theorem staircase_not_earlier (j : Nat)
    (hocc : OccupiedAfter (staircase 1073741825) j ⟨1073741825, 1073741825⟩) :
    2147483648 ≤ j := by
  rw [← staircase_last_cell] at hocc
  exact stair_lower_bound 1073741825 (by omega) 2147483648 j hocc

theorem staircase_mobile (n : Nat) (hn : 1 ≤ n) : Mobile (staircase n) := by
  obtain ⟨b1, hm, _⟩ :=
    (stair_move n 0 1 _ (onStair_start n hn) (by omega)).1 (by simp [stairOpen])
  exact ⟨0, 1, b1, by omega, hm⟩

/-! ## Claims -/

/-- C1. Slide resolution: on a well-formed board, for every robot index `i` and every
direction `d` in `0..3`, `moveRobot(i, d)` succeeds and leaves robot `i` on the farthest
cell reachable from its start cell by single steps in direction `d` none of which
crosses a wall or enters a cell held by another robot (`k` free steps, the next one
blocked); this is the result of the reference slide, take one step while the next step
is not blocked, for every budget of steps that covers the grid. -/
theorem moveRobot_is_reference_slide (b : Board) (hb : WellFormed b) (i d : Nat)
    (hi : i < b.numRobots) (hd : d < 4) :
    ∃ p r b1, b.getRobotPosition i = some p ∧ b.moveRobot i d = some (r, b1) ∧
      (∀ fuel, (b.rows + b.cols).toNat ≤ fuel →
        b1.getRobotPosition i = some (slideRef b i d fuel p)) ∧
      ∃ k : Nat, b1.getRobotPosition i = some (p.shift d k) ∧
        (∀ j : Nat, j < k → ¬ stepBlocked b i (p.shift d j) d) ∧
        stepBlocked b i (p.shift d k) d := by
  obtain ⟨p, hp⟩ := position_of_index b hb i hi
  obtain ⟨k, b1, hres, _, hwf, hr, hc, _, _, _, _, _, hpos, hfree, hblk⟩ :=
    moveRobot_facts b hb i d p hp hd
  have hlt := index_lt_of_position b i p hp
  have hq : b1.getRobotPosition i = some (p.shift d k) := by
    unfold Board.getRobotPosition
    rw [hpos, List.getElem?_set_self hlt]
  refine ⟨p, _, b1, hp, hres, ?_, k, hq, hfree, hblk⟩
  intro fuel hfuel
  have hin : InGrid b (p.shift d k) := by
    have := position_inside b1 hwf i _ hq
    unfold InGrid at this ⊢
    rwa [hr, hc] at this
  have hk := shift_bound b p d k (position_inside b hb i p hp) hin
  rw [hq, slideRef_eq b i d k fuel p hfree hblk (by omega)]

theorem moveRobot_is_reference_slide_witness :
    (WellFormed sampleTwo ∧ 0 < sampleTwo.numRobots ∧ 1 < 4) ∧
    (∃ p r b1, sampleTwo.getRobotPosition 0 = some p ∧
      sampleTwo.moveRobot 0 1 = some (r, b1) ∧
      (∀ fuel, (sampleTwo.rows + sampleTwo.cols).toNat ≤ fuel →
        b1.getRobotPosition 0 = some (slideRef sampleTwo 0 1 fuel p)) ∧
      ∃ k : Nat, b1.getRobotPosition 0 = some (p.shift 1 k) ∧
        (∀ j : Nat, j < k → ¬ stepBlocked sampleTwo 0 (p.shift 1 j) 1) ∧
        stepBlocked sampleTwo 0 (p.shift 1 k) 1) ∧
    (sampleTwo.moveRobot 0 1).map (fun x => (x.1, x.2.robot_positions)) =
      some (true, [⟨1, 2⟩, ⟨1, 3⟩]) ∧
    slideRef sampleTwo 0 1 10 ⟨1, 1⟩ = ⟨1, 2⟩ ∧
    (sampleOne.moveRobot 0 1).map (fun x => (x.1, x.2.robot_positions)) =
      some (true, [⟨1, 5⟩]) ∧
    slideRef sampleOne 0 1 10 ⟨1, 1⟩ = ⟨1, 5⟩ :=
  ⟨⟨sampleTwo_wellFormed, by decide, by decide⟩,
    moveRobot_is_reference_slide sampleTwo sampleTwo_wellFormed 0 1 (by decide) (by decide),
    by decide, by decide, by decide, by decide⟩

/-- C2. On a well-formed board, for robot `i` and direction `d` in `0..3`,
`moveRobot(i, d)` returns `false` exactly when the first step of robot `i` in direction
`d` is blocked (a wall, which includes the border, or a robot in the adjacent cell), and
then the whole board is unchanged; it returns `true` exactly when the position of robot
`i` has changed. A first step that would leave the grid is blocked. -/
theorem moveRobot_false_iff_first_step_blocked (b : Board) (hb : WellFormed b) (i d : Nat)
    (hi : i < b.numRobots) (hd : d < 4) :
    ∃ p r b1, b.getRobotPosition i = some p ∧ b.moveRobot i d = some (r, b1) ∧
      (r = false ↔ stepBlocked b i p d) ∧ (r = false → b1 = b) ∧
      (r = true ↔ b1.getRobotPosition i ≠ some p) ∧
      (¬ InGrid b (p.step d) → r = false) := by
  obtain ⟨p, hp⟩ := position_of_index b hb i hi
  obtain ⟨k, b1, hres, hsame, _, _, _, _, _, _, _, _, hpos, hfree, hblk⟩ :=
    moveRobot_facts b hb i d p hp hd
  have hlt := index_lt_of_position b i p hp
  have hq : b1.getRobotPosition i = some (p.shift d k) := by
    unfold Board.getRobotPosition
    rw [hpos, List.getElem?_set_self hlt]
  have hiff : decide (0 < k) = false ↔ stepBlocked b i p d := by
    constructor
    · intro h
      have hk : k = 0 := by simpa using h
      subst hk
      rwa [shift_zero] at hblk
    · intro h
      by_contra hne
      have hk : 0 < k := by
        rcases Nat.eq_zero_or_pos k with h0 | h0
        · exact absurd (by simp [h0]) hne
        · exact h0
      have := hfree 0 hk
      rw [shift_zero] at this
      exact this h
  refine ⟨p, _, b1, hp, hres, hiff, ?_, ?_, ?_⟩
  · intro h
    exact hsame (by simpa using h)
  · rw [hq]
    constructor
    · intro h
      have hk : k ≠ 0 := by
        have : 0 < k := by simpa using h
        omega
      exact fun he => shift_ne p d k hk (Option.some.inj he)
    · intro h
      by_contra hne
      have hk : k = 0 := by simpa using hne
      subst hk
      rw [shift_zero] at h
      exact h rfl
  · intro hout
    apply hiff.2
    left
    have hin := position_inside b hb i p hp
    obtain ⟨h1, h2, h3, h4⟩ := wall_at_border b hb p hin
    obtain ⟨p1, p2, p3, p4⟩ := hin
    have hd4 : d = 0 ∨ d = 1 ∨ d = 2 ∨ d = 3 := by omega
    unfold InGrid Position.step Position.shift at hout
    rcases hd4 with rfl | rfl | rfl | rfl
    · simp only at hout
      exact h1 (by omega)
    · simp only at hout
      exact h2 (by omega)
    · simp only at hout
      exact h3 (by omega)
    · simp only at hout
      exact h4 (by omega)

theorem moveRobot_false_iff_first_step_blocked_witness :
    (WellFormed sampleTwo ∧ 1 < sampleTwo.numRobots ∧ 0 < 4) ∧
    (∃ p r b1, sampleTwo.getRobotPosition 1 = some p ∧
      sampleTwo.moveRobot 1 0 = some (r, b1) ∧
      (r = false ↔ stepBlocked sampleTwo 1 p 0) ∧ (r = false → b1 = sampleTwo) ∧
      (r = true ↔ b1.getRobotPosition 1 ≠ some p) ∧
      (¬ InGrid sampleTwo (p.step 0) → r = false)) ∧
    sampleTwo.moveRobot 1 0 = some (false, sampleTwo) ∧
    (sampleTwo.moveRobot 1 3).map (fun x => (x.1, x.2.robot_positions)) =
      some (true, [⟨1, 1⟩, ⟨1, 2⟩]) :=
  ⟨⟨sampleTwo_wellFormed, by decide, by decide⟩,
    moveRobot_false_iff_first_step_blocked sampleTwo sampleTwo_wellFormed 1 0
      (by decide) (by decide),
    by decide, by decide⟩

/-- C3, evaluated at the failing input. On the 5 x 5 board with robot `A` at (5,1),
`canMoveRobot(0, 1)` is `false` (its case 1 looks at the row below, and row 5 is the
last), yet `moveRobot(0, 1)` returns `true` and slides the robot east to (5,5): the two
functions read the direction code 1 differently. -/
theorem canMoveRobot_disagrees_with_moveRobot :
    sampleCorner.canMoveRobot 0 1 = some false ∧
    (sampleCorner.moveRobot 0 1).map (fun x => (x.1, x.2.robot_positions)) =
      some (true, [⟨5, 5⟩]) ∧
    sampleCorner.robot_positions = [⟨5, 1⟩] := by
  decide

/-- C4. A slide never stops mid-way: on a well-formed board, if `moveRobot(i, d)` with
`d` in `0..3` returns `true`, then in the resulting board robot `i` is blocked on side
`d` (a wall, which includes the border, or another robot in the adjacent cell), and a
second `moveRobot(i, d)` returns `false` and leaves that board as it is. -/
theorem moveRobot_rests_blocked (b : Board) (hb : WellFormed b) (i d : Nat) (hd : d < 4)
    (b1 : Board) (h : b.moveRobot i d = some (true, b1)) :
    ∃ q, b1.getRobotPosition i = some q ∧ stepBlocked b1 i q d ∧
      b1.moveRobot i d = some (false, b1) :=
  (moveRobot_again b hb i d hd b1 h).2

theorem moveRobot_rests_blocked_witness :
    (WellFormed sampleTwo ∧ 1 < 4 ∧
      sampleTwo.moveRobot 0 1 = some (true, (sampleTwo.executeCommand ⟨'A', 1, none⟩).getD noBoard)) ∧
    ∃ q, ((sampleTwo.executeCommand ⟨'A', 1, none⟩).getD noBoard).getRobotPosition 0 = some q ∧
      stepBlocked ((sampleTwo.executeCommand ⟨'A', 1, none⟩).getD noBoard) 0 q 1 ∧
      ((sampleTwo.executeCommand ⟨'A', 1, none⟩).getD noBoard).moveRobot 0 1 =
        some (false, (sampleTwo.executeCommand ⟨'A', 1, none⟩).getD noBoard) :=
  ⟨⟨sampleTwo_wellFormed, by decide, by decide⟩,
    moveRobot_rests_blocked sampleTwo sampleTwo_wellFormed 0 1 (by decide) _ (by decide)⟩

/-- C5. Soundness of `findPath`: on a board with pairwise distinct robot names, for
every depth (the sentinel `-1` included), if `findPath(c, path, depth)` called with an
empty path returns `true`, then executing the commands of `path` from the last element
to the first with `executeCommand`, as `main` replays them, succeeds and ends on a board
that passes the goal test of `findPath`. -/
theorem findPath_sound (c : Board) (hn : c.robots.Nodup) (depth : Int) (last : command)
    (path : List command) (h : findPath c [] depth last = some (true, path)) :
    ∃ b1, replay c path.reverse = some b1 ∧ goalReached b1 = some true := by
  obtain ⟨cmds, hp, _, hrep⟩ := (findPathFrom_result _ c [] last true path h).2 rfl
  rw [List.nil_append] at hp
  subst hp
  exact hrep hn

theorem findPath_sound_witness :
    (sampleSmall.robots.Nodup ∧
      findPath sampleSmall [] (-1) command.default =
        some (true, [⟨'A', 3, none⟩, ⟨'A', 2, none⟩, ⟨'A', 1, none⟩])) ∧
    ∃ b1, replay sampleSmall [⟨'A', 3, none⟩, ⟨'A', 2, none⟩, ⟨'A', 1, none⟩].reverse = some b1 ∧
      goalReached b1 = some true :=
  ⟨⟨by decide, by decide⟩,
    findPath_sound sampleSmall (by decide) (-1) command.default _ (by decide)⟩

/-- C6. Completeness of `findPath`: on a playable board, if some sequence of at most `k`
commands applied with `executeCommand` reaches a board that passes the goal test, then
`findPath(c, path, k)` called with an empty path returns `true` and the path holds at
most `k` commands. -/
theorem findPath_complete (c : Board) (hc : Playable c) (k : Nat) (hs : SolvableWithin c k) :
    ∃ path, findPath c [] (k : Int) command.default = some (true, path) ∧ path.length ≤ k := by
  have hk : (if (k : Int) = -1 then c.getCols * c.getRows else (k : Int)).toNat = k := by
    rw [if_neg (by omega)]
    simp
  obtain ⟨p1, hp1⟩ := findPathFrom_complete k c [] command.default hc (pruneSafe_default c) hs
  refine ⟨p1, ?_, ?_⟩
  · unfold findPath
    rw [hk]
    exact hp1
  · obtain ⟨cmds, hp, hlen, _⟩ := (findPathFrom_result k c [] _ true p1 hp1).2 rfl
    rw [List.nil_append] at hp
    rw [hp]
    exact hlen

theorem findPath_complete_witness :
    (Playable sampleSmall ∧ SolvableWithin sampleSmall 1) ∧
    ∃ path, findPath sampleSmall [] ((1 : Nat) : Int) command.default = some (true, path) ∧
      path.length ≤ 1 :=
  ⟨⟨sampleSmall_playable,
      ⟨[⟨'A', 2, none⟩], by decide, (replay sampleSmall [⟨'A', 2, none⟩]).getD noBoard,
        by decide, by decide⟩⟩,
    findPath_complete sampleSmall sampleSmall_playable 1
      ⟨[⟨'A', 2, none⟩], by decide, (replay sampleSmall [⟨'A', 2, none⟩]).getD noBoard,
        by decide, by decide⟩⟩

/-- C7. Depth bound of `findPath`, for every board and every `last`: called with an empty
path and `depth >= 0`, a `true` result comes with at most `depth` commands; with the
sentinel `depth = -1` the bound is `rows * cols` (dimensions are never negative on a
constructed board, so `rows * cols >= 0`); and when the board does not pass the goal
test and `depth` is `0` or less than `-1`, the result is `false` with the path empty. -/
theorem findPath_depth_bound (c : Board) (last : command) :
    (∀ (depth : Int) (path : List command), 0 ≤ depth →
      findPath c [] depth last = some (true, path) → (path.length : Int) ≤ depth) ∧
    (∀ path : List command, 0 ≤ c.rows * c.cols →
      findPath c [] (-1) last = some (true, path) → (path.length : Int) ≤ c.rows * c.cols) ∧
    (∀ depth : Int, goalReached c = some false → depth = 0 ∨ depth < -1 →
      findPath c [] depth last = some (false, [])) := by
  refine ⟨fun depth path hd h => ?_, fun path hrc h => ?_, fun depth hg hd => ?_⟩
  · unfold findPath at h
    rw [if_neg (by omega)] at h
    obtain ⟨cmds, hp, hlen, _⟩ := (findPathFrom_result _ c [] last true path h).2 rfl
    rw [List.nil_append] at hp
    rw [hp]
    omega
  · unfold findPath at h
    rw [if_pos rfl] at h
    obtain ⟨cmds, hp, hlen, _⟩ := (findPathFrom_result _ c [] last true path h).2 rfl
    rw [List.nil_append] at hp
    rw [hp]
    unfold Board.getCols Board.getRows at hlen
    rw [mul_comm] at hrc ⊢
    omega
  · have hz : (if depth = -1 then c.getCols * c.getRows else depth).toNat = 0 := by
      rw [if_neg (by omega)]
      omega
    unfold findPath
    rw [hz, findPathFrom_zero, hg]

theorem findPath_depth_bound_witness :
    ((0 : Int) ≤ 2 ∧
      findPath sampleOne [] 2 command.default =
        some (true, [⟨'A', 2, none⟩, ⟨'A', 1, none⟩])) ∧
    (([⟨'A', 2, none⟩, ⟨'A', 1, none⟩] : List command).length : Int) ≤ 2 ∧
    findPath sampleOne [] 1 command.default = some (false, []) ∧
    findPath sampleOne [] 0 command.default = some (false, []) :=
  ⟨⟨by decide, by decide⟩,
    (findPath_depth_bound sampleOne command.default).1 2 _ (by decide) (by decide),
    by decide,
    (findPath_depth_bound sampleOne command.default).2.2 0 (by decide) (by decide)⟩

/-- C8, evaluated at the failing input. On the 2 x 2 board with robot `A` at (1,1) and
goal `any` at (2,1), the single command `A south` reaches the goal, yet the search driver
of `main` run with the default `max_moves = -1` produces three commands (replayed as
`A east`, `A south`, `A west`): the calls with `mx = -3` and `mx = -2` expand nothing
and the call with `mx = -1` is one depth-first search to depth `rows * cols`. -/
theorem searchDriver_default_not_minimal :
    searchDriver sampleSmall (-1) =
      some (0, [⟨'A', 3, none⟩, ⟨'A', 2, none⟩, ⟨'A', 1, none⟩]) ∧
    (replay sampleSmall [⟨'A', 2, none⟩]).bind goalReached = some true := by
  decide

/-- C9, evaluated at the failing input. On the 5 x 5 board with robot `A` at (1,1) and
goal `any` at (5,5), the search driver of `main` run with `max_moves = 1` produces a
path of two commands: its first call has `mx = max_moves - 2 = -1`, which `findPath`
takes for the sentinel and replaces by `rows * cols`. -/
theorem searchDriver_exceeds_cap_one :
    searchDriver sampleOne 1 = some (0, [⟨'A', 2, none⟩, ⟨'A', 1, none⟩]) ∧
    ¬ (([⟨'A', 2, none⟩, ⟨'A', 1, none⟩] : List command).length ≤ 1) := by
  decide

/-- C10, evaluated at the failing input. On the 5 x 5 board with robot `A` at (1,1), the
command `A east` changes the board, and `BuildPlausibleCommand` called with the board
and the board after the command throws instead of returning the command: the final loop
throws as soon as a position of `temp` equals the position in the second board, which
is the case exactly when a direction was found. -/
theorem buildPlausibleCommand_round_trip_throws :
    (sampleOne.moveRobot 0 1).map (fun x => x.1) = some true ∧
    (sampleOne.executeCommandToNewBoard ⟨'A', 1, none⟩).bind
      (fun b => BuildPlausibleCommand sampleOne b) = some Outcome.thrown := by
  decide

/-- C11, evaluated at the failing input. With `A` the 5 x 5 board holding robot `A` at
(1,1) and `B` the same board holding it at (3,3), no direction moves the robot of `A`
to its position in `B` (north and west are blocked, east ends on (1,5), south on (5,1)),
yet `BuildPlausibleCommand(A, B)` does not throw: it returns the command it started
with, `robot = 0`, `dir = 4`. The final loop throws only when a position of `temp`
equals the position in `B`. -/
theorem buildPlausibleCommand_no_match_returns :
    sampleOne.robots = sampleCentre.robots ∧
    sampleOne.robot_positions = [⟨1, 1⟩] ∧ sampleCentre.robot_positions = [⟨3, 3⟩] ∧
    (∀ d, d < 4 → (sampleOne.moveRobot 0 d).map (fun x => x.2.robot_positions) ≠
      some sampleCentre.robot_positions) ∧
    BuildPlausibleCommand sampleOne sampleCentre = some (Outcome.returned command.default) := by
  decide

/-- C16. Command wrappers equal `moveRobot`: on a board with pairwise distinct robot
names, for every robot index `i` and every direction code `d`, `whichRobot(getRobot(i))`
is `i`, `executeCommand(command(getRobot(i), d))` leaves the board in the state
`moveRobot(i, d)` leaves it in, and `executeCommandToNewBoard` returns that same state
(the receiver is a value here and is not touched); they fail exactly when `moveRobot`
does. -/
theorem command_wrappers_equal_moveRobot (b : Board) (hn : b.robots.Nodup) (i d : Nat)
    (hi : i < b.numRobots) :
    ∃ a, b.getRobot i = some a ∧ b.whichRobot a = some i ∧
      b.executeCommand ⟨a, d, none⟩ = (b.moveRobot i d).map Prod.snd ∧
      b.executeCommandToNewBoard ⟨a, d, none⟩ = (b.moveRobot i d).map Prod.snd := by
  obtain ⟨a, ha⟩ := getRobot_of_lt b i hi
  have hw := whichRobot_getRobot b hn i a ha
  refine ⟨a, ha, hw, ?_, ?_⟩
  · unfold Board.executeCommand
    simp only [hw]
    cases b.moveRobot i d with
    | none => rfl
    | some x => rfl
  · unfold Board.executeCommandToNewBoard
    simp only [hw]
    cases b.moveRobot i d with
    | none => rfl
    | some x => rfl

theorem command_wrappers_equal_moveRobot_witness :
    (sampleTwo.robots.Nodup ∧ 1 < sampleTwo.numRobots) ∧
    (∃ a, sampleTwo.getRobot 1 = some a ∧ sampleTwo.whichRobot a = some 1 ∧
      sampleTwo.executeCommand ⟨a, 2, none⟩ = (sampleTwo.moveRobot 1 2).map Prod.snd ∧
      sampleTwo.executeCommandToNewBoard ⟨a, 2, none⟩ =
        (sampleTwo.moveRobot 1 2).map Prod.snd) ∧
    (sampleTwo.executeCommand ⟨'B', 2, none⟩).map (fun x => x.robot_positions) =
      some [⟨1, 1⟩, ⟨5, 3⟩] :=
  ⟨⟨by decide, by decide⟩,
    command_wrappers_equal_moveRobot sampleTwo (by decide) 1 2 (by decide), by decide⟩

/-- C18. The function `moveRobot` preserves well-formedness: on a board whose robots
stand on pairwise distinct cells of the grid, whose border walls are present and whose
occupancy grid holds the letter of robot `k` exactly at the position of robot `k` and a
blank elsewhere, `moveRobot(i, d)` with `d` in `0..3` succeeds (no assertion fails) and
the board it leaves has the same three properties. -/
theorem moveRobot_preserves_wellFormed (b : Board) (hb : WellFormed b) (ho : OccupancyOK b)
    (i d : Nat) (hi : i < b.numRobots) (hd : d < 4) :
    ∃ r b1, b.moveRobot i d = some (r, b1) ∧ WellFormed b1 ∧ OccupancyOK b1 := by
  obtain ⟨p, hp⟩ := position_of_index b hb i hi
  obtain ⟨k, b1, hres, hsame, hwf, _⟩ := moveRobot_facts b hb i d p hp hd
  refine ⟨_, b1, hres, hwf, ?_⟩
  by_cases hk : k = 0
  · rw [hsame hk]
    exact ho
  · have ht : decide (0 < k) = true := by simp; omega
    rw [ht] at hres
    exact occupancy_moved b hb ho i d p hp hd b1 hres

theorem moveRobot_preserves_wellFormed_witness :
    (WellFormed sampleTwo ∧ OccupancyOK sampleTwo ∧ 0 < sampleTwo.numRobots ∧ 1 < 4) ∧
    ∃ r b1, sampleTwo.moveRobot 0 1 = some (r, b1) ∧ WellFormed b1 ∧ OccupancyOK b1 :=
  ⟨⟨sampleTwo_wellFormed, by decide, by decide, by decide⟩,
    moveRobot_preserves_wellFormed sampleTwo sampleTwo_wellFormed (by decide) 0 1
      (by decide) (by decide)⟩

/-- C19. Frame of a move: on a well-formed board, `moveRobot(i, d)` with `d` in `0..3`
leaves the dimensions, both wall grids, the goal, the goal robot, the robot names and
the position of every other robot as they were; robot `i` keeps its column when `d` is
north or south and its row when `d` is east or west; when the result is `false` the
whole board is unchanged, and when it is `true` the occupancy grid changes in two cells
only: the old cell holds a blank, the new cell holds the letter of robot `i`. -/
theorem moveRobot_frame_of_move (b : Board) (hb : WellFormed b) (i d : Nat)
    (hi : i < b.numRobots) (hd : d < 4) :
    ∃ p q r b1, b.getRobotPosition i = some p ∧ b.moveRobot i d = some (r, b1) ∧
      b1.rows = b.rows ∧ b1.cols = b.cols ∧ b1.vertical_walls = b.vertical_walls ∧
      b1.horizontal_walls = b.horizontal_walls ∧ b1.goal = b.goal ∧
      b1.goal_robot = b.goal_robot ∧ b1.robots = b.robots ∧
      b1.getRobotPosition i = some q ∧
      (∀ k, k ≠ i → b1.getRobotPosition k = b.getRobotPosition k) ∧
      ((d = 0 ∨ d = 2) → q.col = p.col) ∧ ((d = 1 ∨ d = 3) → q.row = p.row) ∧
      (r = false → b1 = b) ∧
      (r = true → q ≠ p ∧ b1.getspot p = some blank ∧ b1.getspot q = b.getRobot i ∧
        ∀ cell, cell ≠ p → cell ≠ q → b1.getspot cell = b.getspot cell) := by
  obtain ⟨p, hp⟩ := position_of_index b hb i hi
  obtain ⟨k, b1, hres, hsame, hwf, hr, hc, hv, hh, hrob, hgoal, hgr, hpos, _, _⟩ :=
    moveRobot_facts b hb i d p hp hd
  have hlt := index_lt_of_position b i p hp
  have hq : b1.getRobotPosition i = some (p.shift d k) := by
    unfold Board.getRobotPosition
    rw [hpos, List.getElem?_set_self hlt]
  have hothers : ∀ j, j ≠ i → b1.getRobotPosition j = b.getRobotPosition j := by
    intro j hj
    unfold Board.getRobotPosition
    rw [hpos, List.getElem?_set_ne (Ne.symm hj)]
  refine ⟨p, p.shift d k, _, b1, hp, hres, hr, hc, hv, hh, hgoal, hgr, hrob, hq, hothers,
    ?_, ?_, ?_, ?_⟩
  · rintro (rfl | rfl) <;> rfl
  · rintro (rfl | rfl) <;> rfl
  · intro hf
    exact hsame (by simpa using hf)
  · intro ht
    rw [ht] at hres
    obtain ⟨k2, hk2, hqin, _, hrel, _⟩ := moveRobot_moved b hb i d p hp hd b1 hres
    have hkk : p.shift d k2 = p.shift d k := by
      obtain ⟨g, hg⟩ := relocate_eq b i _ b1 hrel
      have h1 : b1.getRobotPosition i = some (p.shift d k2) := by
        unfold Board.getRobotPosition
        rw [hg]
        exact List.getElem?_set_self hlt
      rw [hq] at h1
      exact (Option.some.inj h1).symm
    rw [hkk] at hqin hrel
    obtain ⟨hpin, _, a, ha, _, hgrid⟩ := relocate_grid b i p _ b1 hp hrel
    have hk0 : k ≠ 0 := by
      have : 0 < k := by simpa using ht
      omega
    have hne : p.shift d k ≠ p := shift_ne p d k hk0
    have hgetspot : ∀ cell, b1.getspot cell =
        if InGrid b cell then Board.at2 b1.board (cell.row - 1).toNat (cell.col - 1).toNat
        else none := by
      intro cell
      unfold Board.getspot InGrid
      rw [hr, hc]
    have hinj : ∀ cell x : Position, InGrid b cell → InGrid b x →
        ((cell.row - 1).toNat = (x.row - 1).toNat ∧ (cell.col - 1).toNat = (x.col - 1).toNat) →
        cell = x := by
      intro cell x hcell hx hidx
      rw [(cell_index b cell hcell).2.2]
      exact cell_index_inj _ _ x hidx hx.1 hx.2.2.1
    refine ⟨hne, ?_, ?_, ?_⟩
    · rw [hgetspot, if_pos hpin, hgrid, if_neg (fun h => hne (hinj p _ hpin hqin h).symm),
        if_pos ⟨rfl, rfl⟩]
    · rw [hgetspot, if_pos hqin, hgrid, if_pos ⟨rfl, rfl⟩]
      exact ha.symm
    · intro cell hcp hcq
      rw [hgetspot]
      unfold Board.getspot
      by_cases hcell : InGrid b cell
      · rw [if_pos hcell, if_pos (show 1 ≤ cell.row ∧ cell.row ≤ b.rows ∧ 1 ≤ cell.col ∧
            cell.col ≤ b.cols from hcell), hgrid,
          if_neg (fun h => hcq (hinj cell _ hcell hqin h)),
          if_neg (fun h => hcp (hinj cell _ hcell hpin h))]
      · rw [if_neg hcell, if_neg (show ¬ (1 ≤ cell.row ∧ cell.row ≤ b.rows ∧ 1 ≤ cell.col ∧
            cell.col ≤ b.cols) from hcell)]

theorem moveRobot_frame_of_move_witness :
    (WellFormed sampleTwo ∧ 0 < sampleTwo.numRobots ∧ 1 < 4) ∧
    ∃ p q r b1, sampleTwo.getRobotPosition 0 = some p ∧
      sampleTwo.moveRobot 0 1 = some (r, b1) ∧
      b1.rows = sampleTwo.rows ∧ b1.cols = sampleTwo.cols ∧
      b1.vertical_walls = sampleTwo.vertical_walls ∧
      b1.horizontal_walls = sampleTwo.horizontal_walls ∧ b1.goal = sampleTwo.goal ∧
      b1.goal_robot = sampleTwo.goal_robot ∧ b1.robots = sampleTwo.robots ∧
      b1.getRobotPosition 0 = some q ∧
      (∀ k, k ≠ 0 → b1.getRobotPosition k = sampleTwo.getRobotPosition k) ∧
      (((1 : Nat) = 0 ∨ (1 : Nat) = 2) → q.col = p.col) ∧
      (((1 : Nat) = 1 ∨ (1 : Nat) = 3) → q.row = p.row) ∧
      (r = false → b1 = sampleTwo) ∧
      (r = true → q ≠ p ∧ b1.getspot p = some blank ∧ b1.getspot q = sampleTwo.getRobot 0 ∧
        ∀ cell, cell ≠ p → cell ≠ q → b1.getspot cell = sampleTwo.getspot cell) :=
  ⟨⟨sampleTwo_wellFormed, by decide, by decide⟩,
    moveRobot_frame_of_move sampleTwo sampleTwo_wellFormed 0 1 (by decide) (by decide)⟩

/-- C17. Construction establishes the board invariants. The function `placeRobot`
fails on a cell outside the grid, on a cell whose occupancy entry is not a blank, on the
goal cell, on a name that is not an uppercase letter and on a name already in use;
`setGoal` fails on a cell outside the grid, on a cell under a robot, and on a goal robot
that is neither `any` nor the one-letter name of a robot. Hence on every board built
from a fresh one by successful calls of `placeRobot` and `setGoal` (wall additions
allowed in between, any order) `placeRobot` fails on a cell under a robot, the robot
names are pairwise distinct, the robots stand on pairwise distinct cells of the grid,
and no robot is on the goal cell. -/
theorem loading_establishes_invariants :
    (∀ (b : Board) (p : Position) (a : Char),
      (¬ InGrid b p ∨ b.getspot p ≠ some blank ∨ p = b.goal ∨ ¬ ('A' ≤ a ∧ a ≤ 'Z') ∨
        a ∈ b.robots) → b.placeRobot p a = none) ∧
    (∀ (b : Board) (gr : String) (p : Position),
      (¬ InGrid b p ∨ (∃ k, k < b.numRobots ∧ b.getRobotPosition k = some p) ∨
        (gr ≠ "any" ∧ ∀ a, gr.data = [a] → a ∉ b.robots)) → b.setGoal gr p = none) ∧
    (∀ b : Board, Loaded b →
      (∀ p a, p ∈ b.robot_positions → b.placeRobot p a = none) ∧
      b.robots.Nodup ∧ b.robot_positions.Nodup ∧ (∀ p ∈ b.robot_positions, InGrid b p) ∧
      b.goal ∉ b.robot_positions) := by
  refine ⟨fun b p a hbad => ?_, fun b gr p hbad => ?_, fun b hb => ?_⟩
  · cases h : b.placeRobot p a with
    | none => rfl
    | some b1 =>
      exfalso
      obtain ⟨h1, h2, h3, h4, h5, _⟩ := placeRobot_spec b b1 p a h
      rcases hbad with hb | hb | hb | hb | hb
      · exact hb h1
      · exact hb h2
      · exact h3 hb
      · exact hb h4
      · exact h5 hb
  · cases h : b.setGoal gr p with
    | none => rfl
    | some b1 =>
      exfalso
      obtain ⟨h1, h2, _⟩ := setGoal_spec b b1 gr p h
      rcases hbad with hb | ⟨k, hk, hkp⟩ | ⟨hne, hname⟩
      · exact hb h1
      · exact (h2 k hk).2 hkp
      · rcases setGoal_name b b1 gr p h with hany | ⟨a, ha, hmem⟩
        · exact hne hany
        · exact hname a ha hmem
  · obtain ⟨hok, hgoal⟩ := loaded_ok b hb
    refine ⟨fun p a hp => ?_, hok.names_distinct, hok.wellFormed.robots_distinct,
      hok.wellFormed.robots_inside, hgoal⟩
    cases h : b.placeRobot p a with
    | none => rfl
    | some b1 =>
      exfalso
      obtain ⟨h1, h2, _⟩ := placeRobot_spec b b1 p a h
      exact blank_cell_free b hok p h1 h2 hp

theorem loading_establishes_invariants_witness :
    (Loaded sampleTwo ∧ (⟨1, 3⟩ : Position) ∈ sampleTwo.robot_positions) ∧
    sampleTwo.placeRobot ⟨1, 3⟩ 'C' = none ∧
    (sampleTwo.robots.Nodup ∧ sampleTwo.robot_positions.Nodup ∧
      (∀ p ∈ sampleTwo.robot_positions, InGrid sampleTwo p) ∧
      sampleTwo.goal ∉ sampleTwo.robot_positions) ∧
    sampleTwo.placeRobot ⟨2, 2⟩ 'A' = none ∧ sampleTwo.placeRobot ⟨1, 5⟩ 'C' = none ∧
    sampleTwo.setGoal "A" ⟨1, 3⟩ = none ∧ sampleTwo.setGoal "C" ⟨2, 2⟩ = none ∧
    (sampleTwo.placeRobot ⟨2, 2⟩ 'C').isSome = true :=
  ⟨⟨sampleTwo_loaded, by decide⟩,
    (loading_establishes_invariants.2.2 sampleTwo sampleTwo_loaded).1 ⟨1, 3⟩ 'C' (by decide),
    (loading_establishes_invariants.2.2 sampleTwo sampleTwo_loaded).2,
    by decide, by decide, by decide, by decide, by decide⟩

/-- C20. Border walls are always present: on every board in play (built by
`Board(rows, cols)`, loaded, and then changed by any successful wall additions and
moves) `getVerticalWall(r, 0.5)` and `getVerticalWall(r, cols + 0.5)` are `true` for
every row `r` in `1..rows`, and `getHorizontalWall(0.5, c)` and
`getHorizontalWall(rows + 0.5, c)` are `true` for every column `c` in `1..cols`; a
fresh board has no interior wall; and adding a wall never clears a wall. -/
theorem border_walls_always_present :
    (∀ b : Board, InPlay b →
      (∀ r : Int, 1 ≤ r → r ≤ b.rows →
        b.getVerticalWall r 1 = some true ∧ b.getVerticalWall r (2 * b.cols + 1) = some true) ∧
      (∀ c : Int, 1 ≤ c → c ≤ b.cols →
        b.getHorizontalWall 1 c = some true ∧
        b.getHorizontalWall (2 * b.rows + 1) c = some true)) ∧
    (∀ (r c g : Int) (b : Board), Board.construct r c g = some b →
      (∀ x j : Int, 1 ≤ x → x ≤ b.rows → 1 ≤ j → j ≤ b.cols - 1 →
        b.getVerticalWall x (2 * j + 1) = some false) ∧
      (∀ i y : Int, 1 ≤ i → i ≤ b.rows - 1 → 1 ≤ y → y ≤ b.cols →
        b.getHorizontalWall (2 * i + 1) y = some false)) ∧
    (∀ b b1 : Board,
      (∀ r2 c, b.addHorizontalWall r2 c = some b1 →
        (∀ x y, b.getHorizontalWall x y = some true → b1.getHorizontalWall x y = some true) ∧
        (∀ x y, b1.getVerticalWall x y = b.getVerticalWall x y)) ∧
      (∀ r c2, b.addVerticalWall r c2 = some b1 →
        (∀ x y, b.getVerticalWall x y = some true → b1.getVerticalWall x y = some true) ∧
        (∀ x y, b1.getHorizontalWall x y = b.getHorizontalWall x y))) :=
  ⟨fun b hb => border_queries b (inPlay_walls b hb),
    fun r c g b h => construct_no_interior_wall r c g b h,
    fun b b1 => addWall_keeps_walls b b1⟩

theorem border_walls_always_present_witness :
    (InPlay ((sampleBoxed.executeCommand ⟨'A', 1, none⟩).getD noBoard) ∧
      (1 : Int) ≤ 2 ∧ (2 : Int) ≤ sampleBoxed.rows) ∧
    (((sampleBoxed.executeCommand ⟨'A', 1, none⟩).getD noBoard).getVerticalWall 2 1 =
        some true ∧
      ((sampleBoxed.executeCommand ⟨'A', 1, none⟩).getD noBoard).getVerticalWall 2
        (2 * ((sampleBoxed.executeCommand ⟨'A', 1, none⟩).getD noBoard).cols + 1) =
        some true) ∧
    sampleBoxed.getVerticalWall 1 3 = some true ∧ sampleSmall.getVerticalWall 1 3 = some false :=
  ⟨⟨InPlay.move sampleBoxed _ 0 1 false (InPlay.loaded _ sampleBoxed_loaded) (by decide),
      by decide, by decide⟩,
    (border_walls_always_present.1 _
      (InPlay.move sampleBoxed _ 0 1 false (InPlay.loaded _ sampleBoxed_loaded)
        (by decide))).1 2 (by decide) (by decide),
    by decide, by decide⟩

/-- C12, counterexamples to the claim for every `maxdepth`. With `maxdepth = 4294967295`,
which `main` passes when `-max_moves` is not given, the test `curdepth <= maxdepth` never
fails: on the 2 x 2 board with robot `A` at (1,1), whose cell (1,1) is occupied after 0
moves, the recursion has no result for any number of nested levels, so no map is
produced. With `maxdepth = 2147483648` on the staircase of 1073741825 rows, the cell
(1073741825, 1073741825) is occupied after 2147483648 moves and after no fewer, and the
map returned holds -2147483648 there, the `int` that the assignment of the `unsigned`
depth gives. -/
theorem getAccessibility_minimum_counterexample :
    (WellFormed sampleSmall ∧ OccupiedAfter sampleSmall 0 ⟨1, 1⟩ ∧
      (∀ levels h, explore 4294967295 levels sampleSmall h 0 = none) ∧
      getAccessibility sampleSmall [] 4294967295 0 = none) ∧
    (WellFormed (staircase 1073741825) ∧
      OccupiedAfter (staircase 1073741825) 2147483648 ⟨1073741825, 1073741825⟩ ∧
      (∀ j, OccupiedAfter (staircase 1073741825) j ⟨1073741825, 1073741825⟩ →
        2147483648 ≤ j) ∧
      ∃ h1, getAccessibility (staircase 1073741825) [] 2147483648 0 = some h1 ∧
        Board.at2 h1 1073741824 1073741824 = some (-2147483648)) := by
  have hmob : Mobile sampleSmall :=
    ⟨0, 1, ((sampleSmall.moveRobot 0 1).getD (false, noBoard)).2, by decide, by decide⟩
  refine ⟨⟨sampleSmall_wellFormed, ⟨sampleSmall, 0, ReachIn.here _, by decide, by decide⟩,
      fun levels h => explore_unbounded levels sampleSmall h 0 sampleSmall_wellFormed hmob
        (by omega),
      explore_unbounded _ sampleSmall [] 0 sampleSmall_wellFormed hmob (by omega)⟩,
    staircase_wellFormed _ (by omega), staircase_occupied, staircase_not_earlier,
    staircase_wrapped_entry []⟩

/-- C13, counterexample to the claim as stated. On the staircase of 1073741825 rows, a
well-formed board, with `maxdepth = 2147483648`, the map returned holds -2147483648 in
the cell (1073741825, 1073741825): a value other than `-1` and `INT_MAX` that is not a
number of moves. -/
theorem getAccessibility_depths_achievable_counterexample :
    WellFormed (staircase 1073741825) ∧
    ∃ (h1 : List (List Int)) (x : Int),
      getAccessibility (staircase 1073741825) [] 2147483648 0 = some h1 ∧
      Board.at2 h1 1073741824 1073741824 = some x ∧ x ≠ -1 ∧ x ≠ intMax ∧
      ¬ ∃ k : Nat, x = (k : Int) ∧
        OccupiedAfter (staircase 1073741825) k
          ⟨((1073741824 : Nat) : Int) + 1, ((1073741824 : Nat) : Int) + 1⟩ := by
  obtain ⟨h1, he, hat⟩ := staircase_wrapped_entry []
  refine ⟨staircase_wellFormed _ (by omega), h1, -2147483648, he, hat, by omega, ?_, ?_⟩
  · unfold intMax
    omega
  · rintro ⟨k, hk, _⟩
    omega

/-- C14, counterexample to the claim as stated. The recording step at depth 2147483648,
which `maxdepth = 2147483648` allows, writes -2147483648 into a cell that holds `-1`;
and on the staircase of 1073741825 rows with `maxdepth = 2147483648` the map returned
holds that value, which is not between `0` and `maxdepth`. -/
theorem getAccessibility_depths_bounded_counterexample :
    record [[-1]] ⟨1, 1⟩ 2147483648 = some [[-2147483648]] ∧
    ∃ (h1 : List (List Int)) (x : Int),
      getAccessibility (staircase 1073741825) [] 2147483648 0 = some h1 ∧
      Board.at2 h1 1073741824 1073741824 = some x ∧ x ≠ -1 ∧ x ≠ intMax ∧
      ¬ (0 ≤ x ∧ x ≤ ((2147483648 : Nat) : Int)) := by
  obtain ⟨h1, he, hat⟩ := staircase_wrapped_entry []
  refine ⟨by decide, h1, -2147483648, he, hat, by omega, ?_, by omega⟩
  unfold intMax
  omega

/-- C15, evaluated at the failing input. On the 2 x 2 board whose robot `A` is shut in
on (1,1) by a vertical wall at (1, 1.5) and a horizontal wall at (1.5, 1), no move
changes the board, so the traversal never reaches depth `maxdepth + 1` and the sweep,
which sits in the `else` branch of `curdepth <= maxdepth`, never runs:
`getAccessibility(board, h, 3, 0)` leaves `INT_MAX`, not `-1`, in the three cells no
robot reaches, and `printAccessibility` prints them as numbers. -/
theorem getAccessibility_no_sweep_when_stuck :
    (∀ d, d < 4 → sampleBoxed.moveRobot 0 d = some (false, sampleBoxed)) ∧
    sampleBoxed.numRobots = 1 ∧
    getAccessibility sampleBoxed [] 3 0 =
      some [[0, 2147483647], [2147483647, 2147483647]] ∧
    (getAccessibility sampleBoxed [] 3 0).map printAccessibility =
      some [[some 0, some 2147483647], [some 2147483647, some 2147483647]] := by
  decide

/-- C21. Tie-breaking of `findPath` by the order of its loops: on a playable board,
for every `depth >= 0`, when `findPath` called with an empty path returns `true`, the
moves of the returned path read from the start to the finish (one move per command) form
a candidate, that is a sequence of board-changing moves that ends on a board passing
the goal test with no earlier board passing it, and this sequence is the
lexicographically first, robot index before direction code, among all candidates of
at most `depth` moves. -/
theorem findPath_first_in_loop_order (c : Board) (hc : Playable c) (depth : Int)
    (hd : 0 ≤ depth) (path : List command)
    (h : findPath c [] depth command.default = some (true, path)) :
    (movesOf c path).length = path.length ∧ GoalRun c (movesOf c path) ∧
      ∀ t, GoalRun c t → (t.length : Int) ≤ depth → LexLe (movesOf c path) t := by
  unfold findPath at h
  rw [if_neg (by omega)] at h
  obtain ⟨ms, hrun, hmap, hmin⟩ :=
    findPathFrom_first _ c command.default path hc (pruneSafe_default c) h
  obtain ⟨hdec, hlen⟩ := movesOf_decode c path.reverse ms hmap
  have hmoves : movesOf c path = ms := hdec
  rw [hmoves]
  refine ⟨?_, hrun, fun t ht hlt => hmin t ht (by omega)⟩
  rw [← hlen, List.length_reverse]

theorem findPath_first_in_loop_order_witness :
    (Playable sampleOne ∧ (0 : Int) ≤ 2 ∧
      findPath sampleOne [] 2 command.default =
        some (true, [⟨'A', 2, none⟩, ⟨'A', 1, none⟩])) ∧
    movesOf sampleOne [⟨'A', 2, none⟩, ⟨'A', 1, none⟩] = [(0, 1), (0, 2)] ∧
    ((movesOf sampleOne [⟨'A', 2, none⟩, ⟨'A', 1, none⟩]).length =
        ([⟨'A', 2, none⟩, ⟨'A', 1, none⟩] : List command).length ∧
      GoalRun sampleOne (movesOf sampleOne [⟨'A', 2, none⟩, ⟨'A', 1, none⟩]) ∧
      ∀ t, GoalRun sampleOne t → (t.length : Int) ≤ 2 →
        LexLe (movesOf sampleOne [⟨'A', 2, none⟩, ⟨'A', 1, none⟩]) t) ∧
    ∀ depth : Int, 2 ≤ depth →
      findPath sampleOne [] depth command.default =
        some (true, [⟨'A', 2, none⟩, ⟨'A', 1, none⟩]) :=
  ⟨⟨sampleOne_playable, by decide, by decide⟩, by decide,
    findPath_first_in_loop_order sampleOne sampleOne_playable 2 (by decide) _ (by decide),
    sampleOne_any_depth⟩

/-- C22. The test `last.dir != d || last.robonum != i` of `findPath` is redundant:
on every well-formed board (with at most 65536 robots, so that the index fits the
`unsigned short` member `robonum`; a loaded board has at most 26), for every depth and
every initial path, `findPath` called from the top level, with the default `last`,
gives the same flag and the same path as the variant with the test removed. -/
theorem findPath_prune_redundant (c : Board) (hc : WellFormed c) (hn : c.numRobots ≤ 65536)
    (depth : Int) (path : List command) :
    findPath c path depth command.default = findPathUnpruned c path depth command.default := by
  unfold findPath findPathUnpruned
  exact findPathFrom_unpruned _ c path command.default hc hn (pruneSafe_default c)

theorem findPath_prune_redundant_witness :
    (WellFormed sampleSmall ∧ sampleSmall.numRobots ≤ 65536) ∧
    findPathUnpruned sampleSmall [] (-1) command.default =
      some (true, [⟨'A', 3, none⟩, ⟨'A', 2, none⟩, ⟨'A', 1, none⟩]) ∧
    findPath sampleSmall [] (-1) command.default =
      findPathUnpruned sampleSmall [] (-1) command.default :=
  ⟨⟨sampleSmall_wellFormed, by decide⟩, by decide,
    findPath_prune_redundant sampleSmall sampleSmall_wellFormed (by decide) (-1) []⟩

/-- C23. `BuildPlausibleCommand` never returns a real command. For every pair of
boards `a` and `b`: a call that returns normally returns the default command (`robot`
0, `dir` 4); and when the boards hold the same number of robots and some direction `d`
moves the differing robot `sd` of `a` to its position in `b`, the call does not return
normally, and on a well-formed `a` it throws from the final comparison loop. (A robot
`sd` that `moveRobot` accepts exists, so the number of robots is not zero.) -/
theorem buildPlausibleCommand_returns_only_default (a b : Board) :
    (∀ c, BuildPlausibleCommand a b = some (Outcome.returned c) → c = command.default) ∧
    (∀ (sd d : Nat) (r : Bool) (temp : Board),
      a.robot_positions.length = b.robot_positions.length →
      firstDifference a b (List.range a.robot_positions.length) = some sd → d < 4 →
      a.moveRobot sd d = some (r, temp) →
      temp.robot_positions[sd]? = b.robot_positions[sd]? →
      (∀ c, BuildPlausibleCommand a b ≠ some (Outcome.returned c)) ∧
      (WellFormed a → BuildPlausibleCommand a b = some Outcome.thrown)) := by
  have hno : ∀ (sd : Nat) (cmd : command) (temp : Board),
      a.robot_positions.length = b.robot_positions.length →
      somePositionEqual temp b (List.range a.robot_positions.length) = some false →
      ¬ ∃ x, temp.robot_positions[sd]? = some x ∧ b.robot_positions[sd]? = some x := by
    intro sd cmd temp hl hs ⟨x, hx, hbx⟩
    have hsd : sd < a.robot_positions.length := by
      rw [hl]
      exact index_lt_of_position b sd x hbx
    exact somePositionEqual_false temp b _ hs sd (List.mem_range.2 hsd) x hx hbx
  refine ⟨fun c h => ?_, fun sd d r temp hl hf hd hm he => ?_⟩
  · rcases buildPlausibleCommand_cases a b _ h with ⟨_, h1 | h1⟩ | ⟨hl, sd, cmd, temp, _, hdl, h1 | h1⟩
    · cases h1.1
    · exact Outcome.returned.inj h1.1
    · cases h1.1
    · obtain ⟨hc, hs⟩ := h1
      rw [Outcome.returned.inj hc]
      rcases directionLoop_result a b sd _ _ _ _ _ hdl with h2 | h2
      · exact h2
      · exact absurd h2 (hno sd cmd temp hl hs)
  · have hret : ∀ c, BuildPlausibleCommand a b ≠ some (Outcome.returned c) := by
      intro c h
      rcases buildPlausibleCommand_cases a b _ h with
        ⟨hne, _⟩ | ⟨_, sd2, cmd, temp2, hf2, hdl, h1 | h1⟩
      · exact hne hl
      · cases h1.1
      · rw [hf] at hf2
        obtain rfl := Option.some.inj hf2
        have hmatch := directionLoop_match a b sd _ _ _ _ _ hdl
          ⟨d, by simp; omega, r, temp, hm, he⟩
        exact hno sd cmd temp2 hl h1.2 hmatch
    refine ⟨hret, fun ha => ?_⟩
    have hsd := moveRobot_index a sd d _ hm
    obtain ⟨cmd1, temp1, hdl, hl1⟩ := directionLoop_total a b ha sd hsd hl [0, 1, 2, 3]
      command.default a (by simp) rfl
    obtain ⟨res, hres⟩ := somePositionEqual_total temp1 b a.robot_positions.length hl1 hl.symm
      (List.range a.robot_positions.length) (fun i hi => List.mem_range.1 hi)
    have hb : BuildPlausibleCommand a b =
        some (if res then Outcome.thrown else Outcome.returned cmd1) := by
      unfold BuildPlausibleCommand
      simp only [hl, if_true]
      rw [← hl]
      simp only [hf, hdl, hres]
      cases res <;> rfl
    cases res with
    | true => simpa using hb
    | false => exact absurd (by simpa using hb) (hret cmd1)

theorem buildPlausibleCommand_returns_only_default_witness :
    (BuildPlausibleCommand sampleOne sampleCentre = some (Outcome.returned command.default) ∧
      command.default = command.default) ∧
    (sampleOne.moveRobot 0 1).isSome = true ∧
    BuildPlausibleCommand sampleOne ((sampleOne.moveRobot 0 1).getD (false, noBoard)).2 =
      some Outcome.thrown :=
  ⟨⟨by decide,
      (buildPlausibleCommand_returns_only_default sampleOne sampleCentre).1 command.default
        (by decide)⟩,
    by decide,
    ((buildPlausibleCommand_returns_only_default sampleOne
        ((sampleOne.moveRobot 0 1).getD (false, noBoard)).2).2 0 1
      ((sampleOne.moveRobot 0 1).getD (false, noBoard)).1
      ((sampleOne.moveRobot 0 1).getD (false, noBoard)).2
      (by decide) (by decide) (by decide) (by decide) (by decide)).2 sampleOne_wellFormed⟩

/-- C24, counterexample to the claim as stated. The staircase of 1073741825 rows is a
well-formed board whose robot can move, and 2147483648 is below the unsigned maximum;
yet the map that `getAccessibility(board, h, 2147483648, 0)` returns holds -2147483648
in the cell (1073741825, 1073741825), which is neither `-1` nor a depth in
`[0, maxdepth]`. -/
theorem getAccessibility_sweeps_when_mobile_counterexample :
    WellFormed (staircase 1073741825) ∧ Mobile (staircase 1073741825) ∧
    (2147483648 : Nat) < 4294967295 ∧
    ∃ (h1 : List (List Int)) (x : Int),
      getAccessibility (staircase 1073741825) [] 2147483648 0 = some h1 ∧
      Board.at2 h1 1073741824 1073741824 = some x ∧
      ¬ (x = -1 ∨ (0 ≤ x ∧ x ≤ ((2147483648 : Nat) : Int))) := by
  obtain ⟨h1, he, hat⟩ := staircase_wrapped_entry []
  exact ⟨staircase_wellFormed _ (by omega), staircase_mobile _ (by omega), by omega,
    h1, -2147483648, he, hat, by omega⟩

/-- C25, evaluated at the failing inputs. The driver prints `mx - 1` as the number of
moves, with `mx` the loop variable after the loop, which is the depth bound of the
successful call and not the size of the path. On the 5 x 5 board with robot `A` at (1,1)
and goal `any` at (5,5), `max_moves = 5` makes the first call search to depth 3: it
finds the two commands `A east`, `A south` and the driver reports 3 moves. On the 2 x 2
board with robot `A` at (1,1) and goal `any` at (2,1), the default `max_moves = -1`
ends with three commands found by the call with `mx = -1` and the driver reports -1. -/
theorem searchDriver_report_is_depth_bound :
    searchDriver sampleOne 5 = some (4, [⟨'A', 2, none⟩, ⟨'A', 1, none⟩]) ∧
    (searchDriver sampleOne 5).map (fun r => (r.1 - 1, (r.2.length : Int))) = some (3, 2) ∧
    searchDriver sampleSmall (-1) =
      some (0, [⟨'A', 3, none⟩, ⟨'A', 2, none⟩, ⟨'A', 1, none⟩]) ∧
    (searchDriver sampleSmall (-1)).map (fun r => (r.1 - 1, (r.2.length : Int))) =
      some (-1, 3) := by
  decide

/-- C26. For every board, depth, last command and initial path: when `findPath`
returns `false` the path is what it was; when it returns `true` the path is the initial
content followed by commands `cmds`, which are exactly what the same call appends to an
empty path and, on a board with distinct robot names, a solution when replayed from the
last to the first. Hence from an empty initial path a non-empty path afterwards implies
success. -/
theorem findPath_touches_path_only_on_success (c : Board) (path : List command)
    (depth : Int) (last : command) (r : Bool) (path1 : List command)
    (h : findPath c path depth last = some (r, path1)) :
    (r = false → path1 = path) ∧
    (r = true → ∃ cmds, path1 = path ++ cmds ∧
      findPath c [] depth last = some (true, cmds) ∧
      (c.robots.Nodup →
        ∃ b1, replay c cmds.reverse = some b1 ∧ goalReached b1 = some true)) ∧
    (path = [] → path1 ≠ [] → r = true) := by
  unfold findPath at h ⊢
  have hres := findPathFrom_result _ c path last r path1 h
  refine ⟨hres.1, fun hr => ?_, fun hp hne => ?_⟩
  · subst hr
    rw [findPathFrom_carries] at h
    cases h0 : findPathFrom (if depth = -1 then c.getCols * c.getRows else depth).toNat c []
        last with
    | none => rw [h0] at h; cases h
    | some y =>
      obtain ⟨r0, cmds⟩ := y
      rw [h0] at h
      simp only [Option.map_some', Option.some.injEq, Prod.mk.injEq] at h
      obtain ⟨rfl, rfl⟩ := h
      refine ⟨cmds, rfl, rfl, fun hn => ?_⟩
      obtain ⟨cmds2, he, _, hrep⟩ := (findPathFrom_result _ c [] last true cmds h0).2 rfl
      rw [List.nil_append] at he
      subst he
      exact hrep hn
  · cases r with
    | true => rfl
    | false => exact absurd ((hres.1 rfl).trans hp) hne

theorem findPath_touches_path_only_on_success_witness :
    findPath sampleOne [⟨'B', 0, none⟩] 2 command.default =
        some (true, [⟨'B', 0, none⟩, ⟨'A', 2, none⟩, ⟨'A', 1, none⟩]) ∧
      ((true = false → [(⟨'B', 0, none⟩ : command), ⟨'A', 2, none⟩, ⟨'A', 1, none⟩] =
          [⟨'B', 0, none⟩]) ∧
       (true = true → ∃ cmds,
          [(⟨'B', 0, none⟩ : command), ⟨'A', 2, none⟩, ⟨'A', 1, none⟩] =
            [⟨'B', 0, none⟩] ++ cmds ∧
          findPath sampleOne [] 2 command.default = some (true, cmds) ∧
          (sampleOne.robots.Nodup →
            ∃ b1, replay sampleOne cmds.reverse = some b1 ∧ goalReached b1 = some true)) ∧
       (([⟨'B', 0, none⟩] : List command) = [] →
          [(⟨'B', 0, none⟩ : command), ⟨'A', 2, none⟩, ⟨'A', 1, none⟩] ≠ [] → true = true)) :=
  ⟨by decide,
    findPath_touches_path_only_on_success sampleOne [⟨'B', 0, none⟩] 2 command.default true
      [⟨'B', 0, none⟩, ⟨'A', 2, none⟩, ⟨'A', 1, none⟩] (by decide)⟩

end Robochet
